import Mathlib

/-!
# MarkdownToHtmlParser: a shallow embedding of `markdown_parser.hpp`

The converter is one forward scan over the document with a single mutable
parse context (`args`).  The embedding keeps that shape: every C++ function
`f(args&)` becomes a Lean function from `args` to `args`.

* `std::string` is a `List Char` (one `Char` per C++ `char`); the output
  stream `html_out` is the list of characters written so far.
* `markdown.at(i)` and `substr(pos, len)` throw `std::out_of_range`; a function
  that can reach such a call returns `Except Fault _` and the throw is
  `Fault.out_of_range`.
* `size_t` subtraction wraps modulo `2^64` (`sub64`).  Additions are not
  reduced: the cursor never exceeds the document length by more than a small
  constant, and a `std::string` is shorter than `2^63`.
* a `while` loop is a structurally recursive function on a counter.  Scanning
  loops that stop at the end of the document get the number of remaining
  characters as counter, which they cannot exhaust before `iter_good` fails.
  Loops that read with `.at()` and no `iter_good` test get one more, and throw
  before it is used up.  The line loop and the driver loop get the number of
  remaining characters, resp. the document length.  A loop that can fail
  reports an exhausted counter as `Fault.fuel`, so that a result `ok` is always
  a result of the C++ function; `markdown_to_html_not_fuel` shows that the
  counters are enough, so `Fault.fuel` is never the result.
* `std::vector<list> ongoing_lists` is a `List list` whose head is `back()`.
-/

namespace markdown_parsing

/-- The two ways a run of the model can stop without a result. -/
inductive Fault where
  | out_of_range
  | fuel
  deriving DecidableEq, Repr

deriving instance DecidableEq for Except

/-- The C++ `std::pair<std::string, std::string>`: opening and closing tag. -/
abbrev tags_pair := List Char × List Char

/-- The callback type: language name, whole source, code begin, code end. -/
abbrev syntax_highlighting_callback := List Char → List Char → Nat → Nat → List Char

/-- The default `heading_tags` array. -/
def default_heading_tags (i : Fin 6) : tags_pair :=
  if i.val = 0 then ("<h1>".toList, "</h1>\n".toList)
  else if i.val = 1 then ("<h2>".toList, "</h2>\n".toList)
  else if i.val = 2 then ("<h3>".toList, "</h3>\n".toList)
  else if i.val = 3 then ("<h4>".toList, "</h4>\n".toList)
  else if i.val = 4 then ("<h5>".toList, "</h5>\n".toList)
  else ("<h6>".toList, "</h6>\n".toList)

/-- The tag configuration `struct html_tags` with its default member values. -/
structure html_tags where
  heading_tags : Fin 6 → tags_pair := default_heading_tags
  italic_tags : tags_pair := ("<em>".toList, "</em>".toList)
  bold_tags : tags_pair := ("<strong>".toList, "</strong>".toList)
  blockquote_tags : tags_pair := ("<blockquote>\n".toList, "</blockquote>\n".toList)
  highlight_tags : tags_pair := ("<mark>".toList, "</mark>".toList)
  strikethrough_tags : tags_pair := ("<del>".toList, "</del>".toList)
  ordered_list_tags : tags_pair := ("<ol>".toList, "</ol>".toList)
  ordered_list_item_tags : tags_pair := ("<li>".toList, "</li>".toList)
  unordered_list_tags : tags_pair := ("<ul>".toList, "</ul>".toList)
  unordered_list_item_tags : tags_pair := ("<li>".toList, "</li>".toList)
  code_tags : tags_pair := ("<code>".toList, "</code>".toList)
  code_block_tags : tags_pair := ("<pre><code>".toList, "</code></pre>".toList)
  link_additional_tags : tags_pair := ([], [])
  image_additional_tags : tags_pair := ([], [])
  horizontal_rule : List Char := "<hr>".toList
  syntax_highlighting : Option syntax_highlighting_callback := none

/-- The configuration `html_tags{}` used when the caller passes none. -/
def default_tags : html_tags := {}

/-- One frame of the list stack, `struct list`. -/
structure list where
  ordered : Bool
  items_indentation : Nat
  indentation_diffrence : Nat
  deriving DecidableEq, Repr

/-- The parse context `struct args`. -/
structure args where
  html_out : List Char
  markdown : List Char
  tags : html_tags
  iterator : Nat := 0
  block_begin : Nat := 0
  line_indentation : Nat := 0
  blockquote_level : Nat := 0
  is_paragraph_open : Bool := false
  paragraph_ended_with_space : Bool := false
  ongoing_lists : List list := []

/-- Unsigned 64-bit subtraction of two `size_t` values. -/
def sub64 (a b : Nat) : Nat := if b ≤ a then a - b else a + 2 ^ 64 - b

/-- The bounds-checked `std::string::at`. -/
def char_at (s : List Char) (i : Nat) : Except Fault Char :=
  match s[i]? with
  | some c => .ok c
  | none => .error .out_of_range

/-- The call `std::string::substr(pos, len)`: throws when `pos > size()`. -/
def substr (s : List Char) (pos len : Nat) : Except Fault (List Char) :=
  if pos > s.length then .error .out_of_range else .ok ((s.drop pos).take len)

/-- The macro `iter_good`. -/
def iter_good (a : args) : Bool := decide (a.iterator < a.markdown.length)

/-- The statement `_args.html_out << s`. -/
def emit (a : args) (s : List Char) : args := { a with html_out := a.html_out ++ s }

/-- The loop `while (iter_good && p(markdown.at(iterator))) iterator++`, on a counter. -/
def skip_while (p : Char → Bool) (md : List Char) : Nat → Nat → Nat
  | 0, it => it
  | fuel + 1, it =>
    match md[it]? with
    | some c => if p c then skip_while p md fuel (it + 1) else it
    | none => it

/-- The same loop with the counter it needs: the characters left after the cursor. -/
def scan (p : Char → Bool) (md : List Char) (it : Nat) : Nat :=
  skip_while p md (md.length - it) it

/-- The function `count_char`: skip a run of `c`, return its length. -/
def count_char (c : Char) (a : args) : Nat × args :=
  let iterator_copy := a.iterator
  let a := { a with iterator := scan (fun x => decide (x = c)) a.markdown a.iterator }
  (sub64 a.iterator iterator_copy, a)

/-- The loop of `get_indentation`: a space counts 1, a tab 4. -/
def get_indentation_loop (md : List Char) : Nat → Nat → Nat → Nat × Nat
  | 0, it, indentation => (indentation, it)
  | fuel + 1, it, indentation =>
    match md[it]? with
    | some c =>
      if c = ' ' then get_indentation_loop md fuel (it + 1) (indentation + 1)
      else if c = '\t' then get_indentation_loop md fuel (it + 1) (indentation + 4)
      else (indentation, it)
    | none => (indentation, it)

/-- The function `get_indentation`. -/
def get_indentation (a : args) : Nat × args :=
  let r := get_indentation_loop a.markdown (a.markdown.length - a.iterator) a.iterator 0
  (r.1, { a with iterator := r.2 })

/-- The C `isdigit` on an ASCII character. -/
def isdigit (c : Char) : Bool := decide ('0' ≤ c ∧ c ≤ '9')

/-- The loop of `is_ordered_list_element`; `good` is `iter_good`, which the loop
never changes since it moves `iterator_copy` only. -/
def digits_loop (md : List Char) (good : Bool) : Nat → Nat → Except Fault Nat
  | 0, _ => .error .fuel
  | fuel + 1, iterator_copy =>
    if good then
      match char_at md iterator_copy with
      | .error e => .error e
      | .ok c => if isdigit c then digits_loop md good fuel (iterator_copy + 1) else .ok iterator_copy
    else .ok iterator_copy

/-- The function `is_ordered_list_element`. -/
def is_ordered_list_element (a : args) : Except Fault Bool :=
  match digits_loop a.markdown (iter_good a) (a.markdown.length - a.iterator + 1) a.iterator with
  | .error e => .error e
  | .ok iterator_copy =>
    match char_at a.markdown iterator_copy with
    | .error e => .error e
    | .ok c => .ok (decide (c = '.') && decide (iterator_copy ≠ a.iterator))

/-- The function `try_close_paragraph`. -/
def try_close_paragraph (a : args) : args :=
  if a.is_paragraph_open then { emit a "</p>".toList with is_paragraph_open := false } else a

/-- The closing item tag of a frame. -/
def item_tags (t : html_tags) (ordered : Bool) : tags_pair :=
  if ordered then t.ordered_list_item_tags else t.unordered_list_item_tags

/-- The list tag pair of a frame. -/
def list_tags (t : html_tags) (ordered : Bool) : tags_pair :=
  if ordered then t.ordered_list_tags else t.unordered_list_tags

/-- The loop of `close_all_lists` over the stack. -/
def close_all_lists_loop (t : html_tags) : List list → List Char → List Char
  | [], out => out
  | top :: rest, out =>
    close_all_lists_loop t rest (out ++ (item_tags t top.ordered).2 ++ (list_tags t top.ordered).2)

/-- The function `close_all_lists`. -/
def close_all_lists (a : args) : args :=
  { a with html_out := close_all_lists_loop a.tags a.ongoing_lists a.html_out, ongoing_lists := [] }

/-- The function `dump_block`. -/
def dump_block (a : args) : Except Fault args :=
  match substr a.markdown a.block_begin (sub64 a.iterator a.block_begin) with
  | .error e => .error e
  | .ok s => .ok { emit a s with block_begin := a.iterator }

/-- The function `dump_paragraph`. -/
def dump_paragraph (a : args) (close_paragraph : Bool) : Except Fault args :=
  let a := if !a.paragraph_ended_with_space then emit a [' '] else a
  if a.iterator = a.block_begin then
    if close_paragraph then .ok (try_close_paragraph a)
    else if !a.is_paragraph_open then .ok (emit { a with is_paragraph_open := true } "<p>".toList)
    else .ok a
  else
    let a :=
      if !a.is_paragraph_open && decide (a.ongoing_lists.length = 0) then
        { emit a "<p>".toList with is_paragraph_open := true }
      else a
    match char_at a.markdown (sub64 a.iterator 1) with
    | .error e => .error e
    | .ok c =>
      let a := { a with paragraph_ended_with_space := decide (c = ' ') }
      match dump_block a with
      | .error e => .error e
      | .ok a =>
        if close_paragraph && a.is_paragraph_open then
          .ok { emit a "</p>".toList with is_paragraph_open := false }
        else .ok a

/-- The bounds-checked `heading_tags.at(i)`. -/
def heading_at (t : html_tags) (i : Nat) : Except Fault tags_pair :=
  if h : i < 6 then .ok (t.heading_tags ⟨i, h⟩) else .error .out_of_range

/-- The function `parse_heading`. -/
def parse_heading (a : args) : Except Fault args :=
  let r := count_char '#' a
  let level := r.1
  let a := r.2
  match char_at a.markdown a.iterator with
  | .error e => .error e
  | .ok c =>
    if c ≠ ' ' then .ok a
    else
      let a := { a with iterator := a.iterator + 1 }
      let level := if level > 6 then 6 else level
      match heading_at a.tags (sub64 level 1) with
      | .error e => .error e
      | .ok tp =>
        let a := { a with block_begin := a.iterator }
        let a := { a with iterator := scan (fun x => decide (x ≠ '\n')) a.markdown a.iterator }
        match substr a.markdown a.block_begin (sub64 a.iterator a.block_begin) with
        | .error e => .error e
        | .ok name =>
          let anchor_name := name.map (fun x => if x = ' ' then '-' else x)
          let a := emit a "<a name=\"".toList
          let a := emit a anchor_name
          let a := emit a "\"></a>".toList
          let a := emit a tp.1
          match dump_block a with
          | .error e => .error e
          | .ok a => .ok (emit a tp.2)

/-- The loop `while (left_asterisk > right_asteriks) { out << '*'; left_asterisk--; }`. -/
def left_excess (right : Nat) : Nat → args → Nat → args × Nat
  | 0, a, left => (a, left)
  | fuel + 1, a, left =>
    if left > right then left_excess right fuel (emit a ['*']) (left - 1) else (a, left)

/-- The loop `while (left_asterisk < right_asteriks) { out << '*'; right_asteriks--; }`. -/
def right_excess (left : Nat) : Nat → args → Nat → args
  | 0, a, _ => a
  | fuel + 1, a, right =>
    if left < right then right_excess left fuel (emit a ['*']) (right - 1) else a

/-- The `switch (level)` of `parse_asteriks`. -/
def emphasis_switch (a : args) (level : Nat) : Except Fault args :=
  if level = 1 then
    match dump_block (emit a a.tags.italic_tags.1) with
    | .error e => .error e
    | .ok a => .ok (emit a a.tags.italic_tags.2)
  else if level = 2 then
    match dump_block (emit a a.tags.bold_tags.1) with
    | .error e => .error e
    | .ok a => .ok (emit a a.tags.bold_tags.2)
  else if level = 3 then
    match dump_block (emit (emit a a.tags.italic_tags.1) a.tags.bold_tags.1) with
    | .error e => .error e
    | .ok a => .ok (emit (emit a a.tags.bold_tags.2) a.tags.italic_tags.2)
  else .ok a

/-- The function `parse_asteriks`; `level` is a `uint8_t`. -/
def parse_asteriks (a : args) : Except Fault args :=
  let r := count_char '*' a
  let left_asterisk := r.1
  let a := r.2
  let a := { a with block_begin := a.iterator }
  let a := { a with iterator := scan (fun x => decide (x ≠ '*') && decide (x ≠ '\n')) a.markdown a.iterator }
  if !iter_good a || decide (a.markdown[a.iterator]? = some '\n') then
    .ok { a with block_begin := sub64 a.block_begin left_asterisk }
  else
    let r := count_char '*' a
    let right_asteriks := r.1
    let a := r.2
    let r := left_excess right_asteriks left_asterisk a left_asterisk
    let a := r.1
    let left_asterisk := r.2
    let level := (min left_asterisk right_asteriks) % 256
    let a := { a with iterator := sub64 a.iterator right_asteriks }
    match emphasis_switch a level with
    | .error e => .error e
    | .ok a =>
      let a := { a with iterator := a.iterator + right_asteriks }
      let a := { a with block_begin := a.iterator }
      .ok (right_excess left_asterisk right_asteriks a right_asteriks)

/-- The loop shared by `parse_strikethrough` (`c = '~'`, `n = 2`) and `parse_code_block`
(`c` a backtick, `n = 3`): advance until a run of exactly `n` characters `c` was skipped. -/
def find_run (md : List Char) (c : Char) (n : Nat) : Nat → Nat → Nat
  | 0, it => it
  | fuel + 1, it =>
    if it < md.length then
      if md[it]? = some c then
        let it1 := scan (fun x => decide (x = c)) md it
        if sub64 it1 it = n then it1 else find_run md c n fuel (it1 + 1)
      else find_run md c n fuel (it + 1)
    else it

/-- The function `parse_strikethrough`. -/
def parse_strikethrough (a : args) : Except Fault args :=
  let a := { a with block_begin := a.iterator }
  let a := { a with iterator := find_run a.markdown '~' 2 (a.markdown.length - a.iterator) a.iterator }
  let a := emit a a.tags.strikethrough_tags.1
  match substr a.markdown a.block_begin (sub64 (sub64 a.iterator a.block_begin) 2) with
  | .error e => .error e
  | .ok s =>
    let a := emit a s
    let a := emit a a.tags.strikethrough_tags.2
    .ok { a with block_begin := sub64 a.iterator 1 }

/-- The `while (true)` loop of `parse_code`: the cursor it stops at and, when a run of
`backticks_amount` backticks closed the span, `code_end`. -/
def code_loop (md : List Char) (backticks_amount : Nat) : Nat → Nat → Except Fault (Nat × Option Nat)
  | 0, _ => .error .fuel
  | fuel + 1, it =>
    let it1 := scan (fun x => decide (x ≠ '`')) md it
    if ¬ it1 < md.length then .ok (it1, none)
    else
      let it2 := scan (fun x => decide (x = '`')) md it1
      if backticks_amount = sub64 it2 it1 then .ok (it2, some it1)
      else code_loop md backticks_amount fuel it2

/-- The function `parse_code`. -/
def parse_code (a : args) (backticks_amount : Nat) : Except Fault args :=
  let a := { a with iterator := scan (fun x => decide (x = '`')) a.markdown a.iterator }
  if !iter_good a then .ok a
  else
    let a := { a with block_begin := a.iterator }
    match code_loop a.markdown backticks_amount (a.markdown.length - a.iterator + 1) a.iterator with
    | .error e => .error e
    | .ok (it, none) => .ok { a with iterator := it }
    | .ok (it, some code_end) =>
      let a := { a with iterator := it }
      let a := emit a a.tags.code_tags.1
      match substr a.markdown a.block_begin (sub64 code_end a.block_begin) with
      | .error e => .error e
      | .ok s =>
        let a := emit a s
        let a := emit a a.tags.code_tags.2
        .ok { a with block_begin := a.iterator }

/-- The language-name loop of `parse_code_block`: it has no `iter_good` test. -/
def language_loop (md : List Char) : Nat → Nat → Except Fault Nat
  | 0, _ => .error .fuel
  | fuel + 1, it =>
    match char_at md it with
    | .error e => .error e
    | .ok c =>
      if c ≠ ' ' ∧ c ≠ '\n' ∧ c ≠ '\t' then language_loop md fuel (it + 1) else .ok it

/-- The function `parse_code_block`. -/
def parse_code_block (a : args) : Except Fault args :=
  let a := { a with iterator := scan (fun x => decide (x = ' ') || decide (x = '\t')) a.markdown a.iterator }
  let a := { a with block_begin := a.iterator }
  match language_loop a.markdown (a.markdown.length - a.iterator + 1) a.iterator with
  | .error e => .error e
  | .ok it =>
    let a := { a with iterator := it }
    match substr a.markdown a.block_begin (sub64 a.iterator a.block_begin) with
    | .error e => .error e
    | .ok language_name =>
      let a := (get_indentation a).2
      match char_at a.markdown a.iterator with
      | .error e => .error e
      | .ok c =>
        let a := if c = '\n' then { a with iterator := a.iterator + 1 } else a
        let a := { a with block_begin := a.iterator }
        let a := { a with iterator := find_run a.markdown '`' 3 (a.markdown.length - a.iterator) a.iterator }
        let a := emit a a.tags.code_block_tags.1
        let body : Except Fault args :=
          match a.tags.syntax_highlighting with
          | none =>
            match dump_block { a with iterator := sub64 a.iterator 3 } with
            | .error e => .error e
            | .ok a => .ok { a with iterator := a.iterator + 3 }
          | some highlight =>
            .ok (emit a (highlight language_name a.markdown a.block_begin (sub64 a.iterator 3)))
        match body with
        | .error e => .error e
        | .ok a =>
          let a := emit a a.tags.code_block_tags.2
          .ok { a with block_begin := a.iterator }

/-- The function `parse_horizontal_rule`. -/
def parse_horizontal_rule (a : args) : args :=
  { emit a a.tags.horizontal_rule with block_begin := a.iterator }

/-- The pop loop of `parse_list`:
`while (ongoing_lists.size() != 1 && current_list_indentation > line_indentation)`. -/
def pop_deeper (t : html_tags) (line_indentation : Nat) : Nat → List list → List Char → List list × List Char
  | _, [], out => ([], out)
  | _, [bottom], out => ([bottom], out)
  | current_list_indentation, top :: below :: rest, out =>
    if current_list_indentation > line_indentation then
      pop_deeper t line_indentation (sub64 current_list_indentation top.indentation_diffrence)
        (below :: rest) (out ++ (item_tags t top.ordered).2 ++ (list_tags t top.ordered).2)
    else (top :: below :: rest, out)

/-- The function `parse_list`. -/
def parse_list (a : args) (ordered : Bool) : args :=
  let a :=
    match a.ongoing_lists with
    | [] =>
      let indentation_diffrence := sub64 a.line_indentation 0
      let a := { a with ongoing_lists := [⟨ordered, a.line_indentation, indentation_diffrence⟩] }
      emit (emit a (list_tags a.tags ordered).1) (item_tags a.tags ordered).1
    | top :: rest =>
      if top.items_indentation < a.line_indentation then
        let indentation_diffrence := sub64 a.line_indentation top.items_indentation
        let a := { a with
          ongoing_lists := ⟨ordered, a.line_indentation, indentation_diffrence⟩ :: top :: rest }
        emit (emit a (list_tags a.tags ordered).1) (item_tags a.tags ordered).1
      else if top.items_indentation > a.line_indentation then
        let r := pop_deeper a.tags a.line_indentation top.items_indentation (top :: rest) a.html_out
        let a := { a with ongoing_lists := r.1, html_out := r.2 }
        match r.1 with
        | [] => a
        | back :: _ =>
          emit (emit a (item_tags a.tags back.ordered).2) (item_tags a.tags back.ordered).1
      else
        emit (emit a (item_tags a.tags top.ordered).2) (item_tags a.tags top.ordered).1
  { a with block_begin := a.block_begin + 1, iterator := a.iterator + 1 }

/-- The function `parse_named_link`. -/
def parse_named_link (a : args) : Except Fault args :=
  let a := { a with block_begin := a.iterator }
  let a := { a with iterator := a.iterator + 1 }
  let title_begin := a.iterator
  let a := { a with iterator := scan (fun x => decide (x ≠ ']')) a.markdown a.iterator }
  match substr a.markdown title_begin (sub64 a.iterator title_begin) with
  | .error e => .error e
  | .ok title =>
    match char_at a.markdown a.iterator with
    | .error e => .error e
    | .ok c =>
      if c ≠ ']' then .ok a
      else
        let a := { a with iterator := a.iterator + 1 }
        if !iter_good a || decide (a.markdown[a.iterator]? ≠ some '(') then .ok a
        else
          let a := { a with iterator := a.iterator + 1 }
          if !iter_good a then .ok a
          else
            let a := { a with block_begin := a.iterator }
            let a := { a with iterator := scan (fun x => decide (x ≠ ')')) a.markdown a.iterator }
            match substr a.markdown a.block_begin (sub64 a.iterator a.block_begin) with
            | .error e => .error e
            | .ok link =>
              let a := { a with iterator := a.iterator + 1 }
              let a := emit a a.tags.link_additional_tags.1
              let a := emit a "<a href=\"".toList
              let a := emit a link
              let a := emit a "\">".toList
              let a := emit a title
              let a := emit a "</a>".toList
              let a := emit a a.tags.link_additional_tags.2
              .ok { a with block_begin := a.iterator }

/-- The function `parse_image`. -/
def parse_image (a : args) : Except Fault args :=
  let a := { a with iterator := a.iterator + 1 }
  let a := (get_indentation a).2
  if !iter_good a || decide (a.markdown[a.iterator]? ≠ some '[') then
    .ok { a with block_begin := sub64 a.iterator 1 }
  else
    let a := { a with iterator := a.iterator + 1 }
    let a := { a with block_begin := a.iterator }
    let a := { a with iterator := scan (fun x => decide (x ≠ ']')) a.markdown a.iterator }
    match substr a.markdown a.block_begin (sub64 a.iterator a.block_begin) with
    | .error e => .error e
    | .ok alt_text =>
      match char_at a.markdown a.iterator with
      | .error e => .error e
      | .ok c =>
        if c ≠ ']' then .ok a
        else
          let a := { a with iterator := a.iterator + 1 }
          if !iter_good a || decide (a.markdown[a.iterator]? ≠ some '(') then .ok a
          else
            let a := { a with iterator := a.iterator + 1 }
            if !iter_good a then .ok a
            else
              let a := { a with block_begin := a.iterator }
              let a := { a with iterator := scan (fun x => decide (x ≠ ')')) a.markdown a.iterator }
              match substr a.markdown a.block_begin (sub64 a.iterator a.block_begin) with
              | .error e => .error e
              | .ok file =>
                let a := { a with iterator := a.iterator + 1 }
                let a := emit a a.tags.image_additional_tags.1
                let a := emit a "<img src=\"".toList
                let a := emit a file
                let a := emit a "\" alt=\"".toList
                let a := emit a alt_text
                let a := emit a "\">".toList
                let a := emit a a.tags.image_additional_tags.2
                .ok { a with block_begin := a.iterator }

/-- The loop `while (dashes > blockquote_level) { out << open; blockquote_level++; }`. -/
def open_blockquotes (dashes : Nat) : Nat → args → args
  | 0, a => a
  | fuel + 1, a =>
    if dashes > a.blockquote_level then
      open_blockquotes dashes fuel
        { emit a a.tags.blockquote_tags.1 with blockquote_level := a.blockquote_level + 1 }
    else a

/-- The loop `while (dashes < blockquote_level) { out << close; blockquote_level--; }`. -/
def close_blockquotes (dashes : Nat) : Nat → args → args
  | 0, a => a
  | fuel + 1, a =>
    if dashes < a.blockquote_level then
      close_blockquotes dashes fuel
        { emit a a.tags.blockquote_tags.2 with blockquote_level := a.blockquote_level - 1 }
    else a

/-- The first statements of `parse_line`, up to the blank-line test: measure the
indentation, count the `>` markers, open or close blockquotes, measure again. -/
def parse_line_head (a : args) : args :=
  let r := get_indentation a
  let a := { r.2 with line_indentation := r.1 }
  let r := count_char '>' a
  let dashes := r.1
  let a := r.2
  let a := open_blockquotes dashes dashes a
  let a := close_blockquotes dashes a.blockquote_level a
  if dashes ≠ 0 then
    let r := get_indentation a
    { r.2 with line_indentation := r.1 }
  else a

/-- The loop `while (markdown.at(iterator) != '.') iterator++` of the ordered-list branch. -/
def find_dot (md : List Char) : Nat → Nat → Except Fault Nat
  | 0, _ => .error .fuel
  | fuel + 1, it =>
    match char_at md it with
    | .error e => .error e
    | .ok c => if c ≠ '.' then find_dot md fuel (it + 1) else .ok it

/-- One pass of the dispatch chain in the line loop of `parse_line`, for the character `c`
under the cursor; the result carries the new value of `ignore_next`. -/
def parse_line_step (a : args) (c : Char) (is_first_char : Bool) : Except Fault (args × Bool) :=
  if c = '\\' then
    match dump_paragraph a false with
    | .error e => .error e
    | .ok a => .ok ({ a with block_begin := a.iterator + 1, iterator := a.iterator + 1 }, true)
  else if c = '#' ∧ is_first_char = true then
    match dump_paragraph a true with
    | .error e => .error e
    | .ok a =>
      match parse_heading a with
      | .error e => .error e
      | .ok a => .ok (a, false)
  else if (c = '+' ∨ c = '*') ∧ is_first_char = true then
    .ok (parse_list a false, false)
  else if c = '*' then
    match dump_paragraph a false with
    | .error e => .error e
    | .ok a =>
      match parse_asteriks a with
      | .error e => .error e
      | .ok a => .ok (a, false)
  else if c = '`' then
    let r := count_char '`' a
    let amount := r.1 % 256
    let a := r.2
    if amount = 3 then
      match dump_paragraph { a with iterator := sub64 a.iterator amount } true with
      | .error e => .error e
      | .ok a =>
        match parse_code_block { a with iterator := a.iterator + amount } with
        | .error e => .error e
        | .ok a => .ok (a, false)
    else
      match dump_paragraph { a with iterator := sub64 a.iterator amount } false with
      | .error e => .error e
      | .ok a =>
        match parse_code a amount with
        | .error e => .error e
        | .ok a => .ok (a, false)
  else if c = '~' then
    let r := count_char '~' a
    let amount := r.1
    let a := r.2
    if amount = 2 then
      match dump_paragraph { a with iterator := sub64 a.iterator amount } false with
      | .error e => .error e
      | .ok a =>
        match parse_strikethrough { a with iterator := a.iterator + amount } with
        | .error e => .error e
        | .ok a => .ok (a, false)
    else .ok (a, false)
  else if c = '-' ∧ is_first_char = true then
    let r := count_char '-' a
    let amount := r.1
    let a := r.2
    if amount ≥ 3 then
      match dump_paragraph { a with iterator := sub64 a.iterator amount } true with
      | .error e => .error e
      | .ok a => .ok (parse_horizontal_rule { a with iterator := a.iterator + amount }, false)
    else .ok (parse_list a false, false)
  else
    match (if is_first_char then is_ordered_list_element a else .ok false) with
    | .error e => .error e
    | .ok true =>
      match find_dot a.markdown (a.markdown.length - a.iterator + 1) a.iterator with
      | .error e => .error e
      | .ok it =>
        let a := { a with iterator := it + 1 }
        let a := { a with block_begin := a.iterator }
        .ok (parse_list a true, false)
    | .ok false =>
      if c = '[' then
        match dump_paragraph a false with
        | .error e => .error e
        | .ok a =>
          match parse_named_link a with
          | .error e => .error e
          | .ok a => .ok (a, false)
      else if c = '!' then
        match dump_paragraph a false with
        | .error e => .error e
        | .ok a =>
          match parse_image a with
          | .error e => .error e
          | .ok a => .ok (a, false)
      else .ok ({ a with iterator := a.iterator + 1 }, false)

/-- The line loop `while (iter_good && markdown.at(iterator) != '\n')` of `parse_line`,
with its locals `is_first_char`, `ignore_next` and `spaces`; it returns the final `spaces`. -/
def parse_line_loop : Nat → args → Bool → Bool → Nat → Except Fault (args × Nat)
  | fuel, a, is_first_char, ignore_next, spaces =>
    match a.markdown[a.iterator]? with
    | none => .ok (a, spaces)
    | some c =>
      if c = '\n' then .ok (a, spaces)
      else
        match fuel with
        | 0 => .error .fuel
        | fuel + 1 =>
          if ignore_next then
            parse_line_loop fuel { a with iterator := a.iterator + 1 } is_first_char false spaces
          else
            let spaces := if c = ' ' then spaces + 1 else 0
            match parse_line_step a c is_first_char with
            | .error e => .error e
            | .ok (a, ignore_next) => parse_line_loop fuel a false ignore_next spaces

/-- The rest of `parse_line`, from the blank-line test on. -/
def parse_line_body (a : args) : Except Fault args :=
  match char_at a.markdown a.iterator with
  | .error e => .error e
  | .ok c =>
    if c = '\n' then
      let a := try_close_paragraph a
      .ok { a with iterator := a.iterator + 1 }
    else
      let closed : Except Fault args :=
        if iter_good a && decide (a.ongoing_lists.length ≠ 0) && decide (c ≠ '-')
            && decide (c ≠ '+') && decide (c ≠ '*') then
          match is_ordered_list_element a with
          | .error e => .error e
          | .ok ordered => if !ordered then .ok (close_all_lists a) else .ok a
        else .ok a
      match closed with
      | .error e => .error e
      | .ok a =>
        let a := { a with block_begin := a.iterator }
        match parse_line_loop (a.markdown.length - a.iterator) a true false 0 with
        | .error e => .error e
        | .ok (a, spaces) =>
          match dump_paragraph a (decide (spaces ≥ 2)) with
          | .error e => .error e
          | .ok a => .ok { a with iterator := a.iterator + 1 }

/-- The function `parse_line`. -/
def parse_line (a : args) : Except Fault args :=
  parse_line_body (parse_line_head a)

/-- The loop `while (iterator < markdown.size()) parse_line(_args)` of `markdown_to_html`. -/
def parse_lines : Nat → args → Except Fault args
  | fuel, a =>
    if a.iterator < a.markdown.length then
      match fuel with
      | 0 => .error .fuel
      | fuel + 1 =>
        match parse_line a with
        | .error e => .error e
        | .ok a => parse_lines fuel a
    else .ok a

/-- The end-of-document statements of `markdown_to_html`; the last loop,
`while (blockquote_level != 0)`, is `close_blockquotes` for zero markers. -/
def finish (a : args) : args :=
  let a := try_close_paragraph a
  let a := close_all_lists a
  close_blockquotes 0 a.blockquote_level a

/-- The entry point `markdown_to_html`. -/
def markdown_to_html (markdown : List Char) (tags : html_tags := default_tags) :
    Except Fault (List Char) :=
  match parse_lines markdown.length { html_out := [], markdown := markdown, tags := tags } with
  | .error e => .error e
  | .ok a => .ok (finish a).html_out

/-! ## Vocabulary of the statements -/

/-- An ASCII letter. -/
def is_letter (c : Char) : Prop := ('a' ≤ c ∧ c ≤ 'z') ∨ ('A' ≤ c ∧ c ≤ 'Z')

instance (c : Char) : Decidable (is_letter c) := by unfold is_letter; infer_instance

/-- A character the line loop steps over once the first character of the line is behind. -/
def ordinary (c : Char) : Prop :=
  c ≠ '\\' ∧ c ≠ '*' ∧ c ≠ '`' ∧ c ≠ '~' ∧ c ≠ '[' ∧ c ≠ '!' ∧ c ≠ '\n'

instance (c : Char) : Decidable (ordinary c) := by unfold ordinary; infer_instance

/-- The value of the local `spaces` after the line loop has stepped over `t`. -/
def spaces_after (spaces : Nat) (t : List Char) : Nat :=
  t.foldl (fun s c => if c = ' ' then s + 1 else 0) spaces

/-- The entry of `heading_tags` for the heading level `level`, `1 ≤ level ≤ 6`. -/
def heading_level_tags (t : html_tags) (level : Nat) : tags_pair :=
  t.heading_tags ⟨(level - 1) % 6, Nat.mod_lt _ (by decide)⟩

/-- The anchor name of a heading: its text with every space replaced by `-`. -/
def anchor_of (t : List Char) : List Char := t.map (fun x => if x = ' ' then '-' else x)

/-- The parse context in which the line loop calls `parse_list` for a `-` marker at offset
`p` of a line indented by `i`: the marker is counted, the pending span starts on it. -/
def at_marker (a : args) (i p : Nat) : args :=
  { a with line_indentation := i, iterator := p + 1, block_begin := p }

/-- What `parse_code_block` writes between the code-block tags for the language name
`language_name` and the body `body` found at the offsets `[code_begin, code_end)`. -/
def code_block_body (a : args) (language_name body : List Char) (code_begin code_end : Nat) :
    List Char :=
  match a.tags.syntax_highlighting with
  | none => body
  | some highlight => highlight language_name a.markdown code_begin code_end

/-- The text `t` wrapped in the italic tags (level 1), the bold tags (level 2) or both, the
italic pair outside (level 3). -/
def emphasis_wrap (t : html_tags) (level : Nat) (text : List Char) : List Char :=
  if level = 1 then t.italic_tags.1 ++ text ++ t.italic_tags.2
  else if level = 2 then t.bold_tags.1 ++ text ++ t.bold_tags.2
  else t.italic_tags.1 ++ t.bold_tags.1 ++ text ++ t.bold_tags.2 ++ t.italic_tags.2

/-- The string `s` written `n` times in a row. -/
def repeated (n : Nat) (s : List Char) : List Char := (List.replicate n s).flatten

/-! ## Counting tags in the output -/

/-- The number of positions of `s` at which `pat` occurs. -/
def occ (pat : List Char) : List Char → Nat
  | [] => 0
  | c :: cs => (if pat.isPrefixOf (c :: cs) then 1 else 0) + occ pat cs

/-- The tag kinds whose opening and closing tags are counted. -/
inductive tag_kind where
  | p | ul | ol | li | blockquote | em | strong | del | code
  | h1 | h2 | h3 | h4 | h5 | h6 | a
  deriving DecidableEq, Repr

/-- The opening tag of a kind, as it is looked for in the output. -/
def opening : tag_kind → List Char
  | .p => "<p>".toList
  | .ul => "<ul>".toList
  | .ol => "<ol>".toList
  | .li => "<li>".toList
  | .blockquote => "<blockquote>".toList
  | .em => "<em>".toList
  | .strong => "<strong>".toList
  | .del => "<del>".toList
  | .code => "<code>".toList
  | .h1 => "<h1>".toList
  | .h2 => "<h2>".toList
  | .h3 => "<h3>".toList
  | .h4 => "<h4>".toList
  | .h5 => "<h5>".toList
  | .h6 => "<h6>".toList
  | .a => "<a".toList

/-- The closing tag of a kind. -/
def closing : tag_kind → List Char
  | .p => "</p>".toList
  | .ul => "</ul>".toList
  | .ol => "</ol>".toList
  | .li => "</li>".toList
  | .blockquote => "</blockquote>".toList
  | .em => "</em>".toList
  | .strong => "</strong>".toList
  | .del => "</del>".toList
  | .code => "</code>".toList
  | .h1 => "</h1>".toList
  | .h2 => "</h2>".toList
  | .h3 => "</h3>".toList
  | .h4 => "</h4>".toList
  | .h5 => "</h5>".toList
  | .h6 => "</h6>".toList
  | .a => "</a>".toList

/-- Opening tags minus closing tags of kind `k` in `s`. -/
def delta (k : tag_kind) (s : List Char) : Int := (occ (opening k) s : Int) - (occ (closing k) s : Int)

/-- Reading `s` from left to right: is the last `<` still without a `>` or a `"` after it? -/
def tag_pending : Bool → List Char → Bool
  | st, [] => st
  | st, c :: cs =>
    tag_pending (if c = '<' then true else if c = '>' ∨ c = '"' then false else st) cs

/-- No tag is left unfinished at the end of `s`. -/
def settled (s : List Char) : Prop := tag_pending false s = false

/-- A pattern that starts with `<` and holds no further `<`, and no `>` or `"` before its
last character. -/
def tag_pattern (pat : List Char) : Prop :=
  ∃ rest, pat = '<' :: rest ∧ rest ≠ [] ∧ ∀ x ∈ rest.dropLast, x ≠ '<' ∧ x ≠ '>' ∧ x ≠ '"'

/-- The tags of kind `k` that the parse context still owes: opened and not yet closed. -/
def pending (k : tag_kind) (a : args) : Int :=
  match k with
  | .p => if a.is_paragraph_open then 1 else 0
  | .ul => ((a.ongoing_lists.filter (fun f => !f.ordered)).length : Int)
  | .ol => ((a.ongoing_lists.filter (fun f => f.ordered)).length : Int)
  | .li => (a.ongoing_lists.length : Int)
  | .blockquote => (a.blockquote_level : Int)
  | _ => 0

/-- The setting of the tag-balance claim: default tags and no `<` in the document. -/
def clean (a : args) : Prop := a.tags = default_tags ∧ '<' ∉ a.markdown

instance (s : List Char) : Decidable (settled s) := by unfold settled; infer_instance

/-- The invariant of the tag-balance claim: the output leaves no tag unfinished, and for
each kind it holds as many more opening than closing tags as the parse context owes. -/
def balanced_so_far (a : args) : Prop :=
  settled a.html_out ∧ ∀ k, delta k a.html_out = pending k a

/-- The step relation of a parser from `a` to `b`: same document and tags, the output only
extended, and in a clean setting the tag-balance invariant carried over. -/
def step_ok (a b : args) : Prop :=
  b.markdown = a.markdown ∧ b.tags = a.tags ∧ a.html_out <+: b.html_out ∧
    (clean a → balanced_so_far a → balanced_so_far b)

/-- A written string that leaves no tag unfinished and holds as many opening as closing
tags of each kind. -/
def neutral (s : List Char) : Prop := settled s ∧ ∀ k, delta k s = 0

/-- The step of a parser that only writes a neutral string: document, tags, paragraph
flag, list stack and blockquote depth are as before. -/
def neutral_step (a b : args) : Prop :=
  b.markdown = a.markdown ∧ b.tags = a.tags ∧ b.is_paragraph_open = a.is_paragraph_open ∧
    b.ongoing_lists = a.ongoing_lists ∧ b.blockquote_level = a.blockquote_level ∧
    ∃ s, b.html_out = a.html_out ++ s ∧ (clean a → neutral s)

/-- The list tags a stack of frames owes, by kind. -/
def list_pending (k : tag_kind) (stack : List list) : Int :=
  match k with
  | .ul => ((stack.filter (fun f => !f.ordered)).length : Int)
  | .ol => ((stack.filter (fun f => f.ordered)).length : Int)
  | .li => (stack.length : Int)
  | _ => 0

/-- The step of a parser called after the head of a line: a good step that keeps the
blockquote depth. -/
def body_step (a b : args) : Prop := step_ok a b ∧ b.blockquote_level = a.blockquote_level

/-- The result `r` of a parser started in `a` is not an exhausted loop counter, and when it
is a context, the document is the same and the cursor is at least `d` further. -/
def moves (a : args) (d : Nat) (r : Except Fault args) : Prop :=
  r ≠ .error .fuel ∧ ∀ b, r = .ok b → b.markdown = a.markdown ∧ a.iterator + d ≤ b.iterator

/-- The result `r` of one pass of the dispatch chain started in `a` is not an exhausted loop
counter, and when it is a context, the document is the same and the cursor is further. -/
def advances (a : args) (r : Except Fault (args × Bool)) : Prop :=
  r ≠ .error .fuel ∧
    ∀ b ig, r = .ok (b, ig) → b.markdown = a.markdown ∧ a.iterator + 1 ≤ b.iterator

/-! ## Parse states of a conversion -/

/-- The parse context `markdown_to_html` starts from: `args _args{ html_out, markdown, tags }`. -/
def initial (markdown : List Char) (tags : html_tags) : args :=
  { html_out := [], markdown := markdown, tags := tags }

/-- The parse context after `n` passes of the driver loop of `markdown_to_html` started in
`a`, or after the last pass when the loop ends before. -/
def after_lines : Nat → args → Except Fault args
  | 0, a => .ok a
  | n + 1, a =>
    if a.iterator < a.markdown.length then
      match parse_line a with
      | .error e => .error e
      | .ok b => after_lines n b
    else .ok a

/-- What is read off a parse context for the paragraph and list claims: the paragraph flag
and the number of open list frames. -/
def open_wrappers (r : Except Fault args) : Except Fault (Bool × Nat) :=
  match r with
  | .error e => .error e
  | .ok a => .ok (a.is_paragraph_open, a.ongoing_lists.length)

/-- The output written so far in the result of a parser. -/
def written (r : Except Fault args) : Except Fault (List Char) :=
  match r with
  | .error e => .error e
  | .ok a => .ok a.html_out

/-- A tag configuration with a highlighting callback, for the examples: the callback returns
the language name followed by the body read backwards. -/
def example_callback_tags : html_tags :=
  { default_tags with
    syntax_highlighting := some (fun L d s e => L ++ ((d.drop s).take (e - s)).reverse) }

/-! ## The list stack -/

/-- A well-formed list stack, top frame first: the indentation of the items grows strictly
from the bottom frame to the top frame, and `indentation_diffrence` of a frame is its
`items_indentation` minus that of the frame below (minus 0 for the bottom frame). -/
def stack_ok : List list → Prop
  | [] => True
  | [f] => f.indentation_diffrence = f.items_indentation - 0
  | f :: g :: rest =>
    g.items_indentation < f.items_indentation ∧
      f.indentation_diffrence = f.items_indentation - g.items_indentation ∧
      stack_ok (g :: rest)

/-- Well-formedness of a stack can be computed. -/
def stack_ok_decidable : (s : List list) → Decidable (stack_ok s)
  | [] => isTrue trivial
  | [f] => inferInstanceAs (Decidable (f.indentation_diffrence = f.items_indentation - 0))
  | f :: g :: rest =>
    have := stack_ok_decidable (g :: rest)
    inferInstanceAs (Decidable (g.items_indentation < f.items_indentation ∧
      f.indentation_diffrence = f.items_indentation - g.items_indentation ∧
      stack_ok (g :: rest)))

instance (s : List list) : Decidable (stack_ok s) := stack_ok_decidable s

/-- The list stack in the result of a parser, when there is one. -/
def lists_of (r : Except Fault args) : Except Fault (List list) :=
  match r with
  | .error e => .error e
  | .ok a => .ok a.ongoing_lists

/-- The frames to pop for a list item indented by `i`: every frame whose `items_indentation`
is greater than `i`, the bottom frame excepted. -/
def popped_frames (i : Nat) (stack : List list) : List list :=
  stack.dropLast.filter (fun f => decide (i < f.items_indentation))

/-- The tags that close the frames `frames`, top frame first: for each frame the closing
item tag, then the closing list tag of the frame's kind. -/
def frames_closing (t : html_tags) (frames : List list) : List Char :=
  (frames.map (fun f => (item_tags t f.ordered).2 ++ (list_tags t f.ordered).2)).flatten

/-! ## The flush of the pending span -/

/-- The joining space: written when the previous flush did not end in a space. -/
def joining_space (a : args) : List Char :=
  if a.paragraph_ended_with_space then [] else [' ']

/-- The pending span: the document from `block_begin` up to the cursor. -/
def pending_span (a : args) : List Char :=
  (a.markdown.drop a.block_begin).take (a.iterator - a.block_begin)

/-- The flush as the specification words it: with an empty span only the paragraph tag that
is opened or closed; with a non-empty span the paragraph opening tag (unless a paragraph or
a list frame is open), the joining space, the span, and the closing tag when asked for. -/
def flush_as_specified (a : args) (close_paragraph : Bool) : args :=
  if a.iterator = a.block_begin then
    if close_paragraph then
      { a with
        html_out := a.html_out ++ (if a.is_paragraph_open then "</p>".toList else [])
        is_paragraph_open := false }
    else
      { a with
        html_out := a.html_out ++ (if a.is_paragraph_open then [] else "<p>".toList)
        is_paragraph_open := true }
  else
    let opens := !a.is_paragraph_open && a.ongoing_lists.isEmpty
    let is_open := a.is_paragraph_open || opens
    { a with
      html_out := a.html_out ++ (if opens then "<p>".toList else []) ++ joining_space a
        ++ pending_span a ++ (if close_paragraph && is_open then "</p>".toList else [])
      is_paragraph_open := is_open && !close_paragraph
      paragraph_ended_with_space := decide ((pending_span a).getLast? = some ' ')
      block_begin := a.iterator }

/-- The flush with the joining space in the place the code gives it: first of all, before
the paragraph opening tag, and with an empty span as well. -/
def flush (a : args) (close_paragraph : Bool) : args :=
  if a.iterator = a.block_begin then
    if close_paragraph then
      { a with
        html_out := a.html_out ++ joining_space a
          ++ (if a.is_paragraph_open then "</p>".toList else [])
        is_paragraph_open := false }
    else
      { a with
        html_out := a.html_out ++ joining_space a
          ++ (if a.is_paragraph_open then [] else "<p>".toList)
        is_paragraph_open := true }
  else
    let opens := !a.is_paragraph_open && a.ongoing_lists.isEmpty
    let is_open := a.is_paragraph_open || opens
    { a with
      html_out := a.html_out ++ joining_space a ++ (if opens then "<p>".toList else [])
        ++ pending_span a ++ (if close_paragraph && is_open then "</p>".toList else [])
      is_paragraph_open := is_open && !close_paragraph
      paragraph_ended_with_space := decide ((pending_span a).getLast? = some ' ')
      block_begin := a.iterator }

/-- The frames that stay for a list item indented by `i`: the stack without its
`popped_frames`, which are as many frames from the top. -/
def kept_frames (i : Nat) (stack : List list) : List list :=
  stack.drop (popped_frames i stack).length

/-- The tags that turn to the next item of the top frame of `stack`: the closing item tag,
then the opening item tag of the frame's kind. -/
def next_item_tags (t : html_tags) (stack : List list) : List Char :=
  match stack with
  | [] => []
  | back :: _ => (item_tags t back.ordered).2 ++ (item_tags t back.ordered).1

/-! ## Fences -/

/-- The text `s` holds no run of exactly `n` characters `c`: it does not end in `c`, and
wherever `n` characters `c` stand in a row in `s`, a further `c` stands right before or
right after them. -/
def run_free (c : Char) (n : Nat) (s : List Char) : Prop :=
  s.getLast? ≠ some c ∧
    ∀ i < s.length + 1, (s.drop i).take n = List.replicate n c →
      (0 < i ∧ s[i - 1]? = some c) ∨ s[i + n]? = some c

instance (c : Char) (n : Nat) (s : List Char) : Decidable (run_free c n s) := by
  unfold run_free; infer_instance

/-! ## The end of a run -/

/-- The cursor in the result of a parser, when there is one. -/
def cursor_of (r : Except Fault args) : Except Fault Nat :=
  match r with
  | .error e => .error e
  | .ok a => .ok a.iterator

/-- The driver loop is over: the cursor has reached the end of the document, or the run
ended in the `std::out_of_range` throw; no loop counter of the model ran out. -/
def finished (r : Except Fault args) : Prop :=
  match r with
  | .error e => e = .out_of_range
  | .ok a => a.markdown.length ≤ a.iterator

instance (r : Except Fault args) : Decidable (finished r) := by
  unfold finished; split <;> infer_instance

/-! ## Reading the document at the cursor -/

theorem getElem?_at (pre post : List Char) : (pre ++ post)[pre.length]? = post.head? := by
  rw [List.getElem?_append_right (Nat.le_refl _)]
  cases post <;> simp

theorem skip_while_run (p : Char → Bool) (mid : List Char) :
    ∀ (pre post : List Char) (fuel : Nat), (∀ c ∈ mid, p c = true) →
      (∀ c, post.head? = some c → p c = false) → mid.length ≤ fuel →
      skip_while p (pre ++ (mid ++ post)) fuel pre.length = pre.length + mid.length := by
  induction mid with
  | nil =>
    intro pre post fuel _ hpost _
    cases fuel with
    | zero => simp [skip_while]
    | succ f =>
      simp only [skip_while, List.nil_append, getElem?_at, List.length_nil, Nat.add_zero]
      cases post with
      | nil => simp
      | cons c cs => simp [hpost c (by simp)]
  | cons c mid ih =>
    intro pre post fuel hmid hpost hf
    cases fuel with
    | zero => simp at hf
    | succ f =>
      have hc : p c = true := hmid c (by simp)
      have h1 : pre ++ (c :: mid ++ post) = (pre ++ [c]) ++ (mid ++ post) := by simp
      have h2 := ih (pre ++ [c]) post f (fun x hx => hmid x (by simp [hx])) hpost (by simpa using hf)
      simp only [skip_while, getElem?_at, List.cons_append, List.head?_cons, hc, if_true]
      simp only [List.length_append, List.length_singleton, List.append_assoc,
        List.singleton_append] at h2
      rw [h2]
      simp; omega

theorem scan_run (p : Char → Bool) (md pre mid post : List Char) (it : Nat)
    (hmd : md = pre ++ (mid ++ post)) (hit : it = pre.length)
    (hmid : ∀ c ∈ mid, p c = true) (hpost : ∀ c, post.head? = some c → p c = false) :
    scan p md it = it + mid.length := by
  subst hmd hit
  unfold scan
  exact skip_while_run p mid pre post _ hmid hpost (by simp)


/-! ## The line loop on ordinary text -/

theorem parse_line_step_ordinary (a : args) (c : Char) (h : ordinary c) :
    parse_line_step a c false = .ok ({ a with iterator := a.iterator + 1 }, false) := by
  obtain ⟨h1, h2, h3, h4, h5, h6, -⟩ := h
  simp [parse_line_step, h1, h2, h3, h4, h5, h6]

theorem parse_line_loop_ordinary (t : List Char) :
    ∀ (a : args) (pre post : List Char) (fuel sp : Nat),
      a.markdown = pre ++ (t ++ post) → a.iterator = pre.length →
      (∀ c ∈ t, ordinary c) → t.length ≤ fuel →
      parse_line_loop fuel a false false sp =
        parse_line_loop (fuel - t.length) { a with iterator := a.iterator + t.length }
          false false (spaces_after sp t) := by
  induction t with
  | nil => intro a pre post fuel sp _ _ _ _; simp [spaces_after]
  | cons c t ih =>
    intro a pre post fuel sp hmd hit ht hf
    cases fuel with
    | zero => simp at hf
    | succ f =>
      have hc : ordinary c := ht c (by simp)
      have hn : c ≠ '\n' := hc.2.2.2.2.2.2
      rw [parse_line_loop]
      simp only [hmd, hit, getElem?_at, List.cons_append, List.head?_cons, hn, if_false,
        Bool.false_eq_true, parse_line_step_ordinary a c hc]
      rw [ih _ (pre ++ [c]) post f _ (by simp [hmd]) (by simp [hit])
        (fun x hx => ht x (by simp [hx])) (by simpa using hf)]
      simp [spaces_after, hit]
      congr 2; omega


theorem is_ordered_list_element_nondigit (a : args) (c : Char)
    (h : a.markdown[a.iterator]? = some c) (hd : isdigit c = false) :
    is_ordered_list_element a = .ok false := by
  have hg : iter_good a = true := by
    unfold iter_good
    by_contra hlt
    simp only [decide_eq_true_eq, not_lt] at hlt
    rw [List.getElem?_eq_none hlt] at h
    cases h
  simp [is_ordered_list_element, digits_loop, hg, char_at, h, hd]

theorem letter_not_digit (c : Char) (h : is_letter c) : isdigit c = false := by
  unfold is_letter at h
  unfold isdigit
  simp only [Char.le_def, decide_eq_false_iff_not, not_and, not_le, UInt32.le_def,
    BitVec.le_def] at *
  have h0 : ('0' : Char).val.toBitVec.toNat = 48 := rfl
  have h9 : ('9' : Char).val.toBitVec.toNat = 57 := rfl
  have ha : ('a' : Char).val.toBitVec.toNat = 97 := rfl
  have hz : ('z' : Char).val.toBitVec.toNat = 122 := rfl
  have hA : ('A' : Char).val.toBitVec.toNat = 65 := rfl
  have hZ : ('Z' : Char).val.toBitVec.toNat = 90 := rfl
  omega

theorem letter_ne (c d : Char) (h : is_letter c) (hd : ¬ is_letter d) : c ≠ d := by
  intro e; subst e; exact hd h

theorem letter_ordinary (c : Char) (h : is_letter c) : ordinary c :=
  ⟨letter_ne c _ h (by decide), letter_ne c _ h (by decide), letter_ne c _ h (by decide),
    letter_ne c _ h (by decide), letter_ne c _ h (by decide), letter_ne c _ h (by decide),
    letter_ne c _ h (by decide)⟩

theorem space_ordinary : ordinary ' ' := by unfold ordinary; decide

/-- The dispatch chain on a letter that starts a line: the cursor moves one step. -/
theorem parse_line_step_letter_first (a : args) (c : Char) (h : is_letter c)
    (hc : a.markdown[a.iterator]? = some c) :
    parse_line_step a c true = .ok ({ a with iterator := a.iterator + 1 }, false) := by
  have ho := is_ordered_list_element_nondigit a c hc (letter_not_digit c h)
  simp [parse_line_step, ho, letter_ne c _ h (show ¬ is_letter '\\' by decide),
    letter_ne c _ h (show ¬ is_letter '#' by decide),
    letter_ne c _ h (show ¬ is_letter '+' by decide),
    letter_ne c _ h (show ¬ is_letter '*' by decide),
    letter_ne c _ h (show ¬ is_letter '`' by decide),
    letter_ne c _ h (show ¬ is_letter '~' by decide),
    letter_ne c _ h (show ¬ is_letter '-' by decide),
    letter_ne c _ h (show ¬ is_letter '[' by decide),
    letter_ne c _ h (show ¬ is_letter '!' by decide)]


/-! ## The head of a line -/

theorem get_indentation_loop_stop (md : List Char) (fuel it ind : Nat)
    (h : ∀ c, md[it]? = some c → c ≠ ' ' ∧ c ≠ '\t') :
    get_indentation_loop md fuel it ind = (ind, it) := by
  cases fuel with
  | zero => rfl
  | succ f =>
    rw [get_indentation_loop]
    cases hc : md[it]? with
    | none => rfl
    | some c => simp [(h c hc).1, (h c hc).2]

theorem get_indentation_stop (a : args) (h : ∀ c, a.markdown[a.iterator]? = some c → c ≠ ' ' ∧ c ≠ '\t') :
    get_indentation a = (0, a) := by
  simp [get_indentation, get_indentation_loop_stop _ _ _ _ h]

theorem skip_while_stop (p : Char → Bool) (md : List Char) (fuel it : Nat)
    (h : ∀ c, md[it]? = some c → p c = false) : skip_while p md fuel it = it := by
  cases fuel with
  | zero => rfl
  | succ f =>
    rw [skip_while]
    cases hc : md[it]? with
    | none => rfl
    | some c => simp [h c hc]

theorem sub64_self (n : Nat) : sub64 n n = 0 := by simp [sub64]

theorem sub64_of_le (a b : Nat) (h : b ≤ a) : sub64 a b = a - b := by simp [sub64, h]

theorem count_char_stop (c : Char) (a : args) (h : ∀ x, a.markdown[a.iterator]? = some x → x ≠ c) :
    count_char c a = (0, a) := by
  have : scan (fun x => decide (x = c)) a.markdown a.iterator = a.iterator :=
    skip_while_stop _ _ _ _ (fun x hx => by simpa using h x hx)
  simp [count_char, this, sub64_self]

/-- A line that starts on a letter, outside any blockquote: the head of `parse_line`
changes nothing but the recorded indentation. -/
theorem parse_line_head_letter (a : args) (c : Char) (h : is_letter c)
    (hc : a.markdown[a.iterator]? = some c) (hq : a.blockquote_level = 0) :
    parse_line_head a = { a with line_indentation := 0 } := by
  have h1 : get_indentation a = (0, a) :=
    get_indentation_stop a (fun x hx => by
      rw [hc] at hx; cases hx
      exact ⟨letter_ne _ _ h (by decide), letter_ne _ _ h (by decide)⟩)
  have h2 : count_char '>' { a with line_indentation := 0 } = (0, { a with line_indentation := 0 }) :=
    count_char_stop _ _ (fun x hx => by
      simp only [hc] at hx; cases hx
      exact letter_ne _ _ h (by decide))
  simp only [parse_line_head, h1, h2]
  simp [open_blockquotes, close_blockquotes, hq]


/-! ## Facts used to run the model on a document given in pieces -/

theorem char_at_eq (md pre post : List Char) (c : Char) (i : Nat)
    (hmd : md = pre ++ c :: post) (hi : i = pre.length) : char_at md i = .ok c := by
  subst hmd hi
  simp only [char_at, getElem?_at, List.head?_cons]

theorem substr_eq (md pre mid post : List Char) (pos len : Nat)
    (hmd : md = pre ++ (mid ++ post)) (hpos : pos = pre.length) (hlen : len = mid.length) :
    substr md pos len = .ok mid := by
  subst hmd hpos hlen
  simp [substr]

theorem parse_line_loop_end (a : args) (fuel sp : Nat) (f i : Bool)
    (h : a.markdown[a.iterator]? = none ∨ a.markdown[a.iterator]? = some '\n') :
    parse_line_loop fuel a f i sp = .ok (a, sp) := by
  rw [parse_line_loop]
  rcases h with h | h <;> simp [h]

theorem spaces_after_concat (sp : Nat) (xs : List Char) (x : Char) :
    spaces_after sp (xs ++ [x]) = if x = ' ' then spaces_after sp xs + 1 else 0 := by
  simp [spaces_after, List.foldl_append]

theorem parse_lines_done (fuel : Nat) (a : args) (h : ¬ a.iterator < a.markdown.length) :
    parse_lines fuel a = .ok a := by
  rw [parse_lines.eq_def]; simp [h]

theorem parse_lines_succ (fuel : Nat) (a : args) (h : a.iterator < a.markdown.length) :
    parse_lines (fuel + 1) a =
      match parse_line a with
      | .error e => .error e
      | .ok a => parse_lines fuel a := by
  rw [parse_lines.eq_def]; simp [h]

theorem parse_line_loop_text (a : args) (pre t post : List Char) (fuel sp n : Nat)
    (hmd : a.markdown = pre ++ (t ++ post)) (hit : a.iterator = pre.length)
    (hord : ∀ c ∈ t, ordinary c) (hf : t.length ≤ fuel) (hn : n = pre.length + t.length) :
    parse_line_loop fuel a false false sp =
      parse_line_loop (fuel - t.length) { a with iterator := n } false false (spaces_after sp t) := by
  rw [parse_line_loop_ordinary t a pre post fuel sp hmd hit hord hf, hn, hit]

theorem plain_text_paragraph_aux (md : List Char) (tags : html_tags) (c l : Char) (t pre : List Char)
    (hmd : md = c :: t) (hpre : md = pre ++ [l])
    (hc : is_letter c) (ht : ∀ x ∈ t, is_letter x ∨ x = ' ') (hl : is_letter l) :
    markdown_to_html md tags = .ok (" <p>".toList ++ md ++ "</p>".toList) := by
  have hord : ∀ x ∈ t, ordinary x := fun x hx => by
    rcases ht x hx with h | h
    · exact letter_ordinary x h
    · subst h; exact space_ordinary
  have hcn : c ≠ '\n' := letter_ne c _ hc (by decide)
  have hcs : c ≠ ' ' := letter_ne c _ hc (by decide)
  have hls : l ≠ ' ' := letter_ne l _ hl (by decide)
  obtain ⟨n, hn⟩ : ∃ n, n = md.length := ⟨_, rfl⟩
  have hnt : n = t.length + 1 := by rw [hn, hmd]; simp
  have hnp : n = pre.length + 1 := by rw [hn, hpre]; simp
  have h0 : md[0]? = some c := by rw [hmd]; simp
  have hsp : spaces_after 0 t = 0 := by
    cases pre with
    | nil => simp [hmd] at hpre; simp [hpre.2, spaces_after]
    | cons p ps =>
      simp [hmd] at hpre
      rw [hpre.2, spaces_after_concat]; simp [hls]
  have h1 : char_at md (sub64 n 1) = .ok l :=
    char_at_eq _ pre [] l _ hpre (by rw [hnp]; simp [sub64])
  have h2 : substr md 0 (sub64 n 0) = .ok md :=
    substr_eq _ [] md [] _ _ (by simp) rfl (by simp [sub64, hn])
  have h3 : ¬ (n = 0) := by omega
  unfold markdown_to_html
  rw [← hn, hnt, parse_lines_succ _ _ (by simp; omega)]
  simp only [parse_line]
  rw [parse_line_head_letter _ c hc h0 rfl]
  simp only [parse_line_body, char_at, h0, hcn, if_false, iter_good,
    List.length_nil, ne_eq, not_true_eq_false, decide_False, Bool.and_false, Bool.false_and,
    Bool.false_eq_true, Nat.sub_zero, ← hn, hnt]
  rw [parse_line_loop]
  simp only [h0, hcn, if_false, Bool.false_eq_true, hcs]
  rw [parse_line_step_letter_first _ c hc h0]
  simp only []
  rw [parse_line_loop_text _ [c] t [] _ _ n (by simp [hmd]) (by simp) hord (by omega)
    (by simp; omega)]
  rw [parse_line_loop_end _ _ _ _ _ (Or.inl (by simp; omega))]
  simp [dump_paragraph, emit, h3, hsp, dump_block, h1, h2, hls, parse_lines_done, finish,
    try_close_paragraph, close_all_lists, close_all_lists_loop, close_blockquotes, ← hn]


/-! ## C2: the conversion can fail -/

/-- C2 (code defect): `markdown_to_html` does not return on every input.  The unguarded
`markdown.at(iterator)` of the blank-line test of `parse_line`, of `parse_heading`, of
`parse_named_link`, of `parse_code_block` and of `is_ordered_list_element` raises
`std::out_of_range` when the document ends on indentation, on `>` markers, on a run of `#`,
inside an open `[`, right after a fence, or on a run of digits. -/
theorem markdown_to_html_out_of_range :
    markdown_to_html " ".toList default_tags = .error .out_of_range ∧
    markdown_to_html ">".toList default_tags = .error .out_of_range ∧
    markdown_to_html "#".toList default_tags = .error .out_of_range ∧
    markdown_to_html "[abc".toList default_tags = .error .out_of_range ∧
    markdown_to_html "```py".toList default_tags = .error .out_of_range ∧
    markdown_to_html "12".toList default_tags = .error .out_of_range := by
  decide!

/-! ## C3: plain text -/

/-- C3 (counterexample): the claim promises exactly `<p>ab</p>` for the text `ab`; the
converter writes a space in front of the paragraph wrapper. -/
theorem plain_text_not_bare_paragraph :
    markdown_to_html "ab".toList default_tags ≠ .ok ("<p>".toList ++ "ab".toList ++ "</p>".toList) := by
  decide!

/-- C3 (amended): for every non-empty single-line text `t` of ASCII letters and spaces whose
first and last characters are letters, the conversion with the default tags returns one
space, then `<p>`, then `t` unchanged, then `</p>`, and nothing else. -/
theorem plain_text_pass_through (t : List Char) (hne : t ≠ [])
    (h : ∀ c ∈ t, is_letter c ∨ c = ' ')
    (hfirst : ∀ c, t.head? = some c → is_letter c)
    (hlast : ∀ c, t.getLast? = some c → is_letter c) :
    markdown_to_html t default_tags = .ok (" <p>".toList ++ t ++ "</p>".toList) := by
  cases t with
  | nil => exact absurd rfl hne
  | cons c t' =>
    rcases List.eq_nil_or_concat (c :: t') with hnil | ⟨pre, l, hpre⟩
    · exact absurd hnil hne
    · rw [List.concat_eq_append] at hpre
      exact plain_text_paragraph_aux (c :: t') default_tags c l t' pre rfl hpre
        (hfirst c rfl) (fun x hx => h x (by simp [hx]))
        (hlast l (by rw [hpre]; simp))

theorem plain_text_pass_through_witness :
    markdown_to_html "hello world".toList default_tags
      = .ok (" <p>".toList ++ "hello world".toList ++ "</p>".toList) :=
  plain_text_pass_through "hello world".toList (by decide) (by decide) (by decide) (by decide)


/-! ## C4: headings -/

/-- A line whose first character is no indentation and no `>`, outside any blockquote:
the head of `parse_line` changes nothing but the recorded indentation. -/
theorem parse_line_head_plain (a : args) (c : Char)
    (hc : a.markdown[a.iterator]? = some c) (h1 : c ≠ ' ') (h2 : c ≠ '\t') (h3 : c ≠ '>')
    (hq : a.blockquote_level = 0) :
    parse_line_head a = { a with line_indentation := 0 } := by
  have e1 : get_indentation a = (0, a) :=
    get_indentation_stop a (fun x hx => by rw [hc] at hx; cases hx; exact ⟨h1, h2⟩)
  have e2 : count_char '>' { a with line_indentation := 0 } = (0, { a with line_indentation := 0 }) :=
    count_char_stop _ _ (fun x hx => by simp only [hc] at hx; cases hx; exact h3)
  simp only [parse_line_head, e1, e2]
  simp [open_blockquotes, close_blockquotes, hq]

theorem count_char_run (c : Char) (a : args) (pre post : List Char) (n : Nat)
    (hmd : a.markdown = pre ++ (List.replicate n c ++ post)) (hit : a.iterator = pre.length)
    (hpost : ∀ x, post.head? = some x → x ≠ c) :
    count_char c a = (n, { a with iterator := a.iterator + n }) := by
  have h := scan_run (fun x => decide (x = c)) a.markdown pre (List.replicate n c) post a.iterator
    hmd hit (fun x hx => by simp [List.eq_of_mem_replicate hx])
    (fun x hx => by simpa using hpost x hx)
  simp only [List.length_replicate] at h
  simp [count_char, h, sub64]

theorem parse_heading_run (a : args) (pre t post : List Char) (n k : Nat)
    (hmd : a.markdown = pre ++ (List.replicate n '#' ++ (' ' :: (t ++ post))))
    (hit : a.iterator = pre.length) (hn : 1 ≤ n) (ht : ∀ x ∈ t, x ≠ '\n')
    (hpost : ∀ x, post.head? = some x → x = '\n')
    (hk : k = pre.length + n + 1 + t.length) :
    parse_heading a = .ok { a with
      html_out := a.html_out ++ "<a name=\"".toList ++ anchor_of t ++ "\"></a>".toList
        ++ (heading_level_tags a.tags (min n 6)).1 ++ t ++ (heading_level_tags a.tags (min n 6)).2
      iterator := k
      block_begin := k } := by
  have e1 := count_char_run '#' a pre (' ' :: (t ++ post)) n hmd hit
    (fun x hx => by simp at hx; subst hx; decide)
  have e2 : char_at a.markdown (a.iterator + n) = .ok ' ' :=
    char_at_eq _ (pre ++ List.replicate n '#') (t ++ post) ' ' _ (by simp [hmd]) (by simp [hit])
  have e3 : scan (fun x => decide (x ≠ '\n')) a.markdown (a.iterator + n + 1) = k := by
    rw [scan_run _ a.markdown (pre ++ List.replicate n '#' ++ [' ']) t post _ (by simp [hmd])
      (by simp [hit]; try omega) (fun x hx => by simpa using ht x hx)
      (fun x hx => by simp [hpost x hx])]
    omega
  have e4 : substr a.markdown (a.iterator + n + 1) (sub64 k (a.iterator + n + 1)) = .ok t :=
    substr_eq _ (pre ++ List.replicate n '#' ++ [' ']) t post _ _ (by simp [hmd]) (by simp [hit]; try omega)
      (by rw [sub64_of_le _ _ (by omega)]; omega)
  have e5 : heading_at a.tags (sub64 (if n > 6 then 6 else n) 1)
      = .ok (heading_level_tags a.tags (min n 6)) := by
    have h6 : (if n > 6 then 6 else n) = min n 6 := by split <;> omega
    rw [h6, sub64_of_le _ _ (by omega)]
    have hlt : min n 6 - 1 < 6 := by omega
    simp only [heading_at, hlt, dite_true, heading_level_tags]
    congr 2
    simp [Nat.mod_eq_of_lt hlt]
  simp only [parse_heading, e1, e2, e3, e4, e5, dump_block, emit]
  simp [anchor_of]


theorem getElem?_split (md pre post : List Char) (c : Char) (i : Nat)
    (hmd : md = pre ++ c :: post) (hi : i = pre.length) : md[i]? = some c := by
  subst hmd hi
  simp only [getElem?_at, List.head?_cons]

theorem parse_line_loop_step (fuel : Nat) (a : args) (c : Char) (f : Bool) (sp : Nat)
    (hc : a.markdown[a.iterator]? = some c) (hn : c ≠ '\n') (hf : 0 < fuel) :
    parse_line_loop fuel a f false sp =
      match parse_line_step a c f with
      | .error e => .error e
      | .ok (a, ignore_next) =>
        parse_line_loop (fuel - 1) a false ignore_next (if c = ' ' then sp + 1 else 0) := by
  cases fuel with
  | zero => omega
  | succ k =>
    rw [parse_line_loop]
    simp only [hc, hn, if_false, Bool.false_eq_true, Nat.add_sub_cancel]

theorem heading_conversion (tags : html_tags) (n : Nat) (t : List Char) (hn : 1 ≤ n)
    (ht : ∀ x ∈ t, x ≠ '\n') :
    markdown_to_html (List.replicate n '#' ++ (' ' :: (t ++ ['\n']))) tags =
      .ok (" ".toList ++ "<a name=\"".toList ++ anchor_of t ++ "\"></a>".toList
        ++ (heading_level_tags tags (min n 6)).1 ++ t ++ (heading_level_tags tags (min n 6)).2
        ++ " <p></p>".toList) := by
  obtain ⟨md, hmd⟩ : ∃ md, md = List.replicate n '#' ++ (' ' :: (t ++ ['\n'])) := ⟨_, rfl⟩
  obtain ⟨k, hk⟩ : ∃ k, k = n + 1 + t.length := ⟨_, rfl⟩
  have hlen : md.length = k + 1 := by rw [hmd, hk]; simp; omega
  have h0 : md[0]? = some '#' := by
    obtain ⟨m, rfl⟩ : ∃ m, n = m + 1 := ⟨n - 1, by omega⟩
    rw [hmd]; simp [List.replicate_succ]
  have hk1 : md[k]? = some '\n' :=
    getElem?_split md (List.replicate n '#' ++ (' ' :: t)) [] '\n' k (by simp [hmd])
      (by simp [hk]; omega)
  rw [← hmd]
  unfold markdown_to_html
  rw [hlen, parse_lines_succ _ _ (by simp; omega)]
  simp only [parse_line]
  rw [parse_line_head_plain _ '#' h0 (by decide) (by decide) (by decide) rfl]
  simp only [parse_line_body, char_at, h0]
  simp only [Char.reduceEq, if_false, iter_good, List.length_nil, ne_eq, not_true_eq_false,
    decide_False, Bool.and_false, Bool.false_and, Bool.false_eq_true]
  rw [parse_line_loop_step _ _ '#' _ _ h0 (by decide) (by simp; omega)]
  simp only [parse_line_step, Char.reduceEq, if_false, and_self, if_true, true_and, false_and]
  simp only [dump_paragraph, try_close_paragraph, emit, Bool.not_false, if_true,
    Bool.false_eq_true, if_false, List.nil_append]
  rw [parse_heading_run _ [] t ['\n'] n k (by simp [hmd]) rfl hn ht (by simp) (by simp [hk])]
  simp only []
  rw [parse_line_loop_end _ _ _ _ _ (Or.inr hk1)]
  simp [dump_paragraph, emit, parse_lines_done, hlen, finish, try_close_paragraph,
    close_all_lists, close_all_lists_loop, close_blockquotes]

/-- C4: for every `n ≥ 1` and every heading text `t` without a newline, converting `n`
characters `#`, one space, `t` and a newline returns an output that contains
`<a name="t'"></a>` immediately followed by the opening heading tag of level `min n 6`, then
`t` unchanged, then the closing tag of that level, where `t'` is `t` with each space
replaced by `-`. -/
theorem heading_anchor_then_tags (tags : html_tags) (n : Nat) (t : List Char) (hn : 1 ≤ n)
    (ht : ∀ x ∈ t, x ≠ '\n') :
    ∃ out, markdown_to_html (List.replicate n '#' ++ (' ' :: (t ++ ['\n']))) tags = .ok out ∧
      ("<a name=\"".toList ++ anchor_of t ++ "\"></a>".toList
        ++ (heading_level_tags tags (min n 6)).1 ++ t ++ (heading_level_tags tags (min n 6)).2)
        <:+: out := by
  refine ⟨_, heading_conversion tags n t hn ht, ?_⟩
  exact ⟨" ".toList, " <p></p>".toList, by simp⟩

theorem heading_anchor_then_tags_witness :
    ∃ out, markdown_to_html "# Title\n".toList default_tags = .ok out ∧
      "<a name=\"Title\"></a><h1>Title</h1>\n".toList <:+: out :=
  heading_anchor_then_tags default_tags 1 "Title".toList (by decide) (by decide)



/-! ## C5: emphasis and the first character of a line -/

/-- C5 (counterexample): on a line that begins with `*` the first `*` is taken as a list
marker: the output holds list tags and literal `*`, `a` is not wrapped in the italic tags,
and no paragraph wrapper is opened. -/
theorem emphasis_at_line_start_is_list :
    markdown_to_html "*a* **b** ***c***\n".toList default_tags
      = .ok "<ul><li> a<em> </em>* b<strong> </strong>* c ***</li></ul>".toList := by
  decide!

/-- C5 (amended): when the emphasis does not begin the line, as in `x *a* **b** ***c***`,
`a` is wrapped in the italic tags, then `b` in the bold tags, then `c` in both, all inside
one paragraph wrapper, with no list tag and no literal `*` in the output. -/
theorem emphasis_inside_line :
    markdown_to_html "x *a* **b** ***c***\n".toList default_tags
      = .ok " <p>x <em>a</em> <strong>b</strong> <em><strong>c</strong></em></p>".toList := by
  decide!


/-! ## C6: list items -/

theorem get_indentation_loop_spaces (md : List Char) (i : Nat) :
    ∀ (pre post : List Char) (fuel ind : Nat), md = pre ++ (List.replicate i ' ' ++ post) →
      (∀ c, post.head? = some c → c ≠ ' ' ∧ c ≠ '\t') → i ≤ fuel →
      get_indentation_loop md fuel pre.length ind = (ind + i, pre.length + i) := by
  induction i with
  | zero =>
    intro pre post fuel ind hmd hpost _
    apply get_indentation_loop_stop
    intro c hc
    rw [hmd] at hc
    simp only [List.replicate_zero, List.nil_append, getElem?_at] at hc
    exact hpost c hc
  | succ i ih =>
    intro pre post fuel ind hmd hpost hf
    cases fuel with
    | zero => omega
    | succ f =>
      have h0 : md[pre.length]? = some ' ' :=
        getElem?_split md pre (List.replicate i ' ' ++ post) ' ' _
          (by simp [hmd, List.replicate_succ]) rfl
      rw [get_indentation_loop]
      simp only [h0, if_true]
      have := ih (pre ++ [' ']) post f (ind + 1) (by simp [hmd, List.replicate_succ]) hpost
        (by omega)
      simp only [List.length_append, List.length_singleton] at this
      rw [this]
      congr 1 <;> omega

theorem get_indentation_spaces (a : args) (pre post : List Char) (i : Nat)
    (hmd : a.markdown = pre ++ (List.replicate i ' ' ++ post)) (hit : a.iterator = pre.length)
    (hpost : ∀ c, post.head? = some c → c ≠ ' ' ∧ c ≠ '\t') :
    get_indentation a = (i, { a with iterator := a.iterator + i }) := by
  have := get_indentation_loop_spaces a.markdown i pre post (a.markdown.length - a.iterator) 0
    hmd hpost (by rw [hmd, hit]; simp)
  rw [hit] at this
  simp only [get_indentation, hit, this, Nat.zero_add]

theorem pop_deeper_ne_nil (t : html_tags) (li : Nat) (stack : List list) :
    ∀ (cur : Nat) (out : List Char), stack ≠ [] → (pop_deeper t li cur stack out).1 ≠ [] := by
  induction stack with
  | nil => intro _ _ h; exact absurd rfl h
  | cons top rest ih =>
    intro cur out _
    cases rest with
    | nil => simp [pop_deeper]
    | cons below rest' =>
      rw [pop_deeper]
      split
      · exact ih _ _ (by simp)
      · simp

theorem parse_list_fields (a : args) (ordered : Bool) :
    (parse_list a ordered).markdown = a.markdown ∧
    (parse_list a ordered).iterator = a.iterator + 1 ∧
    (parse_list a ordered).block_begin = a.block_begin + 1 ∧
    (parse_list a ordered).blockquote_level = a.blockquote_level ∧
    (parse_list a ordered).is_paragraph_open = a.is_paragraph_open ∧
    (parse_list a ordered).paragraph_ended_with_space = a.paragraph_ended_with_space ∧
    (parse_list a ordered).tags = a.tags ∧
    (parse_list a ordered).line_indentation = a.line_indentation ∧
    (parse_list a ordered).ongoing_lists ≠ [] := by
  unfold parse_list
  cases h : a.ongoing_lists with
  | nil => simp [emit]
  | cons top rest =>
    simp only []
    split
    · simp [emit]
    · split
      · have hne := pop_deeper_ne_nil a.tags a.line_indentation (top :: rest) top.items_indentation
          a.html_out (by simp)
        split
        · rename_i heq; exact absurd heq hne
        · rename_i heq; simp [emit, heq]
      · simp [emit, h]


theorem spaces_after_no_space (w : List Char) : ∀ sp, sp = 0 → (∀ c ∈ w, c ≠ ' ') →
    spaces_after sp w = 0 := by
  induction w with
  | nil => intro sp h _; simpa [spaces_after] using h
  | cons c w ih =>
    intro sp _ hw
    have hc : c ≠ ' ' := hw c (by simp)
    have := ih 0 rfl (fun x hx => hw x (by simp [hx]))
    simpa [spaces_after, hc] using this

/-- The line `- w` at indentation `i`, `w` a word of letters, outside blockquotes:
`parse_line` runs `parse_list`, then writes the joining space (unless the previous fragment
ended in a space), the space after the marker and the word. -/
theorem parse_line_item (a : args) (pre w post : List Char) (i n : Nat)
    (hmd : a.markdown = pre ++ (List.replicate i ' ' ++ ('-' :: ' ' :: (w ++ '\n' :: post))))
    (hit : a.iterator = pre.length) (hq : a.blockquote_level = 0)
    (hw : ∀ c ∈ w, is_letter c) (hn : n = pre.length + i + 2 + w.length) :
    parse_line a = .ok
      { parse_list (at_marker a i (pre.length + i)) false with
        html_out := (parse_list (at_marker a i (pre.length + i)) false).html_out
          ++ (if a.paragraph_ended_with_space then [] else [' ']) ++ ' ' :: w
        iterator := n + 1
        block_begin := n
        paragraph_ended_with_space := decide (w = []) } := by
  -- the head of the line
  have e1 := get_indentation_spaces a pre ('-' :: ' ' :: (w ++ '\n' :: post)) i hmd hit
    (fun c hc => by simp at hc; subst hc; decide)
  have hdash : a.markdown[pre.length + i]? = some '-' :=
    getElem?_split _ (pre ++ List.replicate i ' ') (' ' :: (w ++ '\n' :: post)) '-' _
      (by simp [hmd]) (by simp)
  have e2 : count_char '>' { a with iterator := a.iterator + i, line_indentation := i }
      = (0, { a with iterator := a.iterator + i, line_indentation := i }) :=
    count_char_stop _ _ (fun x hx => by
      simp only [hit, hdash] at hx; cases hx; decide)
  have hhead : parse_line_head a = { a with iterator := pre.length + i, line_indentation := i } := by
    simp only [parse_line_head, e1, e2]
    simp [open_blockquotes, close_blockquotes, hq, hit]
  -- the marker
  have e3 : count_char '-' { a with iterator := pre.length + i, line_indentation := i, block_begin := pre.length + i }
      = (1, at_marker a i (pre.length + i)) :=
    count_char_run '-' _ (pre ++ List.replicate i ' ') (' ' :: (w ++ '\n' :: post)) 1
      (by simp [hmd]) (by simp) (fun x hx => by simp at hx; subst hx; decide)
  obtain ⟨b, hb⟩ : ∃ b, b = parse_list (at_marker a i (pre.length + i)) false := ⟨_, rfl⟩
  obtain ⟨b1, b2, b3, b4, b5, b6, b7, b8, b9⟩ := parse_list_fields (at_marker a i (pre.length + i)) false
  rw [← hb] at b1 b2 b3 b4 b5 b6 b7 b8 b9 ⊢
  simp only [at_marker] at b1 b2 b3 b4 b5 b6 b7 b8
  have hnl : a.markdown[n]? = some '\n' :=
    getElem?_split _ (pre ++ List.replicate i ' ' ++ '-' :: ' ' :: w) post '\n' _
      (by simp [hmd]) (by simp [hn]; omega)
  have hsp : spaces_after 0 w = 0 :=
    spaces_after_no_space w 0 rfl (fun c hc => letter_ne c _ (hw c hc) (by decide))
  obtain ⟨l, hlast, hl⟩ : ∃ l, char_at a.markdown (sub64 n 1) = .ok l ∧
      decide (l = ' ') = decide (w = []) := by
    rw [sub64_of_le _ _ (by omega)]
    rcases List.eq_nil_or_concat w with h | ⟨w', l, h⟩
    · subst h
      exact ⟨' ', char_at_eq _ (pre ++ List.replicate i ' ' ++ ['-']) ('\n' :: post) _ _
        (by simp [hmd]) (by simp at hn; simp; omega), by simp⟩
    · rw [List.concat_eq_append] at h
      have hwl : w.length = w'.length + 1 := by simp [h]
      have hne : w ≠ [] := by simp [h]
      have hls : l ≠ ' ' := letter_ne l _ (hw l (by simp [h])) (by decide)
      exact ⟨l, char_at_eq _ (pre ++ List.replicate i ' ' ++ '-' :: ' ' :: w') ('\n' :: post) _ _
        (by simp [hmd, h]) (by simp; omega), by simp [hls, hne]⟩
  have hsub : substr a.markdown (pre.length + i + 1) (sub64 n (pre.length + i + 1)) = .ok (' ' :: w) :=
    substr_eq _ (pre ++ List.replicate i ' ' ++ ['-']) (' ' :: w) ('\n' :: post) _ _
      (by simp [hmd]) (by simp; omega) (by rw [sub64_of_le _ _ (by omega)]; simp; omega)
  have hfuel : 0 < a.markdown.length - (pre.length + i) := by
    rw [hmd]; simp
  unfold parse_line
  rw [hhead]
  simp only [parse_line_body, char_at, hdash, Char.reduceEq, if_false, ne_eq, not_true_eq_false,
    decide_False, Bool.and_false, Bool.false_and, Bool.false_eq_true]
  rw [parse_line_loop_step _ _ '-' _ _ hdash (by decide) hfuel]
  simp only [parse_line_step, Char.reduceEq, if_false, and_self, if_true, true_and, false_and,
    or_self, e3, ge_iff_le, Nat.not_ofNat_le_one, ← hb]
  rw [parse_line_loop_text b (pre ++ List.replicate i ' ' ++ ['-', ' ']) w ('\n' :: post) _ _ n
    (by rw [b1, hmd]; simp) (by rw [b2]; simp; omega) (fun c hc => letter_ordinary c (hw c hc))
    (by rw [hmd]; simp; omega) (by simp; omega)]
  rw [parse_line_loop_end _ _ _ _ _ (Or.inr (by simpa [b1] using hnl))]
  have hne : ¬ n = pre.length + i + 1 := by omega
  have hlen : b.ongoing_lists.length ≠ 0 := by
    intro h; exact b9 (List.length_eq_zero.mp h)
  cases hpe : a.paragraph_ended_with_space <;>
    simp [dump_paragraph, emit, hne, b1, hlast, b3, hsub, dump_block, hlen, b6, hsp, hpe, hl]


theorem parse_lines_step (fuel : Nat) (a : args) (h : a.iterator < a.markdown.length)
    (hf : 0 < fuel) :
    parse_lines fuel a =
      match parse_line a with
      | .error e => .error e
      | .ok a => parse_lines (fuel - 1) a := by
  cases fuel with
  | zero => omega
  | succ k => rw [parse_lines_succ _ _ h]; rfl

theorem filter_no_space (w : List Char) (hw : ∀ c ∈ w, is_letter c) :
    w.filter (fun c => decide (c ≠ ' ')) = w := by
  rw [List.filter_eq_self]
  intro c hc
  simpa using letter_ne c _ (hw c hc) (by decide)

theorem nested_list_output (a b c : List Char) (ha : ∀ x ∈ a, is_letter x)
    (hb : ∀ x ∈ b, is_letter x) (hc : ∀ x ∈ c, is_letter x) :
    markdown_to_html ("- ".toList ++ a ++ "\n  - ".toList ++ b ++ "\n- ".toList ++ c ++ "\n".toList)
        default_tags =
      .ok ("<ul><li>  ".toList ++ a ++ "<ul><li>".toList
        ++ (if a = [] then [] else [' ']) ++ ' ' :: b ++ "</li></ul></li><li>".toList
        ++ (if b = [] then [] else [' ']) ++ ' ' :: c ++ "</li></ul>".toList) := by
  obtain ⟨md, hmd⟩ : ∃ md, md = "- ".toList ++ a ++ "\n  - ".toList ++ b ++ "\n- ".toList ++ c
      ++ "\n".toList := ⟨_, rfl⟩
  obtain ⟨n1, hn1⟩ : ∃ n, n = 2 + a.length := ⟨_, rfl⟩
  obtain ⟨n2, hn2⟩ : ∃ n, n = n1 + 1 + 2 + 2 + b.length := ⟨_, rfl⟩
  obtain ⟨n3, hn3⟩ : ∃ n, n = n2 + 1 + 2 + c.length := ⟨_, rfl⟩
  have hlen : md.length = n3 + 1 := by rw [hmd]; simp; omega
  rw [← hmd]
  unfold markdown_to_html
  rw [parse_lines_step _ _ (by simp; omega) (by omega)]
  rw [parse_line_item _ [] a ("  - ".toList ++ b ++ "\n- ".toList ++ c ++ "\n".toList) 0 n1
    (by simp [hmd]) rfl rfl ha (by simp; omega)]
  simp only [parse_list, pop_deeper, at_marker, emit, item_tags, list_tags, default_tags, sub64,
    Bool.false_eq_true, if_false, Nat.le_refl, if_true, Nat.sub_self, List.nil_append,
    List.length_nil, Nat.zero_add, Nat.add_zero]
  rw [parse_lines_step _ _ (by simp; omega) (by omega)]
  rw [parse_line_item _ ("- ".toList ++ a ++ "\n".toList) b ("- ".toList ++ c ++ "\n".toList) 2 n2
    (by simp [hmd]) (by simp; omega) rfl hb (by simp; omega)]
  simp only [parse_list, pop_deeper, at_marker, emit, item_tags, list_tags, default_tags, sub64,
    Bool.false_eq_true, if_false, Nat.le_refl, if_true, Nat.sub_self, List.nil_append,
    List.length_nil, Nat.zero_add, Nat.add_zero, Nat.lt_add_one, Nat.zero_lt_succ, Nat.zero_le,
    Nat.sub_zero, Nat.ofNat_pos]
  rw [parse_lines_step _ _ (by simp; omega) (by omega)]
  rw [parse_line_item _ ("- ".toList ++ a ++ "\n  - ".toList ++ b ++ "\n".toList) c [] 0 n3
    (by simp [hmd]) (by simp; omega) rfl hc (by simp; omega)]
  simp only [parse_list, pop_deeper, at_marker, emit, item_tags, list_tags, default_tags, sub64,
    Bool.false_eq_true, if_false, Nat.le_refl, if_true, Nat.sub_self, List.nil_append,
    List.length_nil, Nat.zero_add, Nat.add_zero, Nat.lt_add_one, Nat.zero_lt_succ, Nat.zero_le,
    Nat.sub_zero, Nat.ofNat_pos, Nat.lt_irrefl, Nat.not_lt_zero, gt_iff_lt]
  rw [parse_lines_done _ _ (by simp; omega)]
  simp [finish, try_close_paragraph, close_all_lists, close_all_lists_loop, close_blockquotes,
    parse_list, pop_deeper, at_marker, emit, item_tags, list_tags, default_tags, sub64]

/-- C6: for all words `a`, `b`, `c` of letters, converting `- a`, `  - b`, `- c` (one per
line) with the default tags returns an output that, once its spaces are removed, is exactly
`<ul><li>a<ul><li>b</li></ul></li><li>c</li></ul>`. -/
theorem nested_list (a b c : List Char) (ha : ∀ x ∈ a, is_letter x)
    (hb : ∀ x ∈ b, is_letter x) (hc : ∀ x ∈ c, is_letter x) :
    ∃ out, markdown_to_html
        ("- ".toList ++ a ++ "\n  - ".toList ++ b ++ "\n- ".toList ++ c ++ "\n".toList)
        default_tags = .ok out ∧
      out.filter (fun x => decide (x ≠ ' ')) =
        "<ul><li>".toList ++ a ++ "<ul><li>".toList ++ b ++ "</li></ul></li><li>".toList ++ c
          ++ "</li></ul>".toList := by
  refine ⟨_, nested_list_output a b c ha hb hc, ?_⟩
  have fa := filter_no_space a ha
  have fb := filter_no_space b hb
  have fc := filter_no_space c hc
  have e1 : (if a = [] then ([] : List Char) else [' ']).filter (fun x => decide (x ≠ ' ')) = [] := by
    split <;> simp
  have e2 : (if b = [] then ([] : List Char) else [' ']).filter (fun x => decide (x ≠ ' ')) = [] := by
    split <;> simp
  simp only [List.filter_append, List.filter_cons, fa, fb, fc, e1, e2]
  simp

theorem nested_list_witness :
    ∃ out, markdown_to_html "- a\n  - b\n- c\n".toList default_tags = .ok out ∧
      out.filter (fun x => decide (x ≠ ' ')) =
        "<ul><li>a<ul><li>b</li></ul></li><li>c</li></ul>".toList :=
  nested_list "a".toList "b".toList "c".toList (by decide) (by decide) (by decide)


/-! ## C7: fenced code blocks -/

theorem language_loop_run (md : List Char) (name : List Char) :
    ∀ (pre post : List Char) (fuel : Nat) (c : Char), md = pre ++ (name ++ c :: post) →
      (∀ x ∈ name, x ≠ ' ' ∧ x ≠ '\n' ∧ x ≠ '\t') → (c = ' ' ∨ c = '\n' ∨ c = '\t') →
      name.length < fuel →
      language_loop md fuel pre.length = .ok (pre.length + name.length) := by
  induction name with
  | nil =>
    intro pre post fuel c hmd _ hc hf
    cases fuel with
    | zero => omega
    | succ f =>
      rw [language_loop, char_at_eq md pre post c _ (by simpa using hmd) rfl]
      rcases hc with h | h | h <;> simp [h]
  | cons x name ih =>
    intro pre post fuel c hmd hname hc hf
    cases fuel with
    | zero => omega
    | succ f =>
      rw [language_loop, char_at_eq md pre (name ++ c :: post) x _ (by simpa using hmd) rfl]
      have hx := hname x (by simp)
      simp only [hx.1, hx.2.1, hx.2.2, ne_eq, not_false_eq_true, and_self, if_true]
      have := ih (pre ++ [x]) post f c (by simp [hmd]) (fun y hy => hname y (by simp [hy])) hc
        (by simp at hf; omega)
      simp only [List.length_append, List.length_singleton] at this
      rw [this]; simp; omega

theorem find_run_run (md : List Char) (c : Char) (n : Nat) (body : List Char) :
    ∀ (pre post : List Char) (fuel : Nat),
      md = pre ++ (body ++ (List.replicate n c ++ post)) → (∀ x ∈ body, x ≠ c) →
      (∀ x, post.head? = some x → x ≠ c) → 1 ≤ n → body.length < fuel →
      find_run md c n fuel pre.length = pre.length + body.length + n := by
  induction body with
  | nil =>
    intro pre post fuel hmd _ hpost hn hf
    cases fuel with
    | zero => omega
    | succ f =>
      obtain ⟨m, rfl⟩ : ∃ m, n = m + 1 := ⟨n - 1, by omega⟩
      have h0 : md[pre.length]? = some c :=
        getElem?_split md pre (List.replicate m c ++ post) c _
          (by simp [hmd, List.replicate_succ]) rfl
      have hlt : pre.length < md.length := by rw [hmd]; simp
      have hs := scan_run (fun x => decide (x = c)) md pre (List.replicate (m + 1) c) post
        pre.length (by simpa using hmd) rfl (fun x hx => by simp [List.eq_of_mem_replicate hx])
        (fun x hx => by simpa using hpost x hx)
      simp only [List.length_replicate] at hs
      rw [find_run]
      simp [hlt, h0, hs, sub64]
  | cons x body ih =>
    intro pre post fuel hmd hbody hpost hn hf
    cases fuel with
    | zero => omega
    | succ f =>
      have h0 : md[pre.length]? = some x :=
        getElem?_split md pre (body ++ (List.replicate n c ++ post)) x _ (by simpa using hmd) rfl
      have hlt : pre.length < md.length := by rw [hmd]; simp
      have hx : x ≠ c := hbody x (by simp)
      rw [find_run]
      simp only [hlt, if_true, h0, Option.some.injEq, hx, if_false]
      have := ih (pre ++ [x]) post f (by simp [hmd]) (fun y hy => hbody y (by simp [hy])) hpost hn
        (by simp at hf; omega)
      simp only [List.length_append, List.length_singleton] at this
      rw [this]; simp; omega


theorem parse_code_block_run (a : args) (pre name body post : List Char) (p q : Nat)
    (hmd : a.markdown = pre ++ (name ++ '\n' :: (body ++ (List.replicate 3 '`' ++ post))))
    (hit : a.iterator = pre.length)
    (hname : ∀ x ∈ name, x ≠ ' ' ∧ x ≠ '\n' ∧ x ≠ '\t')
    (hbody : ∀ x ∈ body, x ≠ '`') (hpost : ∀ x, post.head? = some x → x ≠ '`')
    (hp : p = pre.length + name.length + 1) (hq : q = p + body.length + 3) :
    parse_code_block a = .ok { a with
      html_out := a.html_out ++ a.tags.code_block_tags.1
        ++ code_block_body a name body p (p + body.length) ++ a.tags.code_block_tags.2
      iterator := q
      block_begin := q } := by
  subst hp hq
  have hnl : a.markdown[pre.length + name.length]? = some '\n' :=
    getElem?_split _ (pre ++ name) (body ++ (List.replicate 3 '`' ++ post)) '\n' _
      (by simp [hmd]) (by simp)
  have e1 : scan (fun x => decide (x = ' ') || decide (x = '\t')) a.markdown pre.length
      = pre.length := by
    apply skip_while_stop
    intro c hc
    cases name with
    | nil =>
      simp only [List.length_nil, Nat.add_zero] at hnl
      rw [hnl] at hc; cases hc; decide
    | cons x name' =>
      have : a.markdown[pre.length]? = some x :=
        getElem?_split _ pre (name' ++ '\n' :: (body ++ (List.replicate 3 '`' ++ post))) x _
          (by simp [hmd]) rfl
      rw [this] at hc; cases hc
      have hx := hname c (by simp)
      simp [hx.1, hx.2.2]
  have e2 : language_loop a.markdown (a.markdown.length - pre.length + 1) pre.length
      = .ok (pre.length + name.length) :=
    language_loop_run _ name pre (body ++ (List.replicate 3 '`' ++ post)) _ '\n' hmd hname
      (by simp) (by rw [hmd]; simp; omega)
  have e3 : substr a.markdown pre.length (sub64 (pre.length + name.length) pre.length) = .ok name :=
    substr_eq _ pre name ('\n' :: (body ++ (List.replicate 3 '`' ++ post))) _ _ hmd rfl
      (by rw [sub64_of_le _ _ (by omega)]; omega)
  have e4 : get_indentation { a with iterator := pre.length + name.length, block_begin := pre.length }
      = (0, { a with iterator := pre.length + name.length, block_begin := pre.length }) :=
    get_indentation_stop _ (fun c hc => by
      simp only [hnl] at hc; cases hc; decide)
  have e5 : find_run a.markdown '`' 3 (a.markdown.length - (pre.length + name.length + 1))
      (pre.length + name.length + 1) = pre.length + name.length + 1 + body.length + 3 := by
    have := find_run_run a.markdown '`' 3 body (pre ++ name ++ ['\n']) post
      (a.markdown.length - (pre.length + name.length + 1)) (by simp [hmd]) hbody hpost (by omega)
      (by rw [hmd]; simp; omega)
    simp only [List.length_append, List.length_singleton] at this
    exact this
  have e7 : sub64 (pre.length + name.length + 1 + body.length + 3) 3
      = pre.length + name.length + 1 + body.length := by
    rw [sub64_of_le _ _ (by omega)]; omega
  have e6 : substr a.markdown (pre.length + name.length + 1)
      (sub64 (pre.length + name.length + 1 + body.length) (pre.length + name.length + 1))
      = .ok body :=
    substr_eq _ (pre ++ name ++ ['\n']) body (List.replicate 3 '`' ++ post) _ _ (by simp [hmd])
      (by simp; omega)
      (by rw [sub64_of_le _ _ (by omega)]; omega)
  unfold parse_code_block
  simp only [hit, e1, e2, e3, e4, char_at, hnl, if_true, e5, emit, dump_block,
    code_block_body, e7]
  cases hcb : a.tags.syntax_highlighting with
  | none => simp [e6]
  | some h => simp


/-- C7: with no highlighting callback, for every language token `name` (no space, tab,
newline or backtick) and every body `body` without a backtick, converting the fence, `name`,
a newline, `body`, the closing fence and a newline writes the code-block opening tag, then
`body` character for character, then the code-block closing tag.  Around them the output
holds only the joining space in front and the empty paragraph ` <p></p>` behind: neither
`name` nor a backtick of the fences is written. -/
theorem fenced_code_block_verbatim (tags : html_tags) (name body : List Char)
    (hcb : tags.syntax_highlighting = none)
    (hname : ∀ x ∈ name, x ≠ ' ' ∧ x ≠ '\n' ∧ x ≠ '\t' ∧ x ≠ '`')
    (hbody : ∀ x ∈ body, x ≠ '`') :
    markdown_to_html ("```".toList ++ name ++ "\n".toList ++ body ++ "```\n".toList) tags =
      .ok (" ".toList ++ tags.code_block_tags.1 ++ body ++ tags.code_block_tags.2
        ++ " <p></p>".toList) := by
  obtain ⟨md, hmd⟩ : ∃ md, md = "```".toList ++ name ++ "\n".toList ++ body ++ "```\n".toList :=
    ⟨_, rfl⟩
  have hmd' : md = List.replicate 3 '`' ++ (name ++ '\n' :: (body ++ (List.replicate 3 '`' ++ ['\n']))) := by
    rw [hmd]; simp [List.replicate]
  obtain ⟨q, hq⟩ : ∃ q, q = 3 + name.length + 1 + body.length + 3 := ⟨_, rfl⟩
  have hlen : md.length = q + 1 := by rw [hmd', hq]; simp; omega
  have h0 : md[0]? = some '`' := by rw [hmd']; simp [List.replicate]
  have hq1 : md[q]? = some '\n' :=
    getElem?_split md (List.replicate 3 '`' ++ (name ++ '\n' :: (body ++ List.replicate 3 '`'))) []
      '\n' q (by simp [hmd']) (by simp [hq]; omega)
  have hc : count_char '`' { html_out := [], markdown := md, tags := tags, iterator := 0, block_begin := 0, line_indentation := 0 }
      = (3, { html_out := [], markdown := md, tags := tags, iterator := 0 + 3, block_begin := 0, line_indentation := 0 }) :=
    count_char_run '`' _ [] (name ++ '\n' :: (body ++ (List.replicate 3 '`' ++ ['\n']))) 3
      (by simp [hmd']) rfl (fun x hx => by
        cases name with
        | nil => simp at hx; subst hx; decide
        | cons y name' => simp at hx; subst hx; exact (hname _ (by simp)).2.2.2)
  rw [← hmd]
  unfold markdown_to_html
  rw [parse_lines_step _ _ (by simp; omega) (by omega)]
  simp only [parse_line]
  rw [parse_line_head_plain _ '`' h0 (by decide) (by decide) (by decide) rfl]
  simp only [parse_line_body, char_at, h0]
  simp only [Char.reduceEq, if_false, iter_good, List.length_nil, ne_eq, not_true_eq_false,
    decide_False, Bool.and_false, Bool.false_and, Bool.false_eq_true]
  rw [parse_line_loop_step _ _ '`' _ _ h0 (by decide) (by simp; omega)]
  simp only [parse_line_step, Char.reduceEq, if_false, and_self, if_true, true_and, false_and,
    or_self, hc, Nat.reduceMod, sub64, Nat.zero_add, Nat.le_refl, Nat.sub_self]
  simp only [dump_paragraph, try_close_paragraph, emit, Bool.not_false, if_true,
    Bool.false_eq_true, if_false, List.nil_append]
  rw [parse_code_block_run _ (List.replicate 3 '`') name body ['\n'] (3 + name.length + 1) q
    (by simp [hmd']) (by simp) (fun x hx => ⟨(hname x hx).1, (hname x hx).2.1, (hname x hx).2.2.1⟩)
    hbody (by simp) (by simp) (by simp [hq])]
  simp only []
  rw [parse_line_loop_end _ _ _ _ _ (Or.inr hq1)]
  simp [dump_paragraph, emit, parse_lines_done, hlen, finish, try_close_paragraph,
    close_all_lists, close_all_lists_loop, close_blockquotes, code_block_body, hcb]

theorem fenced_code_block_verbatim_witness :
    markdown_to_html "```py\nx=1\n```\n".toList default_tags
      = .ok " <pre><code>x=1\n</code></pre> <p></p>".toList :=
  fenced_code_block_verbatim default_tags "py".toList "x=1\n".toList rfl (by decide) (by decide)


/-! ## C8: links -/

theorem parse_named_link_run (a : args) (pre t u post : List Char) (q : Nat)
    (hmd : a.markdown = pre ++ ('[' :: (t ++ ']' :: '(' :: (u ++ ')' :: post))))
    (hit : a.iterator = pre.length)
    (ht : ∀ x ∈ t, x ≠ ']') (hu : ∀ x ∈ u, x ≠ ')')
    (hq : q = pre.length + 1 + t.length + 2 + u.length + 1) :
    parse_named_link a = .ok { a with
      html_out := a.html_out ++ a.tags.link_additional_tags.1 ++ "<a href=\"".toList ++ u
        ++ "\">".toList ++ t ++ "</a>".toList ++ a.tags.link_additional_tags.2
      iterator := q
      block_begin := q } := by
  subst hq
  have e1 : scan (fun x => decide (x ≠ ']')) a.markdown (pre.length + 1) = pre.length + 1 + t.length :=
    scan_run _ _ (pre ++ ['[']) t (']' :: '(' :: (u ++ ')' :: post)) _ (by simp [hmd]) (by simp)
      (fun x hx => by simpa using ht x hx) (fun x hx => by simp at hx; subst hx; decide)
  have e2 : substr a.markdown (pre.length + 1) (sub64 (pre.length + 1 + t.length) (pre.length + 1))
      = .ok t :=
    substr_eq _ (pre ++ ['[']) t (']' :: '(' :: (u ++ ')' :: post)) _ _ (by simp [hmd]) (by simp)
      (by rw [sub64_of_le _ _ (by omega)]; omega)
  have e3 : a.markdown[pre.length + 1 + t.length]? = some ']' :=
    getElem?_split _ (pre ++ '[' :: t) ('(' :: (u ++ ')' :: post)) ']' _ (by simp [hmd])
      (by simp; omega)
  have e4 : a.markdown[pre.length + 1 + t.length + 1]? = some '(' :=
    getElem?_split _ (pre ++ '[' :: (t ++ [']'])) (u ++ ')' :: post) '(' _ (by simp [hmd])
      (by simp; omega)
  have e5 : pre.length + 1 + t.length + 1 < a.markdown.length := by rw [hmd]; simp; omega
  have e6 : pre.length + 1 + t.length + 1 + 1 < a.markdown.length := by rw [hmd]; simp; omega
  have e7 : scan (fun x => decide (x ≠ ')')) a.markdown (pre.length + 1 + t.length + 1 + 1)
      = pre.length + 1 + t.length + 2 + u.length := by
    rw [scan_run _ _ (pre ++ '[' :: (t ++ [']', '('])) u (')' :: post) _ (by simp [hmd])
      (by simp; omega) (fun x hx => by simpa using hu x hx)
      (fun x hx => by simp at hx; subst hx; decide)]
  have e8 : substr a.markdown (pre.length + 1 + t.length + 1 + 1)
      (sub64 (pre.length + 1 + t.length + 2 + u.length) (pre.length + 1 + t.length + 1 + 1))
      = .ok u :=
    substr_eq _ (pre ++ '[' :: (t ++ [']', '('])) u (')' :: post) _ _ (by simp [hmd])
      (by simp; omega) (by rw [sub64_of_le _ _ (by omega)]; omega)
  unfold parse_named_link
  simp only [hit, e1, e2, char_at, e3, e4, iter_good, e5, e6, e7, e8, emit]
  simp


/-- C8: for every title `t` without `]`, every url `u` without `)` and every tag
configuration, converting `[t](u)` returns the link wrapper's first string, the anchor
`<a href="u">t</a>` and the wrapper's second string, inside the paragraph wrapper that
`dump_paragraph` opens before the link; neither bracket nor parenthesis is written. -/
theorem named_link_output (tags : html_tags) (t u : List Char)
    (ht : ∀ x ∈ t, x ≠ ']') (hu : ∀ x ∈ u, x ≠ ')') :
    markdown_to_html ("[".toList ++ t ++ "](".toList ++ u ++ ")".toList) tags =
      .ok (" <p>".toList ++ (tags.link_additional_tags.1 ++ "<a href=\"".toList ++ u
        ++ "\">".toList ++ t ++ "</a>".toList ++ tags.link_additional_tags.2)
        ++ " </p>".toList) := by
  obtain ⟨md, hmd⟩ : ∃ md, md = "[".toList ++ t ++ "](".toList ++ u ++ ")".toList := ⟨_, rfl⟩
  have hmd' : md = [] ++ ('[' :: (t ++ ']' :: '(' :: (u ++ ')' :: []))) := by
    rw [hmd]; simp
  obtain ⟨q, hq⟩ : ∃ q, q = 0 + 1 + t.length + 2 + u.length + 1 := ⟨_, rfl⟩
  have hlen : md.length = q := by rw [hmd', hq]; simp; omega
  have h0 : md[0]? = some '[' := by rw [hmd']; simp
  have hq1 : md[q]? = none := by rw [List.getElem?_eq_none_iff]; omega
  have ho := is_ordered_list_element_nondigit { html_out := [], markdown := md, tags := tags }
    '[' h0 (by decide)
  rw [← hmd]
  unfold markdown_to_html
  rw [parse_lines_step _ _ (by simp; omega) (by omega)]
  simp only [parse_line]
  rw [parse_line_head_plain _ '[' h0 (by decide) (by decide) (by decide) rfl]
  simp only [parse_line_body, char_at, h0]
  simp only [Char.reduceEq, if_false, iter_good, List.length_nil, ne_eq, not_true_eq_false,
    decide_False, Bool.and_false, Bool.false_and, Bool.false_eq_true]
  rw [parse_line_loop_step _ _ '[' _ _ h0 (by decide) (by simp; omega)]
  simp only [parse_line_step, Char.reduceEq, if_false, and_self, if_true, true_and, false_and,
    or_self, ho]
  simp only [dump_paragraph, try_close_paragraph, emit, Bool.not_false, if_true,
    Bool.false_eq_true, if_false, List.nil_append]
  rw [parse_named_link_run _ [] t u [] q hmd' rfl ht hu (by simp [hq])]
  simp only []
  rw [parse_line_loop_end _ _ _ _ _ (Or.inl hq1)]
  simp [dump_paragraph, emit, parse_lines_done, hlen, finish, try_close_paragraph,
    close_all_lists, close_all_lists_loop, close_blockquotes]

theorem named_link_output_witness :
    markdown_to_html "[t](u)".toList default_tags = .ok " <p><a href=\"u\">t</a> </p>".toList :=
  named_link_output default_tags "t".toList "u".toList (by decide) (by decide)


/-! ## C10: asymmetric emphasis -/

theorem left_excess_spec (right : Nat) : ∀ (fuel : Nat) (a : args) (left : Nat),
    left - right ≤ fuel →
    left_excess right fuel a left
      = ({ a with html_out := a.html_out ++ List.replicate (left - right) '*' }, min left right) := by
  intro fuel
  induction fuel with
  | zero =>
    intro a left h
    have h0 : left - right = 0 := by omega
    have h1 : min left right = left := by omega
    simp [left_excess, h0, h1]
  | succ f ih =>
    intro a left h
    rw [left_excess]
    split
    · rename_i hgt
      rw [ih _ _ (by omega)]
      have h1 : left - right = (left - 1 - right) + 1 := by omega
      have h2 : min (left - 1) right = min left right := by omega
      rw [h1, h2, List.replicate_succ]
      simp [emit, List.replicate_succ]
    · rename_i hle
      have h0 : left - right = 0 := by omega
      have h1 : min left right = left := by omega
      simp [h0, h1]

theorem right_excess_spec (left : Nat) : ∀ (fuel : Nat) (a : args) (right : Nat),
    right - left ≤ fuel →
    right_excess left fuel a right
      = { a with html_out := a.html_out ++ List.replicate (right - left) '*' } := by
  intro fuel
  induction fuel with
  | zero =>
    intro a right h
    have h0 : right - left = 0 := by omega
    simp [right_excess, h0]
  | succ f ih =>
    intro a right h
    rw [right_excess]
    split
    · rename_i hgt
      rw [ih _ _ (by omega)]
      have h1 : right - left = (right - 1 - left) + 1 := by omega
      rw [h1, List.replicate_succ]
      simp [emit, List.replicate_succ]
    · rename_i hle
      have h0 : right - left = 0 := by omega
      simp [h0]


/-- C10: when `parse_asteriks` is entered with the cursor on a run of `l` asterisks followed
by a non-empty text `t` (no `*`, no newline) and a run of `r` asterisks, with
`m = min l r ≤ 3`, it appends `l - m` literal `*`, then `t` wrapped in the italic tags
(`m = 1`), the bold tags (`m = 2`) or both (`m = 3`), then `r - m` literal `*`, and it leaves
the cursor and the pending-span start just past the right run. -/
theorem parse_asteriks_asymmetric (a : args) (pre t post : List Char) (l r : Nat)
    (hmd : a.markdown = pre ++ (List.replicate l '*' ++ (t ++ (List.replicate r '*' ++ post))))
    (hit : a.iterator = pre.length)
    (hl : 1 ≤ l) (hr : 1 ≤ r) (hm : min l r ≤ 3) (hne : t ≠ [])
    (ht : ∀ x ∈ t, x ≠ '*' ∧ x ≠ '\n') (hpost : ∀ x, post.head? = some x → x ≠ '*') :
    parse_asteriks a = .ok { a with
      html_out := a.html_out ++ List.replicate (l - min l r) '*'
        ++ emphasis_wrap a.tags (min l r) t ++ List.replicate (r - min l r) '*'
      iterator := pre.length + l + t.length + r
      block_begin := pre.length + l + t.length + r } := by
  obtain ⟨x, t', rfl⟩ : ∃ x t', t = x :: t' := by
    cases t with
    | nil => exact absurd rfl hne
    | cons x t' => exact ⟨x, t', rfl⟩
  have e1 := count_char_run '*' a pre (x :: t' ++ (List.replicate r '*' ++ post)) l hmd hit
    (fun y hy => by simp at hy; subst hy; exact (ht _ (by simp)).1)
  obtain ⟨r', rfl⟩ : ∃ r', r = r' + 1 := ⟨r - 1, by omega⟩
  have e2 : scan (fun y => decide (y ≠ '*') && decide (y ≠ '\n')) a.markdown (a.iterator + l)
      = pre.length + l + (x :: t').length :=
    by
      rw [scan_run _ _ (pre ++ List.replicate l '*') (x :: t') (List.replicate (r' + 1) '*' ++ post)
        _ (by simp [hmd]) (by simp [hit]) (fun y hy => by simp [(ht y hy).1, (ht y hy).2])
        (fun y hy => by simp [List.replicate_succ] at hy; subst hy; decide)]
      rw [hit]
  have e3 : a.markdown[pre.length + l + (x :: t').length]? = some '*' :=
    getElem?_split _ (pre ++ (List.replicate l '*' ++ (x :: t'))) (List.replicate r' '*' ++ post)
      '*' _ (by simp [hmd, List.replicate_succ]) (by simp; omega)
  have e4 : pre.length + l + (x :: t').length < a.markdown.length := by
    rw [hmd]; simp; omega
  have e5 : count_char '*' { a with iterator := pre.length + l + (x :: t').length,
                                    block_begin := a.iterator + l }
      = (r' + 1, { a with iterator := pre.length + l + (x :: t').length + (r' + 1),
                          block_begin := a.iterator + l }) :=
    count_char_run '*' _ (pre ++ (List.replicate l '*' ++ (x :: t'))) post (r' + 1)
      (by simp [hmd]) (by simp; omega) hpost
  have e6 : sub64 (pre.length + l + (x :: t').length + (r' + 1)) (r' + 1)
      = pre.length + l + (x :: t').length := by
    rw [sub64_of_le _ _ (by omega)]; omega
  have e7 : substr a.markdown (a.iterator + l)
      (sub64 (pre.length + l + (x :: t').length) (a.iterator + l)) = .ok (x :: t') :=
    substr_eq _ (pre ++ List.replicate l '*') (x :: t') (List.replicate (r' + 1) '*' ++ post) _ _
      (by simp [hmd]) (by simp [hit]) (by rw [sub64_of_le _ _ (by omega)]; omega)
  have e8 : min (min l (r' + 1)) (r' + 1) % 256 = min l (r' + 1) := by
    rw [Nat.mod_eq_of_lt (by omega)]; omega
  have hcases : min l (r' + 1) = 1 ∨ min l (r' + 1) = 2 ∨ min l (r' + 1) = 3 := by omega
  unfold parse_asteriks
  simp only [e1, e2, iter_good, e3, e4, e5]
  simp only [decide_True, Bool.not_true, Option.some.injEq, Char.reduceEq, decide_False,
    Bool.or_self, Bool.false_eq_true, if_false]
  rw [left_excess_spec _ _ _ _ (by omega)]
  simp only [e6, e8, emphasis_switch, dump_block, emit, e7]
  rcases hcases with h | h | h <;>
    simp only [h, if_true, Nat.reduceEqDiff, if_false, OfNat.ofNat_ne_one, Nat.succ_ne_self,
      emphasis_wrap] <;>
    rw [right_excess_spec _ _ _ _ (by omega)] <;>
    simp <;>
    omega

theorem parse_asteriks_asymmetric_witness :
    parse_asteriks { html_out := [], markdown := "x **a*".toList, tags := default_tags, iterator := 2 }
      = .ok { html_out := "*<em>a</em>".toList, markdown := "x **a*".toList, tags := default_tags, iterator := 6, block_begin := 6 } :=
  parse_asteriks_asymmetric
    { html_out := [], markdown := "x **a*".toList, tags := default_tags, iterator := 2 }
    "x ".toList "a".toList [] 2 1 rfl rfl (by decide) (by decide) (by decide) (by decide)
    (by decide) (by decide)


/-! ## Tag counting -/

theorem tag_pending_append (xs ys : List Char) : ∀ st,
    tag_pending st (xs ++ ys) = tag_pending (tag_pending st xs) ys := by
  induction xs with
  | nil => intro st; rfl
  | cons c cs ih => intro st; rw [List.cons_append, tag_pending, tag_pending, ih]

theorem settled_append {xs ys : List Char} (hx : settled xs) (hy : settled ys) :
    settled (xs ++ ys) := by
  unfold settled at *
  rw [tag_pending_append, hx, hy]

theorem tag_pending_of_plain (s : List Char) (h : ∀ x ∈ s, x ≠ '<' ∧ x ≠ '>' ∧ x ≠ '"') :
    ∀ st, tag_pending st s = st := by
  induction s with
  | nil => intro st; rfl
  | cons c cs ih =>
    intro st
    have hc := h c (by simp)
    simp only [tag_pending, hc.1, hc.2.1, hc.2.2, or_self, if_false]
    exact ih (fun x hx => h x (by simp [hx])) st

theorem tag_pending_false_of_no_lt (s : List Char) (h : '<' ∉ s) :
    tag_pending false s = false := by
  induction s with
  | nil => rfl
  | cons c cs ih =>
    have hc : c ≠ '<' := fun e => h (by simp [e])
    have hcs : '<' ∉ cs := fun e => h (by simp [e])
    simp only [tag_pending, hc, if_false]
    split <;> exact ih hcs

theorem settled_of_no_lt {s : List Char} (h : '<' ∉ s) : settled s :=
  tag_pending_false_of_no_lt s h

theorem occ_of_no_lt (pat s : List Char) (hp : pat.head? = some '<') (h : '<' ∉ s) :
    occ pat s = 0 := by
  induction s with
  | nil => rfl
  | cons c cs ih =>
    have hc : c ≠ '<' := fun e => h (by simp [e])
    have hcs : '<' ∉ cs := fun e => h (by simp [e])
    rw [occ, ih hcs]
    cases pat with
    | nil => simp at hp
    | cons p ps =>
      simp only [List.head?_cons, Option.some.injEq] at hp
      subst hp
      have : ('<' == c) = false := by simpa using fun e => hc e.symm
      simp [List.isPrefixOf, this]

/-- An occurrence test does not see what follows a settled prefix. -/
theorem isPrefixOf_append_settled (pat : List Char) (hp : tag_pattern pat) (xs ys : List Char)
    (st : Bool) (hx : tag_pending st xs = false) (hne : xs ≠ []) :
    pat.isPrefixOf (xs ++ ys) = pat.isPrefixOf xs := by
  obtain ⟨rest, rfl, hrest, hplain⟩ := hp
  by_cases hlen : ('<' :: rest).length ≤ xs.length
  · -- the pattern fits into `xs`
    have h1 : (xs ++ ys).take ('<' :: rest).length = xs.take ('<' :: rest).length :=
      List.take_append_of_le_length hlen
    have e1 : ∀ l : List Char, ('<' :: rest).isPrefixOf l = decide (l.take ('<' :: rest).length = '<' :: rest) := by
      intro l
      rw [Bool.eq_iff_iff]
      simp only [List.isPrefixOf_iff_prefix, decide_eq_true_eq]
      constructor
      · intro h; exact List.prefix_iff_eq_take.mp h |>.symm
      · intro h; rw [← h]; exact List.take_prefix _ _
    rw [e1, e1, h1]
  · -- `xs` is shorter than the pattern: no occurrence on either side
    have hshort : xs.length < ('<' :: rest).length := by omega
    have h2 : ('<' :: rest).isPrefixOf xs = false := by
      rw [Bool.eq_false_iff]
      intro h
      have := (List.isPrefixOf_iff_prefix.mp h).length_le
      omega
    rw [h2, Bool.eq_false_iff]
    intro h
    have hpre := List.isPrefixOf_iff_prefix.mp h
    -- then `xs` is a proper prefix of the pattern
    have hxs : xs <+: '<' :: rest := by
      rcases List.prefix_or_prefix_of_prefix hpre (List.prefix_append xs ys) with h3 | h3
      · have := h3.length_le; omega
      · exact h3
    obtain ⟨zs, hzs⟩ := hxs
    cases xs with
    | nil => exact hne rfl
    | cons c cs =>
      simp only [List.cons_append, List.cons.injEq] at hzs
      obtain ⟨hc, hcs⟩ := hzs
      subst hc
      have hzne : zs ≠ [] := by
        intro e; subst e
        simp only [List.append_nil] at hcs
        subst hcs; simp at hshort
      have hcsd : cs <+: rest.dropLast := by
        rw [← hcs]
        rw [List.dropLast_append_of_ne_nil _ hzne]
        exact List.prefix_append _ _
      have hpl : ∀ x ∈ cs, x ≠ '<' ∧ x ≠ '>' ∧ x ≠ '"' :=
        fun x hx => hplain x (hcsd.subset hx)
      have := tag_pending_of_plain cs hpl true
      simp only [tag_pending, if_true] at hx
      rw [this] at hx
      cases hx

theorem occ_append (pat : List Char) (hp : tag_pattern pat) (xs ys : List Char) :
    ∀ st, tag_pending st xs = false → occ pat (xs ++ ys) = occ pat xs + occ pat ys := by
  induction xs with
  | nil => intro st _; simp [occ]
  | cons c cs ih =>
    intro st hx
    have h1 := isPrefixOf_append_settled pat hp (c :: cs) ys st hx (by simp)
    rw [List.cons_append] at h1
    rw [tag_pending] at hx
    rw [List.cons_append, occ, occ, h1, ih _ hx]
    omega

theorem tag_pattern_opening (k : tag_kind) : tag_pattern (opening k) := by
  cases k <;> exact ⟨_, rfl, by decide, by decide⟩

theorem tag_pattern_closing (k : tag_kind) : tag_pattern (closing k) := by
  cases k <;> exact ⟨_, rfl, by decide, by decide⟩

theorem delta_append (k : tag_kind) (xs ys : List Char) (hx : settled xs) :
    delta k (xs ++ ys) = delta k xs + delta k ys := by
  unfold delta
  rw [occ_append _ (tag_pattern_opening k) xs ys false hx,
    occ_append _ (tag_pattern_closing k) xs ys false hx]
  push_cast
  omega

theorem delta_of_no_lt (k : tag_kind) (s : List Char) (h : '<' ∉ s) : delta k s = 0 := by
  unfold delta
  rw [occ_of_no_lt _ s (by cases k <;> rfl) h, occ_of_no_lt _ s (by cases k <;> rfl) h]
  simp

theorem delta_nil (k : tag_kind) : delta k [] = 0 := by simp [delta, occ]

theorem settled_nil : settled [] := rfl


/-! ## The tags the converter writes -/

theorem settled_italic_open : settled (default_tags.italic_tags.1) := by decide

theorem delta_italic_open (k : tag_kind) :
    delta k (default_tags.italic_tags.1) = if k = tag_kind.em then 1 else 0 := by
  cases k <;> rfl

theorem settled_italic_close : settled (default_tags.italic_tags.2) := by decide

theorem delta_italic_close (k : tag_kind) :
    delta k (default_tags.italic_tags.2) = if k = tag_kind.em then -1 else 0 := by
  cases k <;> rfl

theorem settled_bold_open : settled (default_tags.bold_tags.1) := by decide

theorem delta_bold_open (k : tag_kind) :
    delta k (default_tags.bold_tags.1) = if k = tag_kind.strong then 1 else 0 := by
  cases k <;> rfl

theorem settled_bold_close : settled (default_tags.bold_tags.2) := by decide

theorem delta_bold_close (k : tag_kind) :
    delta k (default_tags.bold_tags.2) = if k = tag_kind.strong then -1 else 0 := by
  cases k <;> rfl

theorem settled_blockquote_open : settled (default_tags.blockquote_tags.1) := by decide

theorem delta_blockquote_open (k : tag_kind) :
    delta k (default_tags.blockquote_tags.1) = if k = tag_kind.blockquote then 1 else 0 := by
  cases k <;> rfl

theorem settled_blockquote_close : settled (default_tags.blockquote_tags.2) := by decide

theorem delta_blockquote_close (k : tag_kind) :
    delta k (default_tags.blockquote_tags.2) = if k = tag_kind.blockquote then -1 else 0 := by
  cases k <;> rfl

theorem settled_strikethrough_open : settled (default_tags.strikethrough_tags.1) := by decide

theorem delta_strikethrough_open (k : tag_kind) :
    delta k (default_tags.strikethrough_tags.1) = if k = tag_kind.del then 1 else 0 := by
  cases k <;> rfl

theorem settled_strikethrough_close : settled (default_tags.strikethrough_tags.2) := by decide

theorem delta_strikethrough_close (k : tag_kind) :
    delta k (default_tags.strikethrough_tags.2) = if k = tag_kind.del then -1 else 0 := by
  cases k <;> rfl

theorem settled_code_open : settled (default_tags.code_tags.1) := by decide

theorem delta_code_open (k : tag_kind) :
    delta k (default_tags.code_tags.1) = if k = tag_kind.code then 1 else 0 := by
  cases k <;> rfl

theorem settled_code_close : settled (default_tags.code_tags.2) := by decide

theorem delta_code_close (k : tag_kind) :
    delta k (default_tags.code_tags.2) = if k = tag_kind.code then -1 else 0 := by
  cases k <;> rfl

theorem settled_code_block_open : settled (default_tags.code_block_tags.1) := by decide

theorem delta_code_block_open (k : tag_kind) :
    delta k (default_tags.code_block_tags.1) = if k = tag_kind.code then 1 else 0 := by
  cases k <;> rfl

theorem settled_code_block_close : settled (default_tags.code_block_tags.2) := by decide

theorem delta_code_block_close (k : tag_kind) :
    delta k (default_tags.code_block_tags.2) = if k = tag_kind.code then -1 else 0 := by
  cases k <;> rfl

theorem settled_link_wrapper_open : settled (default_tags.link_additional_tags.1) := by decide

theorem delta_link_wrapper_open (k : tag_kind) : delta k (default_tags.link_additional_tags.1) = 0 := by
  cases k <;> rfl

theorem settled_link_wrapper_close : settled (default_tags.link_additional_tags.2) := by decide

theorem delta_link_wrapper_close (k : tag_kind) : delta k (default_tags.link_additional_tags.2) = 0 := by
  cases k <;> rfl

theorem settled_image_wrapper_open : settled (default_tags.image_additional_tags.1) := by decide

theorem delta_image_wrapper_open (k : tag_kind) : delta k (default_tags.image_additional_tags.1) = 0 := by
  cases k <;> rfl

theorem settled_image_wrapper_close : settled (default_tags.image_additional_tags.2) := by decide

theorem delta_image_wrapper_close (k : tag_kind) : delta k (default_tags.image_additional_tags.2) = 0 := by
  cases k <;> rfl

theorem settled_horizontal_rule : settled (default_tags.horizontal_rule) := by decide

theorem delta_horizontal_rule (k : tag_kind) : delta k (default_tags.horizontal_rule) = 0 := by
  cases k <;> rfl

theorem settled_p_open : settled ("<p>".toList) := by decide

theorem delta_p_open (k : tag_kind) :
    delta k ("<p>".toList) = if k = tag_kind.p then 1 else 0 := by
  cases k <;> rfl

theorem settled_p_close : settled ("</p>".toList) := by decide

theorem delta_p_close (k : tag_kind) :
    delta k ("</p>".toList) = if k = tag_kind.p then -1 else 0 := by
  cases k <;> rfl

theorem settled_anchor_name_open : settled ("<a name=\"".toList) := by decide

theorem delta_anchor_name_open (k : tag_kind) :
    delta k ("<a name=\"".toList) = if k = tag_kind.a then 1 else 0 := by
  cases k <;> rfl

theorem settled_anchor_name_close : settled ("\"></a>".toList) := by decide

theorem delta_anchor_name_close (k : tag_kind) :
    delta k ("\"></a>".toList) = if k = tag_kind.a then -1 else 0 := by
  cases k <;> rfl

theorem settled_anchor_href_open : settled ("<a href=\"".toList) := by decide

theorem delta_anchor_href_open (k : tag_kind) :
    delta k ("<a href=\"".toList) = if k = tag_kind.a then 1 else 0 := by
  cases k <;> rfl

theorem settled_anchor_href_mid : settled ("\">".toList) := by decide

theorem delta_anchor_href_mid (k : tag_kind) : delta k ("\">".toList) = 0 := by
  cases k <;> rfl

theorem settled_anchor_close : settled ("</a>".toList) := by decide

theorem delta_anchor_close (k : tag_kind) :
    delta k ("</a>".toList) = if k = tag_kind.a then -1 else 0 := by
  cases k <;> rfl

theorem settled_img_open : settled ("<img src=\"".toList) := by decide

theorem delta_img_open (k : tag_kind) : delta k ("<img src=\"".toList) = 0 := by
  cases k <;> rfl

theorem settled_img_mid : settled ("\" alt=\"".toList) := by decide

theorem delta_img_mid (k : tag_kind) : delta k ("\" alt=\"".toList) = 0 := by
  cases k <;> rfl

theorem settled_item_open (o : Bool) : settled (item_tags default_tags o).1 := by
  cases o <;> decide

theorem settled_item_close (o : Bool) : settled (item_tags default_tags o).2 := by
  cases o <;> decide

theorem settled_list_open (o : Bool) : settled (list_tags default_tags o).1 := by
  cases o <;> decide

theorem settled_list_close (o : Bool) : settled (list_tags default_tags o).2 := by
  cases o <;> decide

theorem delta_item_open (o : Bool) (k : tag_kind) :
    delta k (item_tags default_tags o).1 = if k = tag_kind.li then 1 else 0 := by
  cases o <;> cases k <;> rfl

theorem delta_item_close (o : Bool) (k : tag_kind) :
    delta k (item_tags default_tags o).2 = if k = tag_kind.li then -1 else 0 := by
  cases o <;> cases k <;> rfl

theorem delta_list_open (o : Bool) (k : tag_kind) :
    delta k (list_tags default_tags o).1
      = if k = (if o then tag_kind.ol else tag_kind.ul) then 1 else 0 := by
  cases o <;> cases k <;> rfl

theorem delta_list_close (o : Bool) (k : tag_kind) :
    delta k (list_tags default_tags o).2
      = if k = (if o then tag_kind.ol else tag_kind.ul) then -1 else 0 := by
  cases o <;> cases k <;> rfl

theorem settled_heading_open (i : Fin 6) : settled (default_heading_tags i).1 := by
  fin_cases i <;> decide

theorem settled_heading_close (i : Fin 6) : settled (default_heading_tags i).2 := by
  fin_cases i <;> decide

theorem delta_heading_pair (i : Fin 6) (k : tag_kind) :
    delta k (default_heading_tags i).1 + delta k (default_heading_tags i).2 = 0 := by
  fin_cases i <;> cases k <;> rfl

theorem settled_of_all_eq (c : Char) (hc : c ≠ '<') (n : Nat) : settled (List.replicate n c) :=
  settled_of_no_lt (fun h => hc (List.eq_of_mem_replicate h).symm)

theorem delta_replicate (k : tag_kind) (c : Char) (hc : c ≠ '<') (n : Nat) :
    delta k (List.replicate n c) = 0 :=
  delta_of_no_lt k _ (fun h => hc (List.eq_of_mem_replicate h).symm)

theorem settled_singleton (c : Char) (hc : c ≠ '<') : settled [c] :=
  settled_of_no_lt (by simpa using hc.symm)

theorem delta_singleton (k : tag_kind) (c : Char) (hc : c ≠ '<') : delta k [c] = 0 :=
  delta_of_no_lt k _ (by simpa using hc.symm)


/-! ## Every parser extends the output and keeps the tag balance -/

theorem substr_no_lt {md t : List Char} {pos len : Nat} (h : substr md pos len = .ok t)
    (hmd : '<' ∉ md) : '<' ∉ t := by
  unfold substr at h
  split at h
  · cases h
  · cases h
    intro hin
    exact hmd (List.mem_of_mem_drop (List.mem_of_mem_take hin))

theorem step_ok_refl (a : args) : step_ok a a :=
  ⟨rfl, rfl, List.prefix_refl _, fun _ h => h⟩

theorem clean_of_eq {a b : args} (h1 : b.markdown = a.markdown) (h2 : b.tags = a.tags)
    (h : clean a) : clean b := by
  unfold clean at *
  rw [h1, h2]; exact h

theorem step_ok_trans {a b c : args} (h1 : step_ok a b) (h2 : step_ok b c) : step_ok a c :=
  ⟨h2.1.trans h1.1, h2.2.1.trans h1.2.1, h1.2.2.1.trans h2.2.2.1,
    fun hc hi => h2.2.2.2 (clean_of_eq h1.1 h1.2.1 hc) (h1.2.2.2 hc hi)⟩

/-- Writing a text without `<` and moving cursor fields is a good step. -/
theorem balanced_append_text {a b : args} {t : List Char} (ht : '<' ∉ t)
    (hout : b.html_out = a.html_out ++ t) (hp : ∀ k, pending k b = pending k a)
    (h : balanced_so_far a) : balanced_so_far b := by
  refine ⟨?_, fun k => ?_⟩
  · rw [hout]; exact settled_append h.1 (settled_of_no_lt ht)
  · rw [hout, delta_append k _ _ h.1, delta_of_no_lt k t ht, h.2 k, hp k]; simp

theorem pending_eq {a b : args} (h1 : b.is_paragraph_open = a.is_paragraph_open)
    (h2 : b.ongoing_lists = a.ongoing_lists) (h3 : b.blockquote_level = a.blockquote_level)
    (k : tag_kind) : pending k b = pending k a := by
  cases k <;> simp [pending, h1, h2, h3]

theorem step_ok_try_close_paragraph (a : args) :
    step_ok a (try_close_paragraph a) ∧
      (try_close_paragraph a).blockquote_level = a.blockquote_level := by
  unfold try_close_paragraph
  split
  · rename_i hopen
    refine ⟨⟨rfl, rfl, List.prefix_append _ _, fun _ hi => ⟨?_, fun k => ?_⟩⟩, rfl⟩
    · exact settled_append hi.1 settled_p_close
    · simp only [emit]
      rw [delta_append k _ _ hi.1, delta_p_close, hi.2 k]
      cases k <;> simp [pending, hopen]
  · exact ⟨step_ok_refl a, rfl⟩

theorem step_ok_dump_block (a b : args) (h : dump_block a = .ok b) :
    step_ok a b ∧ b.blockquote_level = a.blockquote_level ∧
      b.is_paragraph_open = a.is_paragraph_open ∧ b.ongoing_lists = a.ongoing_lists := by
  unfold dump_block at h
  split at h
  · cases h
  · rename_i s hs
    cases h
    refine ⟨⟨rfl, rfl, List.prefix_append _ _, fun hc hi => ?_⟩, rfl, rfl, rfl⟩
    exact balanced_append_text (substr_no_lt hs hc.2) rfl (pending_eq rfl rfl rfl) hi

/-- The general way to show a step: the output grows by `s`, `s` leaves no tag unfinished,
and its tag balance is what the context owes more afterwards. -/
theorem step_ok_of_append {a b : args} (s : List Char) (h1 : b.markdown = a.markdown)
    (h2 : b.tags = a.tags) (h3 : b.html_out = a.html_out ++ s)
    (h4 : clean a → settled s ∧ ∀ k, delta k s = pending k b - pending k a) : step_ok a b := by
  refine ⟨h1, h2, ⟨s, h3.symm⟩, fun hc hi => ?_⟩
  obtain ⟨hs, hd⟩ := h4 hc
  refine ⟨?_, fun k => ?_⟩
  · rw [h3]; exact settled_append hi.1 hs
  · rw [h3, delta_append k _ _ hi.1, hi.2 k, hd k]; omega

/-- A step that writes nothing and changes no field the tag balance depends on. -/
theorem step_ok_silent {a b : args} (h1 : b.markdown = a.markdown) (h2 : b.tags = a.tags)
    (h3 : b.html_out = a.html_out) (h4 : b.is_paragraph_open = a.is_paragraph_open)
    (h5 : b.ongoing_lists = a.ongoing_lists) (h6 : b.blockquote_level = a.blockquote_level) :
    step_ok a b :=
  step_ok_of_append [] h1 h2 (by simp [h3])
    (fun _ => ⟨settled_nil, fun k => by rw [delta_nil, pending_eq h4 h5 h6]; simp⟩)

/-- A step that writes a text without `<` and changes no field the balance depends on. -/
theorem step_ok_text {a b : args} (t : List Char) (h1 : b.markdown = a.markdown)
    (h2 : b.tags = a.tags) (h3 : b.html_out = a.html_out ++ t) (ht : clean a → '<' ∉ t)
    (h4 : b.is_paragraph_open = a.is_paragraph_open)
    (h5 : b.ongoing_lists = a.ongoing_lists) (h6 : b.blockquote_level = a.blockquote_level) :
    step_ok a b :=
  step_ok_of_append t h1 h2 h3
    (fun hc => ⟨settled_of_no_lt (ht hc), fun k => by
      rw [delta_of_no_lt k t (ht hc), pending_eq h4 h5 h6]; simp⟩)

theorem step_ok_open_paragraph (a b : args) (h1 : b.markdown = a.markdown)
    (h2 : b.tags = a.tags) (h3 : b.html_out = a.html_out ++ "<p>".toList)
    (h4 : a.is_paragraph_open = false) (h4' : b.is_paragraph_open = true)
    (h5 : b.ongoing_lists = a.ongoing_lists) (h6 : b.blockquote_level = a.blockquote_level) :
    step_ok a b :=
  step_ok_of_append _ h1 h2 h3
    (fun _ => ⟨settled_p_open, fun k => by
      rw [delta_p_open]; cases k <;> simp [pending, h4, h4', h5, h6]⟩)

theorem step_ok_close_paragraph (a b : args) (h1 : b.markdown = a.markdown)
    (h2 : b.tags = a.tags) (h3 : b.html_out = a.html_out ++ "</p>".toList)
    (h4 : a.is_paragraph_open = true) (h4' : b.is_paragraph_open = false)
    (h5 : b.ongoing_lists = a.ongoing_lists) (h6 : b.blockquote_level = a.blockquote_level) :
    step_ok a b :=
  step_ok_of_append _ h1 h2 h3
    (fun _ => ⟨settled_p_close, fun k => by
      rw [delta_p_close]; cases k <;> simp [pending, h4, h4', h5, h6]⟩)

theorem step_ok_dump_paragraph (a b : args) (c : Bool) (h : dump_paragraph a c = .ok b) :
    step_ok a b ∧ b.blockquote_level = a.blockquote_level ∧
      b.ongoing_lists = a.ongoing_lists := by
  unfold dump_paragraph at h
  -- the joining space
  obtain ⟨a1, h1, hs1, hq1, hl1, hp1⟩ : ∃ a1,
      a1 = (if (!a.paragraph_ended_with_space) = true then emit a [' '] else a) ∧ step_ok a a1 ∧
      a1.blockquote_level = a.blockquote_level ∧ a1.ongoing_lists = a.ongoing_lists ∧
      a1.is_paragraph_open = a.is_paragraph_open := by
    refine ⟨_, rfl, ?_⟩
    split
    · exact ⟨step_ok_text [' '] rfl rfl rfl (fun _ => by decide) rfl rfl rfl, rfl, rfl, rfl⟩
    · exact ⟨step_ok_refl a, rfl, rfl, rfl⟩
  rw [← h1] at h
  simp only at h
  split at h
  · split at h
    · cases h
      have := step_ok_try_close_paragraph a1
      exact ⟨step_ok_trans hs1 this.1, this.2.trans hq1, by
        rw [← hl1]; unfold try_close_paragraph; split <;> rfl⟩
    · split at h
      · rename_i hopen
        cases h
        refine ⟨step_ok_trans hs1 (step_ok_open_paragraph _ _ rfl rfl rfl (by simpa using hopen)
          rfl rfl rfl), hq1, hl1⟩
      · cases h; exact ⟨hs1, hq1, hl1⟩
  · -- a non-empty span
    obtain ⟨a2, h2, hs2, hq2, hl2⟩ : ∃ a2,
        a2 = (if (!a1.is_paragraph_open && decide (a1.ongoing_lists.length = 0)) = true
          then { emit a1 "<p>".toList with is_paragraph_open := true } else a1) ∧
        step_ok a1 a2 ∧ a2.blockquote_level = a1.blockquote_level ∧
        a2.ongoing_lists = a1.ongoing_lists := by
      refine ⟨_, rfl, ?_⟩
      split
      · rename_i hcond
        simp only [Bool.and_eq_true, Bool.not_eq_true', decide_eq_true_eq] at hcond
        exact ⟨step_ok_open_paragraph _ _ rfl rfl rfl hcond.1 rfl rfl rfl, rfl, rfl⟩
      · exact ⟨step_ok_refl a1, rfl, rfl⟩
    rw [← h2] at h
    split at h
    · cases h
    · split at h
      · cases h
      · rename_i a3 h3
        obtain ⟨hs3, hq3, hp3, hl3⟩ := step_ok_dump_block _ _ h3
        have hs23 : step_ok a2 a3 :=
          step_ok_trans (step_ok_silent (b := { a2 with paragraph_ended_with_space := _ })
            rfl rfl rfl rfl rfl rfl) hs3
        have hs : step_ok a a3 := step_ok_trans hs1 (step_ok_trans hs2 hs23)
        have hq : a3.blockquote_level = a.blockquote_level := by
          rw [hq3]; simp only; rw [hq2, hq1]
        have hl : a3.ongoing_lists = a.ongoing_lists := by
          rw [hl3]; simp only; rw [hl2, hl1]
        split at h
        · rename_i hcond
          simp only [Bool.and_eq_true] at hcond
          cases h
          exact ⟨step_ok_trans hs (step_ok_close_paragraph _ _ rfl rfl rfl hcond.2 rfl rfl rfl),
            hq, hl⟩
        · cases h; exact ⟨hs, hq, hl⟩


theorem neutral_nil : neutral [] := ⟨settled_nil, delta_nil⟩

theorem neutral_text {t : List Char} (h : '<' ∉ t) : neutral t :=
  ⟨settled_of_no_lt h, fun k => delta_of_no_lt k t h⟩

theorem neutral_append {s t : List Char} (hs : neutral s) (ht : neutral t) : neutral (s ++ t) :=
  ⟨settled_append hs.1 ht.1, fun k => by rw [delta_append k _ _ hs.1, hs.2 k, ht.2 k]; rfl⟩

theorem neutral_wrap {o t c : List Char} (ho : settled o) (hc : settled c)
    (hoc : ∀ k, delta k o + delta k c = 0) (ht : neutral t) : neutral (o ++ t ++ c) := by
  refine ⟨settled_append (settled_append ho ht.1) hc, fun k => ?_⟩
  rw [delta_append k _ _ (settled_append ho ht.1), delta_append k _ _ ho, ht.2 k]
  have := hoc k
  omega

theorem neutral_replicate (c : Char) (hc : c ≠ '<') (n : Nat) : neutral (List.replicate n c) :=
  neutral_text (fun h => hc (List.eq_of_mem_replicate h).symm)

theorem step_ok_neutral {a b : args} (s : List Char) (h1 : b.markdown = a.markdown)
    (h2 : b.tags = a.tags) (h3 : b.html_out = a.html_out ++ s) (hn : clean a → neutral s)
    (h4 : b.is_paragraph_open = a.is_paragraph_open)
    (h5 : b.ongoing_lists = a.ongoing_lists) (h6 : b.blockquote_level = a.blockquote_level) :
    step_ok a b :=
  step_ok_of_append s h1 h2 h3
    (fun hc => ⟨(hn hc).1, fun k => by rw [(hn hc).2 k, pending_eq h4 h5 h6]; simp⟩)

theorem anchor_no_lt {t : List Char} (h : '<' ∉ t) :
    '<' ∉ t.map (fun x => if x = ' ' then '-' else x) := by
  intro hin
  rw [List.mem_map] at hin
  obtain ⟨x, hx, hxe⟩ := hin
  split at hxe
  · cases hxe
  · subst hxe; exact h hx

theorem heading_at_default {t : html_tags} {i : Nat} {tp : tags_pair} (ht : t = default_tags)
    (h : heading_at t i = .ok tp) : ∃ j : Fin 6, tp = default_heading_tags j := by
  unfold heading_at at h
  split at h
  · cases h; subst ht; exact ⟨_, rfl⟩
  · cases h

theorem neutral_step_of {a b : args} (s : List Char) (h1 : b.markdown = a.markdown)
    (h2 : b.tags = a.tags) (h3 : b.html_out = a.html_out ++ s) (hn : clean a → neutral s)
    (h4 : b.is_paragraph_open = a.is_paragraph_open)
    (h5 : b.ongoing_lists = a.ongoing_lists) (h6 : b.blockquote_level = a.blockquote_level) :
    neutral_step a b :=
  ⟨h1, h2, h4, h5, h6, s, h3, hn⟩

theorem neutral_step_refl (a : args) : neutral_step a a :=
  neutral_step_of [] rfl rfl (by simp) (fun _ => neutral_nil) rfl rfl rfl

theorem neutral_step_silent {a b : args} (h1 : b.markdown = a.markdown) (h2 : b.tags = a.tags)
    (h3 : b.html_out = a.html_out) (h4 : b.is_paragraph_open = a.is_paragraph_open)
    (h5 : b.ongoing_lists = a.ongoing_lists) (h6 : b.blockquote_level = a.blockquote_level) :
    neutral_step a b :=
  neutral_step_of [] h1 h2 (by simp [h3]) (fun _ => neutral_nil) h4 h5 h6

theorem neutral_step_trans {a b c : args} (h1 : neutral_step a b) (h2 : neutral_step b c) :
    neutral_step a c := by
  obtain ⟨m1, t1, p1, l1, q1, s1, o1, n1⟩ := h1
  obtain ⟨m2, t2, p2, l2, q2, s2, o2, n2⟩ := h2
  refine ⟨m2.trans m1, t2.trans t1, p2.trans p1, l2.trans l1, q2.trans q1, s1 ++ s2, ?_, ?_⟩
  · rw [o2, o1, List.append_assoc]
  · intro hc
    exact neutral_append (n1 hc) (n2 (clean_of_eq m1 t1 hc))

theorem step_ok_of_neutral_step {a b : args} (h : neutral_step a b) : step_ok a b := by
  obtain ⟨m1, t1, p1, l1, q1, s1, o1, n1⟩ := h
  exact step_ok_neutral s1 m1 t1 o1 n1 p1 l1 q1

theorem neutral_step_parse_heading (a b : args) (h : parse_heading a = .ok b) :
    neutral_step a b := by
  unfold parse_heading at h
  simp only [count_char, dump_block, emit] at h
  split at h
  · cases h
  · split at h
    · cases h
      exact neutral_step_silent rfl rfl rfl rfl rfl rfl
    · split at h
      · cases h
      · rename_i tp htp
        split at h
        · cases h
        · rename_i name hname
          split at h
          · cases h
          · rename_i x hx
            split at hx
            · cases hx
            · rename_i text htext
              cases htext
              cases hx
              cases h
              refine neutral_step_of
                (("<a name=\"".toList ++ name.map (fun x => if x = ' ' then '-' else x)
                  ++ "\"></a>".toList) ++ (tp.1 ++ name ++ tp.2))
                rfl rfl (by simp only [List.append_assoc]) (fun hc => ?_) rfl rfl rfl
              obtain ⟨j, rfl⟩ := heading_at_default hc.1 htp
              refine neutral_append
                (neutral_wrap settled_anchor_name_open settled_anchor_name_close
                  (fun k => by rw [delta_anchor_name_open, delta_anchor_name_close]; split <;> rfl)
                  (neutral_text (anchor_no_lt (substr_no_lt hname hc.2))))
                (neutral_wrap (settled_heading_open j) (settled_heading_close j)
                  (delta_heading_pair j) (neutral_text (substr_no_lt hname hc.2)))

theorem pair_italic (k : tag_kind) :
    delta k default_tags.italic_tags.1 + delta k default_tags.italic_tags.2 = 0 := by
  rw [delta_italic_open, delta_italic_close]; split <;> rfl

theorem pair_bold (k : tag_kind) :
    delta k default_tags.bold_tags.1 + delta k default_tags.bold_tags.2 = 0 := by
  rw [delta_bold_open, delta_bold_close]; split <;> rfl

theorem pair_strikethrough (k : tag_kind) :
    delta k default_tags.strikethrough_tags.1 + delta k default_tags.strikethrough_tags.2 = 0 := by
  rw [delta_strikethrough_open, delta_strikethrough_close]; split <;> rfl

theorem pair_code (k : tag_kind) :
    delta k default_tags.code_tags.1 + delta k default_tags.code_tags.2 = 0 := by
  rw [delta_code_open, delta_code_close]; split <;> rfl

theorem pair_code_block (k : tag_kind) :
    delta k default_tags.code_block_tags.1 + delta k default_tags.code_block_tags.2 = 0 := by
  rw [delta_code_block_open, delta_code_block_close]; split <;> rfl

theorem pair_anchor_href (k : tag_kind) :
    delta k "<a href=\"".toList + delta k "</a>".toList = 0 := by
  rw [delta_anchor_href_open, delta_anchor_close]; split <;> rfl

theorem neutral_step_emphasis_switch (a b : args) (level : Nat)
    (h : emphasis_switch a level = .ok b) : neutral_step a b := by
  unfold emphasis_switch at h
  simp only [dump_block, emit] at h
  split at h
  · split at h
    · cases h
    · rename_i x hx
      split at hx
      · cases hx
      · rename_i t ht
        cases hx; cases h
        refine neutral_step_of (a.tags.italic_tags.1 ++ t ++ a.tags.italic_tags.2) rfl rfl
          (by simp only [List.append_assoc]) (fun hc => ?_) rfl rfl rfl
        rw [hc.1]
        exact neutral_wrap settled_italic_open settled_italic_close pair_italic
          (neutral_text (substr_no_lt ht hc.2))
  · split at h
    · split at h
      · cases h
      · rename_i x hx
        split at hx
        · cases hx
        · rename_i t ht
          cases hx; cases h
          refine neutral_step_of (a.tags.bold_tags.1 ++ t ++ a.tags.bold_tags.2) rfl rfl
            (by simp only [List.append_assoc]) (fun hc => ?_) rfl rfl rfl
          rw [hc.1]
          exact neutral_wrap settled_bold_open settled_bold_close pair_bold
            (neutral_text (substr_no_lt ht hc.2))
    · split at h
      · split at h
        · cases h
        · rename_i x hx
          split at hx
          · cases hx
          · rename_i t ht
            cases hx; cases h
            refine neutral_step_of
              (a.tags.italic_tags.1 ++ (a.tags.bold_tags.1 ++ t ++ a.tags.bold_tags.2)
                ++ a.tags.italic_tags.2) rfl rfl
              (by simp only [List.append_assoc]) (fun hc => ?_) rfl rfl rfl
            rw [hc.1]
            exact neutral_wrap settled_italic_open settled_italic_close pair_italic
              (neutral_wrap settled_bold_open settled_bold_close pair_bold
                (neutral_text (substr_no_lt ht hc.2)))
      · cases h; exact neutral_step_refl a

theorem neutral_step_parse_asteriks (a b : args) (h : parse_asteriks a = .ok b) :
    neutral_step a b := by
  unfold parse_asteriks at h
  simp only [count_char] at h
  split at h
  · cases h
    exact neutral_step_silent rfl rfl rfl rfl rfl rfl
  · rw [left_excess_spec _ _ _ _ (Nat.sub_le _ _)] at h
    simp only at h
    split at h
    · cases h
    · rename_i x hx
      cases h
      rw [right_excess_spec _ _ _ _ (by omega)]
      have h1 := neutral_step_emphasis_switch _ _ _ hx
      refine neutral_step_trans (neutral_step_trans ?_ h1) ?_
      · exact neutral_step_of (List.replicate _ '*') rfl rfl rfl
          (fun _ => neutral_replicate '*' (by decide) _) rfl rfl rfl
      · exact neutral_step_of (List.replicate _ '*') rfl rfl rfl
          (fun _ => neutral_replicate '*' (by decide) _) rfl rfl rfl


theorem neutral_step_parse_strikethrough (a b : args) (h : parse_strikethrough a = .ok b) :
    neutral_step a b := by
  unfold parse_strikethrough at h
  simp only [emit] at h
  split at h
  · cases h
  · rename_i t ht
    cases h
    refine neutral_step_of (a.tags.strikethrough_tags.1 ++ t ++ a.tags.strikethrough_tags.2)
      rfl rfl (by simp only [List.append_assoc]) (fun hc => ?_) rfl rfl rfl
    rw [hc.1]
    exact neutral_wrap settled_strikethrough_open settled_strikethrough_close pair_strikethrough
      (neutral_text (substr_no_lt ht hc.2))

theorem neutral_step_parse_code (a b : args) (n : Nat) (h : parse_code a n = .ok b) :
    neutral_step a b := by
  unfold parse_code at h
  simp only [emit] at h
  split at h
  · cases h; exact neutral_step_silent rfl rfl rfl rfl rfl rfl
  · split at h
    · cases h
    · cases h; exact neutral_step_silent rfl rfl rfl rfl rfl rfl
    · split at h
      · cases h
      · rename_i t ht
        cases h
        refine neutral_step_of (a.tags.code_tags.1 ++ t ++ a.tags.code_tags.2)
          rfl rfl (by simp only [List.append_assoc]) (fun hc => ?_) rfl rfl rfl
        rw [hc.1]
        exact neutral_wrap settled_code_open settled_code_close pair_code
          (neutral_text (substr_no_lt ht hc.2))

theorem neutral_step_parse_code_block (a b : args) (h : parse_code_block a = .ok b) :
    neutral_step a b := by
  unfold parse_code_block at h
  simp only [emit, get_indentation, dump_block] at h
  split at h
  · cases h
  · split at h
    · cases h
    · split at h
      · cases h
      · rename_i c hc
        by_cases hcn : c = '\n' <;> simp only [hcn, if_true, if_false] at h
        all_goals
          split at h
          · cases h
          · rename_i x hx
            cases h
            split at hx
            · split at hx
              · cases hx
              · rename_i y hy
                split at hy
                · cases hy
                · rename_i t ht
                  cases hy; cases hx
                  refine neutral_step_of
                    (a.tags.code_block_tags.1 ++ t ++ a.tags.code_block_tags.2)
                    rfl rfl (by simp only [List.append_assoc]) (fun hcl => ?_) rfl rfl rfl
                  rw [hcl.1]
                  exact neutral_wrap settled_code_block_open settled_code_block_close
                    pair_code_block (neutral_text (substr_no_lt ht hcl.2))
            · rename_i hl hhl
              cases hx
              refine neutral_step_of _ rfl rfl (by simp only [List.append_assoc]; rfl)
                (fun hcl => ?_) rfl rfl rfl
              exfalso
              simp only [hcl.1] at hhl
              cases hhl

theorem neutral_step_parse_horizontal_rule (a : args) :
    neutral_step a (parse_horizontal_rule a) :=
  neutral_step_of a.tags.horizontal_rule rfl rfl rfl
    (fun hc => by rw [hc.1]; exact ⟨settled_horizontal_rule, delta_horizontal_rule⟩) rfl rfl rfl

theorem neutral_step_parse_named_link (a b : args) (h : parse_named_link a = .ok b) :
    neutral_step a b := by
  unfold parse_named_link at h
  simp only [emit] at h
  split at h
  · cases h
  · rename_i title htitle
    split at h
    · cases h
    · split at h
      · cases h; exact neutral_step_silent rfl rfl rfl rfl rfl rfl
      · split at h
        · cases h; exact neutral_step_silent rfl rfl rfl rfl rfl rfl
        · split at h
          · cases h; exact neutral_step_silent rfl rfl rfl rfl rfl rfl
          · split at h
            · cases h
            · rename_i link hlink
              cases h
              refine neutral_step_of
                (a.tags.link_additional_tags.1
                  ++ ("<a href=\"".toList ++ (link ++ ("\">".toList ++ title)) ++ "</a>".toList)
                  ++ a.tags.link_additional_tags.2)
                rfl rfl (by simp only [List.append_assoc]) (fun hc => ?_) rfl rfl rfl
              rw [hc.1]
              refine neutral_append (neutral_append
                ⟨settled_link_wrapper_open, delta_link_wrapper_open⟩ ?_)
                ⟨settled_link_wrapper_close, delta_link_wrapper_close⟩
              exact neutral_wrap settled_anchor_href_open settled_anchor_close pair_anchor_href
                (neutral_append (neutral_text (substr_no_lt hlink hc.2))
                  (neutral_append ⟨settled_anchor_href_mid, delta_anchor_href_mid⟩
                    (neutral_text (substr_no_lt htitle hc.2))))

theorem neutral_step_parse_image (a b : args) (h : parse_image a = .ok b) :
    neutral_step a b := by
  unfold parse_image at h
  simp only [emit, get_indentation] at h
  split at h
  · cases h; exact neutral_step_silent rfl rfl rfl rfl rfl rfl
  · split at h
    · cases h
    · rename_i alt halt
      split at h
      · cases h
      · split at h
        · cases h; exact neutral_step_silent rfl rfl rfl rfl rfl rfl
        · split at h
          · cases h; exact neutral_step_silent rfl rfl rfl rfl rfl rfl
          · split at h
            · cases h; exact neutral_step_silent rfl rfl rfl rfl rfl rfl
            · split at h
              · cases h
              · rename_i file hfile
                cases h
                refine neutral_step_of
                  (a.tags.image_additional_tags.1
                    ++ ("<img src=\"".toList ++ (file ++ ("\" alt=\"".toList
                      ++ (alt ++ "\">".toList))))
                    ++ a.tags.image_additional_tags.2)
                  rfl rfl (by simp only [List.append_assoc]) (fun hc => ?_) rfl rfl rfl
                rw [hc.1]
                refine neutral_append (neutral_append
                  ⟨settled_image_wrapper_open, delta_image_wrapper_open⟩ ?_)
                  ⟨settled_image_wrapper_close, delta_image_wrapper_close⟩
                exact neutral_append ⟨settled_img_open, delta_img_open⟩
                  (neutral_append (neutral_text (substr_no_lt hfile hc.2))
                    (neutral_append ⟨settled_img_mid, delta_img_mid⟩
                      (neutral_append (neutral_text (substr_no_lt halt hc.2))
                        ⟨settled_anchor_href_mid, delta_anchor_href_mid⟩)))


theorem pending_sub {a b : args} (h1 : b.is_paragraph_open = a.is_paragraph_open)
    (h3 : b.blockquote_level = a.blockquote_level) (k : tag_kind) :
    pending k b - pending k a
      = list_pending k b.ongoing_lists - list_pending k a.ongoing_lists := by
  cases k <;> simp [pending, list_pending, h1, h3]

theorem list_pending_cons (k : tag_kind) (top : list) (rest : List list) :
    list_pending k (top :: rest) = list_pending k rest
      + (if k = (if top.ordered then tag_kind.ol else tag_kind.ul) then 1 else 0)
      + (if k = tag_kind.li then 1 else 0) := by
  cases h : top.ordered <;> cases k <;> simp [list_pending, List.filter_cons, h]

/-- Closing one frame: the item tag, then the list tag. -/
theorem closing_frame (top : list) :
    settled ((item_tags default_tags top.ordered).2 ++ (list_tags default_tags top.ordered).2) ∧
    ∀ k, delta k ((item_tags default_tags top.ordered).2 ++ (list_tags default_tags top.ordered).2)
      = - (if k = (if top.ordered then tag_kind.ol else tag_kind.ul) then 1 else 0)
        - (if k = tag_kind.li then 1 else 0) := by
  refine ⟨settled_append (settled_item_close _) (settled_list_close _), fun k => ?_⟩
  rw [delta_append k _ _ (settled_item_close _), delta_item_close, delta_list_close]
  cases top.ordered <;> cases k <;> simp

theorem pop_deeper_spec (t : html_tags) (li : Nat) (stack : List list) :
    ∀ (cur : Nat) (out : List Char), ∃ s,
      (pop_deeper t li cur stack out).2 = out ++ s ∧
      (t = default_tags → settled s ∧
        ∀ k, delta k s = list_pending k (pop_deeper t li cur stack out).1
          - list_pending k stack) := by
  induction stack with
  | nil =>
    intro cur out
    exact ⟨[], by simp [pop_deeper], fun _ => ⟨settled_nil, fun k => by simp [pop_deeper, delta_nil]⟩⟩
  | cons top rest ih =>
    intro cur out
    cases rest with
    | nil =>
      exact ⟨[], by simp [pop_deeper], fun _ => ⟨settled_nil, fun k => by simp [pop_deeper, delta_nil]⟩⟩
    | cons below rest' =>
      rw [pop_deeper]
      split
      · obtain ⟨s, h1, h23⟩ := ih (sub64 cur top.indentation_diffrence)
          (out ++ (item_tags t top.ordered).2 ++ (list_tags t top.ordered).2)
        refine ⟨((item_tags t top.ordered).2 ++ (list_tags t top.ordered).2) ++ s,
          by rw [h1]; simp only [List.append_assoc], fun ht => ?_⟩
        obtain ⟨h2, h3⟩ := h23 ht
        subst ht
        obtain ⟨c1, c2⟩ := closing_frame top
        refine ⟨settled_append c1 h2, fun k => ?_⟩
        rw [delta_append k _ _ c1, c2 k, h3 k, list_pending_cons k top (below :: rest')]
        omega
      · exact ⟨[], by simp, fun _ => ⟨settled_nil, fun k => by simp [delta_nil]⟩⟩

theorem pending_sub_of_clean {a b : args} (h1 : b.is_paragraph_open = a.is_paragraph_open)
    (h3 : b.blockquote_level = a.blockquote_level) (s : List Char)
    (hs : settled s)
    (hd : ∀ k, delta k s = list_pending k b.ongoing_lists - list_pending k a.ongoing_lists) :
    settled s ∧ ∀ k, delta k s = pending k b - pending k a :=
  ⟨hs, fun k => by rw [pending_sub h1 h3 k]; exact hd k⟩

theorem item_turn (o : Bool) :
    settled ((item_tags default_tags o).2 ++ (item_tags default_tags o).1) ∧
    ∀ k, delta k ((item_tags default_tags o).2 ++ (item_tags default_tags o).1) = 0 := by
  refine ⟨settled_append (settled_item_close _) (settled_item_open _), fun k => ?_⟩
  rw [delta_append k _ _ (settled_item_close _), delta_item_close, delta_item_open]
  split <;> rfl

theorem opening_frame (o : Bool) :
    settled ((list_tags default_tags o).1 ++ (item_tags default_tags o).1) ∧
    ∀ k, delta k ((list_tags default_tags o).1 ++ (item_tags default_tags o).1)
      = (if k = (if o then tag_kind.ol else tag_kind.ul) then 1 else 0)
        + (if k = tag_kind.li then 1 else 0) := by
  refine ⟨settled_append (settled_list_open _) (settled_item_open _), fun k => ?_⟩
  rw [delta_append k _ _ (settled_list_open _), delta_item_open, delta_list_open]

theorem step_ok_bump {a x : args} (h : step_ok a x) (bb it : Nat) :
    step_ok a { x with block_begin := bb, iterator := it } :=
  step_ok_trans h (step_ok_silent rfl rfl rfl rfl rfl rfl)

theorem step_ok_parse_list (a : args) (o : Bool) : step_ok a (parse_list a o) := by
  unfold parse_list
  apply step_ok_bump
  cases hl : a.ongoing_lists with
  | nil =>
    simp only [emit]
    refine step_ok_of_append ((list_tags a.tags o).1 ++ (item_tags a.tags o).1) rfl rfl
      (by simp only [List.append_assoc]) (fun hc => ?_)
    rw [hc.1]
    refine pending_sub_of_clean (by rfl) (by rfl) _ (opening_frame o).1 (fun k => ?_)
    rw [(opening_frame o).2 k, hl]
    simp only
    rw [list_pending_cons]
    simp only
    omega
  | cons top rest =>
    simp only [emit]
    split
    · refine step_ok_of_append ((list_tags a.tags o).1 ++ (item_tags a.tags o).1) rfl rfl
        (by simp only [List.append_assoc]) (fun hc => ?_)
      rw [hc.1]
      refine pending_sub_of_clean (by rfl) (by rfl) _ (opening_frame o).1 (fun k => ?_)
      rw [(opening_frame o).2 k, hl]
      simp only
      rw [list_pending_cons]
      simp only
      omega
    · split
      · -- leaving deeper lists
        split
        · rename_i hnil
          exact absurd hnil (pop_deeper_ne_nil _ _ _ _ _ (by simp))
        · rename_i back tl hback
          obtain ⟨s, h1, h23⟩ := pop_deeper_spec a.tags a.line_indentation (top :: rest)
            top.items_indentation a.html_out
          refine step_ok_of_append
            (s ++ ((item_tags a.tags back.ordered).2 ++ (item_tags a.tags back.ordered).1))
            rfl rfl (by simp only [h1, List.append_assoc]) (fun hc => ?_)
          obtain ⟨h2, h3⟩ := h23 hc.1
          rw [hc.1] at h3
          rw [hc.1]
          refine pending_sub_of_clean (by rfl) (by rfl) _ (settled_append h2 (item_turn _).1) (fun k => ?_)
          rw [delta_append k _ _ h2, (item_turn _).2 k, h3 k, hl]
          simp
      · refine step_ok_of_append ((item_tags a.tags top.ordered).2 ++ (item_tags a.tags top.ordered).1)
          rfl rfl (by simp only [List.append_assoc]) (fun hc => ?_)
        rw [hc.1]
        refine pending_sub_of_clean (by rfl) (by rfl) _ (item_turn _).1 (fun k => ?_)
        rw [(item_turn _).2 k, hl]
        simp


theorem close_all_lists_loop_spec (t : html_tags) (stack : List list) :
    ∀ out : List Char, ∃ s, close_all_lists_loop t stack out = out ++ s ∧
      (t = default_tags → settled s ∧ ∀ k, delta k s = - list_pending k stack) := by
  induction stack with
  | nil =>
    intro out
    exact ⟨[], by simp [close_all_lists_loop], fun _ =>
      ⟨settled_nil, fun k => by cases k <;> simp [delta_nil, list_pending]⟩⟩
  | cons top rest ih =>
    intro out
    rw [close_all_lists_loop]
    obtain ⟨s, h1, h23⟩ := ih (out ++ (item_tags t top.ordered).2 ++ (list_tags t top.ordered).2)
    refine ⟨((item_tags t top.ordered).2 ++ (list_tags t top.ordered).2) ++ s,
      by rw [h1]; simp only [List.append_assoc], fun ht => ?_⟩
    obtain ⟨h2, h3⟩ := h23 ht
    subst ht
    obtain ⟨c1, c2⟩ := closing_frame top
    refine ⟨settled_append c1 h2, fun k => ?_⟩
    rw [delta_append k _ _ c1, c2 k, h3 k, list_pending_cons k top rest]
    omega

theorem step_ok_close_all_lists (a : args) : step_ok a (close_all_lists a) := by
  unfold close_all_lists
  obtain ⟨s, h1, h23⟩ := close_all_lists_loop_spec a.tags a.ongoing_lists a.html_out
  refine step_ok_of_append s rfl rfl h1 (fun hc => ?_)
  obtain ⟨h2, h3⟩ := h23 hc.1
  refine pending_sub_of_clean (by rfl) (by rfl) _ h2 (fun k => ?_)
  rw [h3 k]
  cases k <;> simp [list_pending]

theorem step_ok_open_blockquotes (dashes : Nat) : ∀ (fuel : Nat) (a : args),
    step_ok a (open_blockquotes dashes fuel a) := by
  intro fuel
  induction fuel with
  | zero => intro a; exact step_ok_refl a
  | succ f ih =>
    intro a
    rw [open_blockquotes]
    split
    · refine step_ok_trans ?_ (ih _)
      refine step_ok_of_append a.tags.blockquote_tags.1 rfl rfl rfl (fun hc => ?_)
      rw [hc.1]
      refine ⟨settled_blockquote_open, fun k => ?_⟩
      rw [delta_blockquote_open]
      cases k <;> simp [pending, emit]
    · exact step_ok_refl a

theorem step_ok_close_blockquotes (dashes : Nat) : ∀ (fuel : Nat) (a : args),
    step_ok a (close_blockquotes dashes fuel a) := by
  intro fuel
  induction fuel with
  | zero => intro a; exact step_ok_refl a
  | succ f ih =>
    intro a
    rw [close_blockquotes]
    split
    · rename_i hlt
      refine step_ok_trans ?_ (ih _)
      refine step_ok_of_append a.tags.blockquote_tags.2 rfl rfl rfl (fun hc => ?_)
      rw [hc.1]
      refine ⟨settled_blockquote_close, fun k => ?_⟩
      rw [delta_blockquote_close]
      cases k <;> simp [pending, emit]
      omega
    · exact step_ok_refl a

theorem step_ok_count_char (c : Char) (a : args) :
    neutral_step a (count_char c a).2 :=
  neutral_step_silent rfl rfl rfl rfl rfl rfl

theorem step_ok_get_indentation (a : args) : neutral_step a (get_indentation a).2 :=
  neutral_step_silent rfl rfl rfl rfl rfl rfl

theorem step_ok_parse_line_head (a : args) : step_ok a (parse_line_head a) := by
  unfold parse_line_head
  simp only
  have h1 : step_ok a { (get_indentation a).2 with line_indentation := (get_indentation a).1 } :=
    step_ok_silent rfl rfl rfl rfl rfl rfl
  refine step_ok_trans h1 ?_
  generalize ({ (get_indentation a).2 with line_indentation := (get_indentation a).1 } : args) = a1
  have h2 : step_ok a1 (count_char '>' a1).2 := step_ok_of_neutral_step (step_ok_count_char _ _)
  refine step_ok_trans h2 ?_
  generalize hd : (count_char '>' a1).1 = dashes
  generalize (count_char '>' a1).2 = a2
  have h3 := step_ok_open_blockquotes dashes dashes a2
  refine step_ok_trans h3 ?_
  generalize open_blockquotes dashes dashes a2 = a3
  have h4 := step_ok_close_blockquotes dashes a3.blockquote_level a3
  refine step_ok_trans h4 ?_
  generalize close_blockquotes dashes a3.blockquote_level a3 = a4
  split
  · exact step_ok_silent rfl rfl rfl rfl rfl rfl
  · exact step_ok_refl a4


theorem body_step_refl (a : args) : body_step a a := ⟨step_ok_refl a, rfl⟩

theorem body_step_trans {a b c : args} (h1 : body_step a b) (h2 : body_step b c) :
    body_step a c :=
  ⟨step_ok_trans h1.1 h2.1, h2.2.trans h1.2⟩

theorem body_step_of_neutral {a b : args} (h : neutral_step a b) : body_step a b :=
  ⟨step_ok_of_neutral_step h, h.2.2.2.2.1⟩

theorem body_step_silent {a b : args} (h1 : b.markdown = a.markdown) (h2 : b.tags = a.tags)
    (h3 : b.html_out = a.html_out) (h4 : b.is_paragraph_open = a.is_paragraph_open)
    (h5 : b.ongoing_lists = a.ongoing_lists) (h6 : b.blockquote_level = a.blockquote_level) :
    body_step a b :=
  ⟨step_ok_silent h1 h2 h3 h4 h5 h6, h6⟩

theorem body_step_dump_paragraph {a b : args} {c : Bool} (h : dump_paragraph a c = .ok b) :
    body_step a b :=
  ⟨(step_ok_dump_paragraph a b c h).1, (step_ok_dump_paragraph a b c h).2.1⟩

theorem body_step_parse_list (a : args) (o : Bool) : body_step a (parse_list a o) :=
  ⟨step_ok_parse_list a o, (parse_list_fields a o).2.2.2.1⟩

theorem body_step_close_all_lists (a : args) : body_step a (close_all_lists a) :=
  ⟨step_ok_close_all_lists a, rfl⟩

theorem body_step_try_close_paragraph (a : args) : body_step a (try_close_paragraph a) :=
  ⟨(step_ok_try_close_paragraph a).1, (step_ok_try_close_paragraph a).2⟩

/-- Moving the cursor or the pending-span start is a silent step. -/
theorem body_step_cursor (a : args) (it bb : Nat) :
    body_step a { a with iterator := it, block_begin := bb } :=
  body_step_silent rfl rfl rfl rfl rfl rfl

theorem body_step_parse_line_step (a : args) (c : Char) (f : Bool) (b : args) (ig : Bool)
    (h : parse_line_step a c f = .ok (b, ig)) : body_step a b := by
  unfold parse_line_step at h
  by_cases c1 : c = '\\'
  · -- backslash
    rw [if_pos c1] at h
    split at h
    · cases h
    · rename_i a1 h1
      cases h
      exact body_step_trans (body_step_dump_paragraph h1) (body_step_cursor _ _ _)
  rw [if_neg c1] at h
  by_cases c2 : c = '#' ∧ f = true
  · -- heading
    rw [if_pos c2] at h
    split at h
    · cases h
    · rename_i a1 h1
      split at h
      · cases h
      · rename_i a2 h2
        cases h
        exact body_step_trans (body_step_dump_paragraph h1)
          (body_step_of_neutral (neutral_step_parse_heading _ _ h2))
  rw [if_neg c2] at h
  by_cases c3 : (c = '+' ∨ c = '*') ∧ f = true
  · rw [if_pos c3] at h
    cases h; exact body_step_parse_list _ _
  rw [if_neg c3] at h
  by_cases c4 : c = '*'
  · -- emphasis
    rw [if_pos c4] at h
    split at h
    · cases h
    · rename_i a1 h1
      split at h
      · cases h
      · rename_i a2 h2
        cases h
        exact body_step_trans (body_step_dump_paragraph h1)
          (body_step_of_neutral (neutral_step_parse_asteriks _ _ h2))
  rw [if_neg c4] at h
  by_cases c5 : c = '`'
  · -- backticks
    rw [if_pos c5] at h
    simp only [count_char] at h
    split at h
    · split at h
      · cases h
      · rename_i a1 h1
        split at h
        · cases h
        · rename_i a2 h2
          cases h
          exact body_step_trans (body_step_cursor a _ a.block_begin)
            (body_step_trans (body_step_dump_paragraph h1)
              (body_step_trans (body_step_cursor a1 _ a1.block_begin)
                (body_step_of_neutral (neutral_step_parse_code_block _ _ h2))))
    · split at h
      · cases h
      · rename_i a1 h1
        split at h
        · cases h
        · rename_i a2 h2
          cases h
          exact body_step_trans (body_step_cursor a _ a.block_begin)
            (body_step_trans (body_step_dump_paragraph h1)
              (body_step_of_neutral (neutral_step_parse_code _ _ _ h2)))
  rw [if_neg c5] at h
  by_cases c6 : c = '~'
  · -- tildes
    rw [if_pos c6] at h
    simp only [count_char] at h
    split at h
    · split at h
      · cases h
      · rename_i a1 h1
        split at h
        · cases h
        · rename_i a2 h2
          cases h
          exact body_step_trans (body_step_cursor a _ a.block_begin)
            (body_step_trans (body_step_dump_paragraph h1)
              (body_step_trans (body_step_cursor a1 _ a1.block_begin)
                (body_step_of_neutral (neutral_step_parse_strikethrough _ _ h2))))
    · cases h; exact body_step_cursor a _ a.block_begin
  rw [if_neg c6] at h
  by_cases c7 : c = '-' ∧ f = true
  · -- dashes
    rw [if_pos c7] at h
    simp only [count_char] at h
    split at h
    · split at h
      · cases h
      · rename_i a1 h1
        cases h
        exact body_step_trans (body_step_cursor a _ a.block_begin)
          (body_step_trans (body_step_dump_paragraph h1)
            (body_step_trans (body_step_cursor a1 _ a1.block_begin)
              (body_step_of_neutral (neutral_step_parse_horizontal_rule _))))
    · cases h
      exact body_step_trans (body_step_cursor a _ a.block_begin)
        (body_step_parse_list _ _)
  rw [if_neg c7] at h
  split at h
  · cases h
  · -- an ordered list item
    split at h
    · cases h
    · rename_i it hit
      cases h
      exact body_step_trans (body_step_cursor a (it + 1) (it + 1))
        (body_step_parse_list _ _)
  · by_cases c8 : c = '['
    · -- link
      rw [if_pos c8] at h
      split at h
      · cases h
      · rename_i a1 h1
        split at h
        · cases h
        · rename_i a2 h2
          cases h
          exact body_step_trans (body_step_dump_paragraph h1)
            (body_step_of_neutral (neutral_step_parse_named_link _ _ h2))
    rw [if_neg c8] at h
    by_cases c9 : c = '!'
    · -- image
      rw [if_pos c9] at h
      split at h
      · cases h
      · rename_i a1 h1
        split at h
        · cases h
        · rename_i a2 h2
          cases h
          exact body_step_trans (body_step_dump_paragraph h1)
            (body_step_of_neutral (neutral_step_parse_image _ _ h2))
    rw [if_neg c9] at h
    cases h; exact body_step_cursor a _ a.block_begin


theorem body_step_parse_line_loop : ∀ (fuel : Nat) (a : args) (f ig : Bool) (sp : Nat)
    (b : args) (sp' : Nat), parse_line_loop fuel a f ig sp = .ok (b, sp') → body_step a b := by
  intro fuel
  induction fuel with
  | zero =>
    intro a f ig sp b sp' h
    rw [parse_line_loop] at h
    split at h
    · cases h; exact body_step_refl a
    · split at h
      · cases h; exact body_step_refl a
      · cases h
  | succ n ih =>
    intro a f ig sp b sp' h
    rw [parse_line_loop] at h
    split at h
    · cases h; exact body_step_refl a
    · split at h
      · cases h; exact body_step_refl a
      · simp only at h
        split at h
        · exact body_step_trans (body_step_cursor a _ a.block_begin) (ih _ _ _ _ _ _ h)
        · split at h
          · cases h
          · rename_i a1 ig1 h1
            exact body_step_trans (body_step_parse_line_step _ _ _ _ _ h1) (ih _ _ _ _ _ _ h)

theorem body_step_parse_line_body (a b : args) (h : parse_line_body a = .ok b) :
    body_step a b := by
  unfold parse_line_body at h
  split at h
  · cases h
  · rename_i c hc
    split at h
    · cases h
      exact body_step_trans (body_step_try_close_paragraph a) (body_step_cursor _ _ _)
    · simp only at h
      split at h
      · cases h
      · rename_i a1 h1
        have e1 : body_step a a1 := by
          split at h1
          · split at h1
            · cases h1
            · split at h1
              · cases h1; exact body_step_close_all_lists a
              · cases h1; exact body_step_refl a
          · cases h1; exact body_step_refl a
        split at h
        · cases h
        · rename_i a2 sp h2
          have e2 := body_step_parse_line_loop _ _ _ _ _ _ _ h2
          split at h
          · cases h
          · rename_i a3 h3
            cases h
            exact body_step_trans e1 (body_step_trans (body_step_cursor a1 a1.iterator a1.iterator)
              (body_step_trans e2 (body_step_trans (body_step_dump_paragraph h3)
                (body_step_cursor a3 _ a3.block_begin))))

theorem step_ok_parse_line (a b : args) (h : parse_line a = .ok b) : step_ok a b :=
  step_ok_trans (step_ok_parse_line_head a) (body_step_parse_line_body _ _ h).1

theorem parse_lines_zero (a : args) (h : a.iterator < a.markdown.length) :
    parse_lines 0 a = .error .fuel := by
  rw [parse_lines.eq_def]; simp [h]

theorem step_ok_parse_lines : ∀ (fuel : Nat) (a b : args), parse_lines fuel a = .ok b →
    step_ok a b := by
  intro fuel
  induction fuel with
  | zero =>
    intro a b h
    by_cases hlt : a.iterator < a.markdown.length
    · rw [parse_lines_zero a hlt] at h; cases h
    · rw [parse_lines_done _ a hlt] at h; cases h; exact step_ok_refl a
  | succ n ih =>
    intro a b h
    by_cases hlt : a.iterator < a.markdown.length
    · rw [parse_lines_succ _ a hlt] at h
      split at h
      · cases h
      · rename_i a1 h1
        exact step_ok_trans (step_ok_parse_line _ _ h1) (ih _ _ h)
    · rw [parse_lines_done _ a hlt] at h; cases h; exact step_ok_refl a

theorem step_ok_finish (a : args) : step_ok a (finish a) := by
  unfold finish
  exact step_ok_trans (step_ok_try_close_paragraph a).1
    (step_ok_trans (step_ok_close_all_lists _) (step_ok_close_blockquotes _ _ _))

theorem repeated_succ (n : Nat) (s : List Char) : repeated (n + 1) s = s ++ repeated n s := by
  simp [repeated, List.replicate_succ]

theorem repeated_zero (s : List Char) : repeated 0 s = [] := by
  simp [repeated]

theorem open_blockquotes_spec (dashes : Nat) : ∀ (fuel : Nat) (a : args),
    dashes - a.blockquote_level ≤ fuel →
    open_blockquotes dashes fuel a = { a with
      html_out := a.html_out ++ repeated (dashes - a.blockquote_level) a.tags.blockquote_tags.1
      blockquote_level := max a.blockquote_level dashes } := by
  intro fuel
  induction fuel with
  | zero =>
    intro a h
    have h0 : dashes - a.blockquote_level = 0 := by omega
    have h1 : max a.blockquote_level dashes = a.blockquote_level := by omega
    simp [open_blockquotes, h0, h1, repeated_zero]
  | succ f ih =>
    intro a h
    rw [open_blockquotes]
    split
    · rename_i hgt
      rw [ih _ (by simp only [emit]; omega)]
      have h1 : dashes - a.blockquote_level = (dashes - (a.blockquote_level + 1)) + 1 := by omega
      have h2 : max (a.blockquote_level + 1) dashes = max a.blockquote_level dashes := by omega
      simp only [emit, h1, repeated_succ, h2, List.append_assoc]
    · rename_i hle
      have h0 : dashes - a.blockquote_level = 0 := by omega
      have h1 : max a.blockquote_level dashes = a.blockquote_level := by omega
      simp [h0, h1, repeated_zero]

theorem close_blockquotes_spec (dashes : Nat) : ∀ (fuel : Nat) (a : args),
    a.blockquote_level - dashes ≤ fuel →
    close_blockquotes dashes fuel a = { a with
      html_out := a.html_out ++ repeated (a.blockquote_level - dashes) a.tags.blockquote_tags.2
      blockquote_level := min a.blockquote_level dashes } := by
  intro fuel
  induction fuel with
  | zero =>
    intro a h
    have h0 : a.blockquote_level - dashes = 0 := by omega
    have h1 : min a.blockquote_level dashes = a.blockquote_level := by omega
    simp [close_blockquotes, h0, h1, repeated_zero]
  | succ f ih =>
    intro a h
    rw [close_blockquotes]
    split
    · rename_i hgt
      rw [ih _ (by simp only [emit]; omega)]
      have h1 : a.blockquote_level - dashes = (a.blockquote_level - 1 - dashes) + 1 := by omega
      have h2 : min (a.blockquote_level - 1) dashes = min a.blockquote_level dashes := by omega
      simp only [emit, h1, repeated_succ, h2, List.append_assoc]
    · rename_i hle
      have h0 : a.blockquote_level - dashes = 0 := by omega
      have h1 : min a.blockquote_level dashes = a.blockquote_level := by omega
      simp [h0, h1, repeated_zero]

theorem pending_finish (a : args) (k : tag_kind) : pending k (finish a) = 0 := by
  unfold finish
  simp only
  rw [close_blockquotes_spec _ _ _ (by omega)]
  have h1 : (try_close_paragraph a).is_paragraph_open = false := by
    unfold try_close_paragraph
    split
    · rfl
    · rename_i h; simpa using h
  cases k <;> simp [pending, close_all_lists, h1]

/-- C1: for every document without `<` on which `markdown_to_html` returns, with the
default tags (hence no highlighting callback), the output holds as many opening as closing
tags of each kind: `<p>`, `<ul>`, `<ol>`, `<li>`, `<blockquote>`, `<em>`, `<strong>`,
`<del>`, `<code>`, each `<hN>`, and `<a` against `</a>`. -/
theorem tag_balance (md out : List Char) (hlt : '<' ∉ md)
    (h : markdown_to_html md default_tags = .ok out) (k : tag_kind) :
    occ (opening k) out = occ (closing k) out := by
  unfold markdown_to_html at h
  split at h
  · cases h
  · rename_i a ha
    cases h
    have hc0 : clean { html_out := [], markdown := md, tags := default_tags } := ⟨rfl, hlt⟩
    have hb0 : balanced_so_far { html_out := [], markdown := md, tags := default_tags } :=
      ⟨settled_nil, fun k => by cases k <;> simp [delta_nil, pending]⟩
    have h1 := step_ok_parse_lines _ _ _ ha
    have hb1 := h1.2.2.2 hc0 hb0
    have hc1 := clean_of_eq h1.1 h1.2.1 hc0
    have hb2 := (step_ok_finish a).2.2.2 hc1 hb1
    have := hb2.2 k
    rw [pending_finish] at this
    unfold delta at this
    omega

theorem tag_balance_witness :
    occ (opening tag_kind.li)
        " <a name=\"T\"></a><h1>T</h1>\n <p><ul><li>  x <em>a</em><ol><li><strong>b</strong><blockquote>\n</li></ol></li></ul><del>c</del>~ <a href=\"u\">t</a></p></blockquote>\n".toList
      = occ (closing tag_kind.li)
        " <a name=\"T\"></a><h1>T</h1>\n <p><ul><li>  x <em>a</em><ol><li><strong>b</strong><blockquote>\n</li></ol></li></ul><del>c</del>~ <a href=\"u\">t</a></p></blockquote>\n".toList :=
  tag_balance "# T\n- x *a*\n  1. **b**\n> ~~c~~ [t](u)\n".toList _ (by decide) (by decide!)
    tag_kind.li


/-! ## C9: blockquote transitions -/

theorem get_indentation_loop_cursor (md : List Char) (ws : List Char) :
    ∀ (pre post : List Char) (fuel ind : Nat), md = pre ++ (ws ++ post) →
      (∀ x ∈ ws, x = ' ' ∨ x = '\t') →
      (∀ c, post.head? = some c → c ≠ ' ' ∧ c ≠ '\t') → ws.length ≤ fuel →
      (get_indentation_loop md fuel pre.length ind).2 = pre.length + ws.length := by
  induction ws with
  | nil =>
    intro pre post fuel ind hmd _ hpost _
    rw [get_indentation_loop_stop]
    · rfl
    · intro c hc
      rw [hmd] at hc
      simp only [List.nil_append, getElem?_at] at hc
      exact hpost c hc
  | cons w ws ih =>
    intro pre post fuel ind hmd hws hpost hf
    cases fuel with
    | zero => simp at hf
    | succ f =>
      have h0 : md[pre.length]? = some w :=
        getElem?_split md pre (ws ++ post) w _ (by simpa using hmd) rfl
      have hrec : ∀ ind', (get_indentation_loop md f (pre.length + 1) ind').2
          = pre.length + (w :: ws).length := by
        intro ind'
        have := ih (pre ++ [w]) post f ind' (by simp [hmd]) (fun x hx => hws x (by simp [hx]))
          hpost (by simpa using hf)
        simp only [List.length_append, List.length_singleton] at this
        rw [this]; simp; omega
      rw [get_indentation_loop]
      simp only [h0]
      rcases hws w (by simp) with hw | hw
      · simp only [hw, if_true]; exact hrec _
      · have : w ≠ ' ' := by rw [hw]; decide
        simp only [this, if_false, hw, if_true]; exact hrec _

theorem parse_line_head_spec (a : args) (pre ws post : List Char) (k : Nat)
    (hmd : a.markdown = pre ++ (ws ++ (List.replicate k '>' ++ post)))
    (hit : a.iterator = pre.length) (hws : ∀ x ∈ ws, x = ' ' ∨ x = '\t')
    (hstop : k = 0 → ∀ x, post.head? = some x → x ≠ ' ' ∧ x ≠ '\t')
    (hpost : ∀ x, post.head? = some x → x ≠ '>') :
    (parse_line_head a).html_out = a.html_out
        ++ repeated (k - a.blockquote_level) a.tags.blockquote_tags.1
        ++ repeated (a.blockquote_level - k) a.tags.blockquote_tags.2 ∧
      (parse_line_head a).blockquote_level = k := by
  have e1 : (get_indentation a).2.iterator = pre.length + ws.length := by
    unfold get_indentation
    simp only [hit]
    exact get_indentation_loop_cursor a.markdown ws pre (List.replicate k '>' ++ post) _ _ hmd hws
      (fun c hc => by
        cases k with
        | zero => simp only [List.replicate_zero, List.nil_append] at hc; exact hstop rfl c hc
        | succ n =>
          simp only [List.replicate_succ, List.cons_append, List.head?_cons,
            Option.some.injEq] at hc
          subst hc; decide)
      (by rw [hmd]; simp)
  obtain ⟨a1, ha1⟩ : ∃ a1, a1 = { (get_indentation a).2 with
      line_indentation := (get_indentation a).1 } := ⟨_, rfl⟩
  have f1 : a1.markdown = a.markdown ∧ a1.iterator = pre.length + ws.length ∧
      a1.html_out = a.html_out ∧ a1.blockquote_level = a.blockquote_level ∧ a1.tags = a.tags := by
    subst ha1; exact ⟨rfl, e1, rfl, rfl, rfl⟩
  have e2 := count_char_run '>' a1 (pre ++ ws) post k (by rw [f1.1, hmd]; simp)
    (by rw [f1.2.1]; simp) hpost
  unfold parse_line_head
  simp only [← ha1, e2]
  rw [open_blockquotes_spec _ _ _ (Nat.sub_le _ _)]
  rw [close_blockquotes_spec _ _ _ (Nat.sub_le _ _)]
  have h1 : max a.blockquote_level k - k = a.blockquote_level - k := by omega
  have h2 : min (max a.blockquote_level k) k = k := by omega
  split <;> simp [get_indentation, f1.2.2.1, f1.2.2.2.1, f1.2.2.2.2, h1, h2]

/-- C9: for every parse context with blockquote depth `d` and every line that starts, after
its indentation `ws`, with a run of `k` markers `>`, the head of `parse_line` (which runs
before any character of the line's text is read) writes exactly `k - d` blockquote opening
tags followed by `d - k` closing tags (truncated subtractions, so one of the two is empty),
`parse_line` is the rest of the function applied to that context, and whenever it returns
the depth is `k` and the output starts with what the head left. -/
theorem blockquote_delta (a : args) (pre ws post : List Char) (k : Nat)
    (hmd : a.markdown = pre ++ (ws ++ (List.replicate k '>' ++ post)))
    (hit : a.iterator = pre.length) (hws : ∀ x ∈ ws, x = ' ' ∨ x = '\t')
    (hstop : k = 0 → ∀ x, post.head? = some x → x ≠ ' ' ∧ x ≠ '\t')
    (hpost : ∀ x, post.head? = some x → x ≠ '>') :
    (parse_line_head a).html_out = a.html_out
        ++ repeated (k - a.blockquote_level) a.tags.blockquote_tags.1
        ++ repeated (a.blockquote_level - k) a.tags.blockquote_tags.2 ∧
      (parse_line_head a).blockquote_level = k ∧
      parse_line a = parse_line_body (parse_line_head a) ∧
      ∀ b, parse_line a = .ok b →
        b.blockquote_level = k ∧ (parse_line_head a).html_out <+: b.html_out := by
  obtain ⟨h1, h2⟩ := parse_line_head_spec a pre ws post k hmd hit hws hstop hpost
  refine ⟨h1, h2, rfl, fun b hb => ?_⟩
  have := body_step_parse_line_body _ _ hb
  exact ⟨this.2.trans h2, this.1.2.2.1⟩

theorem blockquote_delta_witness :
    ((parse_line_head { html_out := [], markdown := ">> quoted\n> less\nplain\n".toList, tags := default_tags }).html_out
        = "<blockquote>\n<blockquote>\n".toList ∧
      (parse_line_head { html_out := [], markdown := ">> quoted\n> less\nplain\n".toList, tags := default_tags }).blockquote_level
        = 2 ∧
      parse_line { html_out := [], markdown := ">> quoted\n> less\nplain\n".toList, tags := default_tags }
        = parse_line_body (parse_line_head { html_out := [], markdown := ">> quoted\n> less\nplain\n".toList, tags := default_tags }) ∧
      ∀ b, parse_line { html_out := [], markdown := ">> quoted\n> less\nplain\n".toList, tags := default_tags } = .ok b →
        b.blockquote_level = 2 ∧
        (parse_line_head { html_out := [], markdown := ">> quoted\n> less\nplain\n".toList, tags := default_tags }).html_out
          <+: b.html_out) ∧
    markdown_to_html ">> quoted\n> less\nplain\n".toList default_tags
      = .ok "<blockquote>\n<blockquote>\n <p>quoted</blockquote>\n less</blockquote>\n plain</p>".toList :=
  ⟨blockquote_delta { html_out := [], markdown := ">> quoted\n> less\nplain\n".toList, tags := default_tags }
      [] [] " quoted\n> less\nplain\n".toList 2 rfl rfl (by simp) (fun h => absurd h (by decide))
      (fun x hx => by simp at hx; subst hx; decide),
    by decide!⟩



/-! ## Progress: the cursor moves forward and no loop counter runs out -/

theorem skip_while_ge (p : Char → Bool) (md : List Char) : ∀ (fuel it : Nat),
    it ≤ skip_while p md fuel it := by
  intro fuel
  induction fuel with
  | zero => intro it; exact Nat.le_refl _
  | succ f ih =>
    intro it
    rw [skip_while]
    split
    · split
      · exact Nat.le_trans (Nat.le_succ _) (ih _)
      · exact Nat.le_refl _
    · exact Nat.le_refl _

theorem scan_ge (p : Char → Bool) (md : List Char) (it : Nat) : it ≤ scan p md it :=
  skip_while_ge p md _ it

theorem scan_gt (p : Char → Bool) (md : List Char) (it : Nat) (c : Char)
    (hc : md[it]? = some c) (hp : p c = true) : it + 1 ≤ scan p md it := by
  have hlt : it < md.length := by
    by_contra h
    rw [List.getElem?_eq_none (by omega)] at hc
    cases hc
  unfold scan
  obtain ⟨f, hf⟩ : ∃ f, md.length - it = f + 1 := ⟨md.length - it - 1, by omega⟩
  rw [hf, skip_while]
  simp only [hc, hp, if_true]
  exact skip_while_ge p md f (it + 1)

/-- Where a scan stops before the end of the document, the character fails the test. -/
theorem skip_while_stops (p : Char → Bool) (md : List Char) : ∀ (fuel it : Nat),
    md.length - it ≤ fuel → skip_while p md fuel it < md.length →
    ∃ c, md[skip_while p md fuel it]? = some c ∧ p c = false := by
  intro fuel
  induction fuel with
  | zero =>
    intro it hf hlt
    rw [skip_while] at hlt
    omega
  | succ f ih =>
    intro it hf hlt
    rw [skip_while] at hlt ⊢
    cases hc : md[it]? with
    | none =>
      simp only [hc] at hlt
      rw [List.getElem?_eq_none_iff] at hc
      omega
    | some c =>
      simp only [hc] at hlt ⊢
      by_cases hp : p c = true
      · simp only [hp, if_true] at hlt ⊢
        exact ih (it + 1) (by omega) hlt
      · simp only [hp, if_false] at hlt ⊢
        exact ⟨c, hc, by simpa using hp⟩

theorem scan_stops (p : Char → Bool) (md : List Char) (it : Nat)
    (h : scan p md it < md.length) : ∃ c, md[scan p md it]? = some c ∧ p c = false :=
  skip_while_stops p md _ it (Nat.le_refl _) h

theorem get_indentation_loop_ge (md : List Char) : ∀ (fuel it ind : Nat),
    it ≤ (get_indentation_loop md fuel it ind).2 := by
  intro fuel
  induction fuel with
  | zero => intro it ind; exact Nat.le_refl _
  | succ f ih =>
    intro it ind
    rw [get_indentation_loop]
    split
    · split
      · exact Nat.le_trans (Nat.le_succ _) (ih _ _)
      · split
        · exact Nat.le_trans (Nat.le_succ _) (ih _ _)
        · exact Nat.le_refl _
    · exact Nat.le_refl _

theorem get_indentation_ge (a : args) : a.iterator ≤ (get_indentation a).2.iterator :=
  get_indentation_loop_ge _ _ _ _

theorem find_run_ge (md : List Char) (c : Char) (n : Nat) : ∀ (fuel it : Nat),
    it ≤ find_run md c n fuel it := by
  intro fuel
  induction fuel with
  | zero => intro it; exact Nat.le_refl _
  | succ f ih =>
    intro it
    rw [find_run]
    split
    · split
      · simp only
        split
        · exact scan_ge _ _ _
        · exact Nat.le_trans (Nat.le_trans (scan_ge _ md it) (Nat.le_succ _)) (ih _)
      · exact Nat.le_trans (Nat.le_succ _) (ih _)
    · exact Nat.le_refl _

theorem sub64_add_ge (q n : Nat) : q ≤ sub64 q n + n := by
  unfold sub64
  split <;> omega

theorem sub64_le (q n : Nat) (h : n ≤ q) : sub64 q n + n = q := by
  rw [sub64_of_le _ _ h]; omega


theorem char_at_error (md : List Char) (i : Nat) (e : Fault) (h : char_at md i = .error e) :
    e = .out_of_range ∧ md.length ≤ i := by
  unfold char_at at h
  split at h
  · cases h
  · rename_i hn
    cases h
    exact ⟨rfl, List.getElem?_eq_none_iff.mp hn⟩

theorem char_at_ok (md : List Char) (i : Nat) (c : Char) (h : char_at md i = .ok c) :
    md[i]? = some c ∧ i < md.length := by
  unfold char_at at h
  split at h
  · rename_i x hx
    cases h
    refine ⟨hx, ?_⟩
    by_contra hlt
    rw [List.getElem?_eq_none (by omega)] at hx
    cases hx
  · cases h

theorem substr_not_fuel (md : List Char) (pos len : Nat) :
    substr md pos len ≠ .error .fuel := by
  unfold substr
  split
  · intro h; cases h
  · intro h; cases h

theorem digits_loop_not_fuel (md : List Char) (good : Bool) : ∀ (fuel copy : Nat),
    md.length - copy < fuel → digits_loop md good fuel copy ≠ .error .fuel := by
  intro fuel
  induction fuel with
  | zero => intro copy h; omega
  | succ f ih =>
    intro copy h
    rw [digits_loop]
    split
    · split
      · rename_i e he
        rw [(char_at_error _ _ _ he).1]
        intro h'; cases h'
      · rename_i c hc
        have := (char_at_ok _ _ _ hc).2
        split
        · exact ih _ (by omega)
        · intro h'; cases h'
    · intro h'; cases h'

theorem is_ordered_list_element_not_fuel (a : args) :
    is_ordered_list_element a ≠ .error .fuel := by
  unfold is_ordered_list_element
  split
  · rename_i e he
    intro h; cases h
    exact digits_loop_not_fuel _ _ _ _ (by omega) he
  · split
    · rename_i e he
      rw [(char_at_error _ _ _ he).1]
      intro h'; cases h'
    · intro h'; cases h'

theorem find_dot_spec (md : List Char) : ∀ (fuel it : Nat), md.length - it < fuel →
    find_dot md fuel it ≠ .error .fuel ∧ ∀ j, find_dot md fuel it = .ok j → it ≤ j := by
  intro fuel
  induction fuel with
  | zero => intro it h; omega
  | succ f ih =>
    intro it h
    rw [find_dot]
    split
    · rename_i e he
      rw [(char_at_error _ _ _ he).1]
      exact ⟨fun h' => (by cases h'), fun j hj => by cases hj⟩
    · rename_i c hc
      have := (char_at_ok _ _ _ hc).2
      split
      · obtain ⟨h1, h2⟩ := ih (it + 1) (by omega)
        exact ⟨h1, fun j hj => Nat.le_trans (Nat.le_succ _) (h2 j hj)⟩
      · exact ⟨fun h' => (by cases h'), fun j hj => by cases hj; exact Nat.le_refl _⟩

theorem language_loop_spec (md : List Char) : ∀ (fuel it : Nat), md.length - it < fuel →
    language_loop md fuel it ≠ .error .fuel ∧ ∀ j, language_loop md fuel it = .ok j → it ≤ j := by
  intro fuel
  induction fuel with
  | zero => intro it h; omega
  | succ f ih =>
    intro it h
    rw [language_loop]
    split
    · rename_i e he
      rw [(char_at_error _ _ _ he).1]
      exact ⟨fun h' => (by cases h'), fun j hj => by cases hj⟩
    · rename_i c hc
      have := (char_at_ok _ _ _ hc).2
      split
      · obtain ⟨h1, h2⟩ := ih (it + 1) (by omega)
        exact ⟨h1, fun j hj => Nat.le_trans (Nat.le_succ _) (h2 j hj)⟩
      · exact ⟨fun h' => (by cases h'), fun j hj => by cases hj; exact Nat.le_refl _⟩

theorem code_loop_spec (md : List Char) (n : Nat) : ∀ (fuel it : Nat), md.length - it < fuel →
    code_loop md n fuel it ≠ .error .fuel ∧
      ∀ j e, code_loop md n fuel it = .ok (j, e) → it ≤ j := by
  intro fuel
  induction fuel with
  | zero => intro it h; omega
  | succ f ih =>
    intro it h
    rw [code_loop]
    simp only
    split
    · exact ⟨fun h' => (by cases h'), fun j e hj => by cases hj; exact scan_ge _ _ _⟩
    · rename_i hlt
      simp only [not_not] at hlt
      obtain ⟨c, hc, hp⟩ := scan_stops _ md it hlt
      have hbt : c = '`' := by simpa using hp
      have h1 := scan_ge (fun x => decide (x ≠ '`')) md it
      have h2 := scan_gt (fun x => decide (x = '`')) md _ c hc (by simp [hbt])
      split
      · exact ⟨fun h' => (by cases h'), fun j e hj => by cases hj; omega⟩
      · obtain ⟨g1, g2⟩ := ih (scan (fun x => decide (x = '`')) md
            (scan (fun x => decide (x ≠ '`')) md it)) (by omega)
        exact ⟨g1, fun j e hj => by have := g2 j e hj; omega⟩


theorem moves_error (a : args) (d : Nat) (e : Fault) (h : e ≠ .fuel) : moves a d (.error e) :=
  ⟨fun h' => by cases h'; exact h rfl, fun b hb => by cases hb⟩

theorem moves_ok (a b : args) (d : Nat) (h1 : b.markdown = a.markdown)
    (h2 : a.iterator + d ≤ b.iterator) : moves a d (.ok b) :=
  ⟨fun h' => (by cases h'), fun b' hb => by cases hb; exact ⟨h1, h2⟩⟩

theorem moves_from {a a1 : args} {d1 d2 d : Nat} {r : Except Fault args}
    (h1 : a1.markdown = a.markdown) (h2 : a.iterator + d1 ≤ a1.iterator)
    (h : moves a1 d2 r) (hd : d ≤ d1 + d2) : moves a d r :=
  ⟨h.1, fun b hb => ⟨(h.2 b hb).1.trans h1, by have := (h.2 b hb).2; omega⟩⟩

theorem substr_error (md : List Char) (pos len : Nat) (e : Fault)
    (h : substr md pos len = .error e) : e ≠ .fuel := by
  intro he; subst he; exact substr_not_fuel _ _ _ h

theorem char_at_error_ne (md : List Char) (i : Nat) (e : Fault)
    (h : char_at md i = .error e) : e ≠ .fuel := by
  rw [(char_at_error _ _ _ h).1]; decide

theorem dump_block_moves (a : args) :
    dump_block a ≠ .error .fuel ∧
      ∀ b, dump_block a = .ok b → b.markdown = a.markdown ∧ b.iterator = a.iterator := by
  unfold dump_block
  split
  · rename_i e he
    exact ⟨fun h' => by cases h'; exact substr_error _ _ _ _ he rfl, fun b hb => by cases hb⟩
  · exact ⟨fun h' => (by cases h'), fun b hb => by cases hb; exact ⟨rfl, rfl⟩⟩

theorem try_close_paragraph_cursor (a : args) :
    (try_close_paragraph a).markdown = a.markdown ∧
      (try_close_paragraph a).iterator = a.iterator := by
  unfold try_close_paragraph
  split <;> exact ⟨rfl, rfl⟩

theorem dump_paragraph_moves (a : args) (c : Bool) :
    dump_paragraph a c ≠ .error .fuel ∧
      ∀ b, dump_paragraph a c = .ok b → b.markdown = a.markdown ∧ b.iterator = a.iterator := by
  unfold dump_paragraph
  have h0 : (if (!a.paragraph_ended_with_space) = true then emit a [' '] else a).markdown
      = a.markdown ∧
      (if (!a.paragraph_ended_with_space) = true then emit a [' '] else a).iterator
      = a.iterator := by
    split <;> exact ⟨rfl, rfl⟩
  generalize (if (!a.paragraph_ended_with_space) = true then emit a [' '] else a) = a1 at h0 ⊢
  simp only
  split
  · split
    · refine ⟨fun h' => (by cases h'), fun b hb => ?_⟩
      cases hb
      exact ⟨(try_close_paragraph_cursor a1).1.trans h0.1, (try_close_paragraph_cursor a1).2.trans h0.2⟩
    · split
      · exact ⟨fun h' => (by cases h'), fun b hb => by cases hb; exact h0⟩
      · exact ⟨fun h' => (by cases h'), fun b hb => by cases hb; exact h0⟩
  · have h1 : (if (!a1.is_paragraph_open && decide (a1.ongoing_lists.length = 0)) = true
        then { emit a1 "<p>".toList with is_paragraph_open := true } else a1).markdown
        = a1.markdown ∧
        (if (!a1.is_paragraph_open && decide (a1.ongoing_lists.length = 0)) = true
        then { emit a1 "<p>".toList with is_paragraph_open := true } else a1).iterator
        = a1.iterator := by
      split <;> exact ⟨rfl, rfl⟩
    generalize (if (!a1.is_paragraph_open && decide (a1.ongoing_lists.length = 0)) = true
        then { emit a1 "<p>".toList with is_paragraph_open := true } else a1) = a2 at h1 ⊢
    split
    · rename_i e he
      exact ⟨fun h' => by cases h'; exact char_at_error_ne _ _ _ he rfl, fun b hb => by cases hb⟩
    · split
      · rename_i e he
        refine ⟨fun h' => ?_, fun b hb => by cases hb⟩
        cases h'
        exact (dump_block_moves _).1 he
      · rename_i a3 h3
        obtain ⟨m3, i3⟩ := (dump_block_moves _).2 a3 h3
        simp only at m3 i3
        split
        · refine ⟨fun h' => (by cases h'), fun b hb => ?_⟩
          cases hb
          exact ⟨m3.trans (h1.1.trans h0.1), i3.trans (h1.2.trans h0.2)⟩
        · refine ⟨fun h' => (by cases h'), fun b hb => ?_⟩
          cases hb
          exact ⟨m3.trans (h1.1.trans h0.1), i3.trans (h1.2.trans h0.2)⟩


theorem count_char_cursor (c : Char) (a : args) :
    (count_char c a).2.markdown = a.markdown ∧ a.iterator ≤ (count_char c a).2.iterator :=
  ⟨rfl, scan_ge _ _ _⟩

theorem count_char_gt (c : Char) (a : args) (h : a.markdown[a.iterator]? = some c) :
    a.iterator + 1 ≤ (count_char c a).2.iterator :=
  scan_gt _ _ _ c h (by simp)

theorem heading_at_error (t : html_tags) (i : Nat) (e : Fault)
    (h : heading_at t i = .error e) : e ≠ .fuel := by
  unfold heading_at at h
  by_cases hi : i < 6
  · rw [dif_pos hi] at h; cases h
  · rw [dif_neg hi] at h; cases h; decide

theorem parse_heading_moves (a : args) (d : Nat)
    (hd : a.iterator + d ≤ (count_char '#' a).2.iterator) : moves a d (parse_heading a) := by
  unfold parse_heading
  have hm := (count_char_cursor '#' a).1
  simp only
  split
  · rename_i e he
    exact moves_error _ _ _ (char_at_error_ne _ _ _ he)
  · split
    · exact moves_ok _ _ _ hm hd
    · split
      · rename_i e he
        exact moves_error _ _ _ (heading_at_error _ _ _ he)
      · split
        · rename_i e he
          exact moves_error _ _ _ (substr_error _ _ _ _ he)
        · split
          · rename_i e he
            refine moves_error _ _ _ ?_
            intro h; subst h
            exact (dump_block_moves _).1 he
          · rename_i b hb
            obtain ⟨m, i⟩ := (dump_block_moves _).2 b hb
            simp only [emit] at m i
            refine moves_ok _ _ _ (m.trans hm) ?_
            show a.iterator + d ≤ b.iterator
            rw [i]
            have := scan_ge (fun x => decide (x ≠ '\n')) (count_char '#' a).2.markdown
              ((count_char '#' a).2.iterator + 1)
            omega

theorem left_excess_cursor (right : Nat) : ∀ (fuel : Nat) (a : args) (left : Nat),
    (left_excess right fuel a left).1.markdown = a.markdown ∧
      (left_excess right fuel a left).1.iterator = a.iterator := by
  intro fuel
  induction fuel with
  | zero => intro a left; exact ⟨rfl, rfl⟩
  | succ f ih =>
    intro a left
    unfold left_excess
    split
    · exact ih (emit a ['*']) (left - 1)
    · exact ⟨rfl, rfl⟩

theorem right_excess_cursor (left : Nat) : ∀ (fuel : Nat) (a : args) (right : Nat),
    (right_excess left fuel a right).markdown = a.markdown ∧
      (right_excess left fuel a right).iterator = a.iterator := by
  intro fuel
  induction fuel with
  | zero => intro a right; exact ⟨rfl, rfl⟩
  | succ f ih =>
    intro a right
    unfold right_excess
    split
    · exact ih (emit a ['*']) (right - 1)
    · exact ⟨rfl, rfl⟩

theorem open_blockquotes_cursor (dashes : Nat) : ∀ (fuel : Nat) (a : args),
    (open_blockquotes dashes fuel a).markdown = a.markdown ∧
      (open_blockquotes dashes fuel a).iterator = a.iterator := by
  intro fuel
  induction fuel with
  | zero => intro a; exact ⟨rfl, rfl⟩
  | succ f ih =>
    intro a
    unfold open_blockquotes
    split
    · exact ih _
    · exact ⟨rfl, rfl⟩

theorem close_blockquotes_cursor (dashes : Nat) : ∀ (fuel : Nat) (a : args),
    (close_blockquotes dashes fuel a).markdown = a.markdown ∧
      (close_blockquotes dashes fuel a).iterator = a.iterator := by
  intro fuel
  induction fuel with
  | zero => intro a; exact ⟨rfl, rfl⟩
  | succ f ih =>
    intro a
    unfold close_blockquotes
    split
    · exact ih _
    · exact ⟨rfl, rfl⟩

theorem emphasis_switch_moves (a : args) (level : Nat) :
    emphasis_switch a level ≠ .error .fuel ∧
      ∀ b, emphasis_switch a level = .ok b →
        b.markdown = a.markdown ∧ b.iterator = a.iterator := by
  unfold emphasis_switch
  split
  · split
    · rename_i e he
      exact ⟨fun h => by cases h; exact (dump_block_moves _).1 he, fun b hb => by cases hb⟩
    · rename_i b hb
      obtain ⟨m, i⟩ := (dump_block_moves _).2 b hb
      exact ⟨fun h => (by cases h), fun b' hb' => by cases hb'; exact ⟨m, i⟩⟩
  · split
    · split
      · rename_i e he
        exact ⟨fun h => by cases h; exact (dump_block_moves _).1 he, fun b hb => by cases hb⟩
      · rename_i b hb
        obtain ⟨m, i⟩ := (dump_block_moves _).2 b hb
        exact ⟨fun h => (by cases h), fun b' hb' => by cases hb'; exact ⟨m, i⟩⟩
    · split
      · split
        · rename_i e he
          exact ⟨fun h => by cases h; exact (dump_block_moves _).1 he, fun b hb => by cases hb⟩
        · rename_i b hb
          obtain ⟨m, i⟩ := (dump_block_moves _).2 b hb
          exact ⟨fun h => (by cases h), fun b' hb' => by cases hb'; exact ⟨m, i⟩⟩
      · exact ⟨fun h => (by cases h), fun b' hb' => by cases hb'; exact ⟨rfl, rfl⟩⟩

theorem parse_asteriks_moves (a : args) (d : Nat)
    (hd : a.iterator + d ≤ (count_char '*' a).2.iterator) : moves a d (parse_asteriks a) := by
  unfold parse_asteriks
  simp only
  split
  · refine moves_ok _ _ _ rfl ?_
    have := scan_ge (fun x => decide (x ≠ '*') && decide (x ≠ '\n')) (count_char '*' a).2.markdown
      (count_char '*' a).2.iterator
    show a.iterator + d ≤ scan _ _ _
    omega
  · split
    · rename_i e he
      refine moves_error _ _ _ ?_
      intro h; subst h
      exact (emphasis_switch_moves _ _).1 he
    · rename_i b hb
      obtain ⟨m, i⟩ := (emphasis_switch_moves _ _).2 b hb
      simp only at m i
      rw [(left_excess_cursor _ _ _ _).1] at m
      rw [(left_excess_cursor _ _ _ _).2] at i
      simp only [count_char] at m i hd
      refine moves_ok _ _ _ ?_ ?_
      · rw [(right_excess_cursor _ _ _ _).1]
        exact m
      · rw [(right_excess_cursor _ _ _ _).2]
        simp only [count_char]
        rw [i]
        refine le_trans ?_ (sub64_add_ge _ _)
        exact le_trans hd (le_trans (scan_ge _ _ _) (scan_ge _ _ _))

theorem find_run_cursor (a : args) (c : Char) (n : Nat) (it : Nat) :
    it ≤ find_run a.markdown c n (a.markdown.length - it) it :=
  find_run_ge _ _ _ _ _

theorem parse_strikethrough_moves (a : args) : moves a 0 (parse_strikethrough a) := by
  unfold parse_strikethrough
  simp only
  split
  · rename_i e he
    exact moves_error _ _ _ (substr_error _ _ _ _ he)
  · exact moves_ok _ _ _ rfl (find_run_ge _ _ _ _ _)

theorem parse_code_moves (a : args) (n d : Nat)
    (hd : a.iterator + d ≤ scan (fun x => decide (x = '`')) a.markdown a.iterator) :
    moves a d (parse_code a n) := by
  unfold parse_code
  simp only
  split
  · exact moves_ok _ _ _ rfl hd
  · have hc := code_loop_spec a.markdown n
      (a.markdown.length - scan (fun x => decide (x = '`')) a.markdown a.iterator + 1)
      (scan (fun x => decide (x = '`')) a.markdown a.iterator) (by omega)
    split
    · rename_i e he
      refine moves_error _ _ _ ?_
      intro h; subst h
      exact hc.1 he
    · rename_i it he
      exact moves_ok _ _ _ rfl (le_trans hd (hc.2 _ _ he))
    · rename_i it ce he
      split
      · rename_i e he2
        exact moves_error _ _ _ (substr_error _ _ _ _ he2)
      · exact moves_ok _ _ _ rfl (le_trans hd (hc.2 _ _ he))

theorem scan_rewind (p : Char → Bool) (md : List Char) (it : Nat)
    (hS : it + 1 ≤ scan p md it) :
    it + 1 ≤ scan p md (sub64 (scan p md it) (sub64 (scan p md it) it % 256)) := by
  have h1 : sub64 (scan p md it) it = scan p md it - it := sub64_of_le _ _ (by omega)
  rw [h1]
  by_cases h : (scan p md it - it) % 256 = scan p md it - it
  · rw [h, sub64_of_le _ _ (by omega)]
    have : scan p md it - (scan p md it - it) = it := by omega
    rw [this]
    exact hS
  · have h2 : (scan p md it - it) % 256 ≤ scan p md it - it := Nat.mod_le _ _
    have h3 : (scan p md it - it) % 256 < scan p md it - it := by omega
    rw [sub64_of_le _ _ (by omega)]
    refine le_trans ?_ (scan_ge _ _ _)
    omega

theorem get_indentation_cursor (a : args) :
    (get_indentation a).2.markdown = a.markdown ∧ a.iterator ≤ (get_indentation a).2.iterator :=
  ⟨rfl, get_indentation_ge a⟩

theorem parse_code_block_moves (a : args) : moves a 0 (parse_code_block a) := by
  generalize h : parse_code_block a = r
  unfold parse_code_block at h
  simp only [emit, dump_block] at h
  have hs := scan_ge (fun x => decide (x = ' ') || decide (x = '\t')) a.markdown a.iterator
  have hl := language_loop_spec a.markdown
    (a.markdown.length - scan (fun x => decide (x = ' ') || decide (x = '\t')) a.markdown a.iterator + 1)
    (scan (fun x => decide (x = ' ') || decide (x = '\t')) a.markdown a.iterator) (by omega)
  split at h
  · rename_i e he
    subst h
    refine moves_error _ _ _ ?_
    intro h; subst h
    exact hl.1 he
  · rename_i it hit
    have h1 := hl.2 it hit
    split at h
    · rename_i e he
      subst h
      exact moves_error _ _ _ (substr_error _ _ _ _ he)
    · rename_i name hname
      split at h
      · rename_i e he
        subst h
        exact moves_error _ _ _ (char_at_error_ne _ _ _ he)
      · rename_i c hc
        have hg := get_indentation_ge { a with
          iterator := it,
          block_begin := scan (fun x => decide (x = ' ') || decide (x = '\t')) a.markdown a.iterator }
        by_cases hcn : c = '\n' <;> simp only [hcn, if_true, if_false] at h
        all_goals
          split at h
          · rename_i e he
            subst h
            refine moves_error _ _ _ ?_
            intro h; subst h
            split at he
            · split at he
              · rename_i e2 he2
                cases he
                split at he2
                · rename_i e3 he3
                  cases he2
                  exact substr_error _ _ _ _ he3 rfl
                · cases he2
              · cases he
            · cases he
          · rename_i x hx
            subst h
            split at hx
            · split at hx
              · cases hx
              · rename_i y hy
                split at hy
                · cases hy
                · cases hy; cases hx
                  refine moves_ok _ _ _ rfl ?_
                  refine le_trans ?_ (sub64_add_ge _ _)
                  refine le_trans ?_ (find_run_ge _ _ _ _ _)
                  simp only at hg ⊢
                  omega
            · cases hx
              refine moves_ok _ _ _ rfl ?_
              refine le_trans ?_ (find_run_ge _ _ _ _ _)
              simp only at hg ⊢
              omega

theorem parse_named_link_moves (a : args) : moves a 1 (parse_named_link a) := by
  generalize h : parse_named_link a = r
  unfold parse_named_link at h
  simp only [emit] at h
  have hs := scan_ge (fun x => decide (x ≠ ']')) a.markdown (a.iterator + 1)
  split at h
  · rename_i e he
    subst h
    exact moves_error _ _ _ (substr_error _ _ _ _ he)
  · split at h
    · rename_i e he
      subst h
      exact moves_error _ _ _ (char_at_error_ne _ _ _ he)
    · split at h
      · subst h; exact moves_ok _ _ _ rfl hs
      · split at h
        · subst h; exact moves_ok _ _ _ rfl (Nat.le_succ_of_le hs)
        · split at h
          · subst h; exact moves_ok _ _ _ rfl (Nat.le_succ_of_le (Nat.le_succ_of_le hs))
          · split at h
            · rename_i e he
              subst h
              exact moves_error _ _ _ (substr_error _ _ _ _ he)
            · subst h
              refine moves_ok _ _ _ rfl ?_
              have := scan_ge (fun x => decide (x ≠ ')')) a.markdown
                (scan (fun x => decide (x ≠ ']')) a.markdown (a.iterator + 1) + 1 + 1)
              show a.iterator + 1 ≤ scan (fun x => decide (x ≠ ')')) a.markdown
                (scan (fun x => decide (x ≠ ']')) a.markdown (a.iterator + 1) + 1 + 1) + 1
              omega

theorem parse_image_moves (a : args) : moves a 1 (parse_image a) := by
  generalize h : parse_image a = r
  unfold parse_image at h
  simp only [emit] at h
  have hg := get_indentation_ge { a with iterator := a.iterator + 1 }
  simp only at hg
  split at h
  · subst h; exact moves_ok _ _ _ rfl hg
  · have hs := scan_ge (fun x => decide (x ≠ ']')) a.markdown
      ((get_indentation { a with iterator := a.iterator + 1 }).2.iterator + 1)
    split at h
    · rename_i e he
      subst h
      exact moves_error _ _ _ (substr_error _ _ _ _ he)
    · split at h
      · rename_i e he
        subst h
        exact moves_error _ _ _ (char_at_error_ne _ _ _ he)
      · split at h
        · subst h
          refine moves_ok _ _ _ rfl ?_
          show a.iterator + 1 ≤ scan (fun x => decide (x ≠ ']')) a.markdown
            ((get_indentation { a with iterator := a.iterator + 1 }).2.iterator + 1)
          omega
        · split at h
          · subst h
            refine moves_ok _ _ _ rfl ?_
            show a.iterator + 1 ≤ scan (fun x => decide (x ≠ ']')) a.markdown
              ((get_indentation { a with iterator := a.iterator + 1 }).2.iterator + 1) + 1
            omega
          · split at h
            · subst h
              refine moves_ok _ _ _ rfl ?_
              show a.iterator + 1 ≤ scan (fun x => decide (x ≠ ']')) a.markdown
                ((get_indentation { a with iterator := a.iterator + 1 }).2.iterator + 1) + 1 + 1
              omega
            · split at h
              · rename_i e he
                subst h
                exact moves_error _ _ _ (substr_error _ _ _ _ he)
              · subst h
                refine moves_ok _ _ _ rfl ?_
                have := scan_ge (fun x => decide (x ≠ ')')) a.markdown
                  (scan (fun x => decide (x ≠ ']')) a.markdown
                    ((get_indentation { a with iterator := a.iterator + 1 }).2.iterator + 1) + 1 + 1)
                show a.iterator + 1 ≤ scan (fun x => decide (x ≠ ')')) a.markdown
                  (scan (fun x => decide (x ≠ ']')) a.markdown
                    ((get_indentation { a with iterator := a.iterator + 1 }).2.iterator + 1) + 1 + 1) + 1
                omega


theorem advances_error (a : args) (e : Fault) (h : e ≠ .fuel) : advances a (.error e) :=
  ⟨fun h' => by cases h'; exact h rfl, fun b ig hb => by cases hb⟩

theorem advances_ok (a b : args) (ig : Bool) (h1 : b.markdown = a.markdown)
    (h2 : a.iterator + 1 ≤ b.iterator) : advances a (.ok (b, ig)) :=
  ⟨fun h' => (by cases h'), fun b' ig' hb => by cases hb; exact ⟨h1, h2⟩⟩

theorem advances_of_moves (a a2 : args) (r : Except Fault args) (d : Nat)
    (hm : a2.markdown = a.markdown) (hi : a.iterator + 1 ≤ a2.iterator + d)
    (h : moves a2 d r) :
    (∀ e, r = .error e → advances a (.error e)) ∧
      (∀ b ig, r = .ok b → advances a (.ok (b, ig))) := by
  constructor
  · intro e he
    refine advances_error _ _ ?_
    intro h'; subst h'
    exact h.1 he
  · intro b ig hb
    obtain ⟨m, i⟩ := h.2 b hb
    exact advances_ok _ _ _ (m.trans hm) (by omega)

theorem dump_paragraph_error (a : args) (c : Bool) (e : Fault)
    (h : dump_paragraph a c = .error e) : e ≠ .fuel := by
  intro h'; subst h'
  exact (dump_paragraph_moves a c).1 h

theorem parse_line_step_advances (a : args) (c : Char) (f : Bool)
    (hc : a.markdown[a.iterator]? = some c) : advances a (parse_line_step a c f) := by
  generalize h : parse_line_step a c f = r
  unfold parse_line_step at h
  by_cases c1 : c = '\\'
  · rw [if_pos c1] at h
    split at h
    · rename_i e he
      subst h; exact advances_error _ _ (dump_paragraph_error _ _ _ he)
    · rename_i a1 h1
      obtain ⟨m, i⟩ := (dump_paragraph_moves _ _).2 a1 h1
      subst h
      exact advances_ok _ _ _ m (by show a.iterator + 1 ≤ a1.iterator + 1; omega)
  rw [if_neg c1] at h
  by_cases c2 : c = '#' ∧ f = true
  · rw [if_pos c2] at h
    split at h
    · rename_i e he
      subst h; exact advances_error _ _ (dump_paragraph_error _ _ _ he)
    · rename_i a1 h1
      obtain ⟨m, i⟩ := (dump_paragraph_moves _ _).2 a1 h1
      have hmv := advances_of_moves a a1 (parse_heading a1) 1 m (by omega)
        (parse_heading_moves a1 1 (count_char_gt _ _ (by rw [m, i, hc, c2.1])))
      split at h
      · rename_i e he
        subst h; exact hmv.1 e he
      · rename_i a2 h2
        subst h; exact hmv.2 a2 _ h2
  rw [if_neg c2] at h
  by_cases c3 : (c = '+' ∨ c = '*') ∧ f = true
  · rw [if_pos c3] at h
    subst h
    exact advances_ok _ _ _ (parse_list_fields _ _).1
      (by rw [(parse_list_fields _ _).2.1])
  rw [if_neg c3] at h
  by_cases c4 : c = '*'
  · rw [if_pos c4] at h
    split at h
    · rename_i e he
      subst h; exact advances_error _ _ (dump_paragraph_error _ _ _ he)
    · rename_i a1 h1
      obtain ⟨m, i⟩ := (dump_paragraph_moves _ _).2 a1 h1
      have hmv := advances_of_moves a a1 (parse_asteriks a1) 1 m (by omega)
        (parse_asteriks_moves a1 1 (count_char_gt _ _ (by rw [m, i, hc, c4])))
      split at h
      · rename_i e he
        subst h; exact hmv.1 e he
      · rename_i a2 h2
        subst h; exact hmv.2 a2 _ h2
  rw [if_neg c4] at h
  by_cases c5 : c = '`'
  · rw [if_pos c5] at h
    simp only [count_char] at h
    have hS := scan_gt (fun x => decide (x = '`')) a.markdown a.iterator c hc (by simp [c5])
    split at h
    · split at h
      · rename_i e he
        subst h; exact advances_error _ _ (dump_paragraph_error _ _ _ he)
      · rename_i a1 h1
        obtain ⟨m, i⟩ := (dump_paragraph_moves _ _).2 a1 h1
        simp only at m i
        have hge := sub64_add_ge (scan (fun x => decide (x = '`')) a.markdown a.iterator)
          (sub64 (scan (fun x => decide (x = '`')) a.markdown a.iterator) a.iterator % 256)
        split at h
        · rename_i e he
          subst h
          refine (advances_of_moves a _ _ 0 ?_ ?_ (parse_code_block_moves _)).1 e he
          · exact m
          · simp only; omega
        · rename_i a2 h2
          subst h
          refine (advances_of_moves a _ _ 0 ?_ ?_ (parse_code_block_moves _)).2 a2 _ h2
          · exact m
          · simp only; omega
    · split at h
      · rename_i e he
        subst h; exact advances_error _ _ (dump_paragraph_error _ _ _ he)
      · rename_i a1 h1
        obtain ⟨m, i⟩ := (dump_paragraph_moves _ _).2 a1 h1
        simp only at m i
        have hrw := scan_rewind (fun x => decide (x = '`')) a.markdown a.iterator hS
        have hmv := advances_of_moves a a1 _
          (scan (fun x => decide (x = '`')) a.markdown a1.iterator - a1.iterator) m
          (by rw [i]; omega)
          (parse_code_moves a1
            (sub64 (scan (fun x => decide (x = '`')) a.markdown a.iterator) a.iterator % 256)
            _ (by rw [m]; have := scan_ge (fun x => decide (x = '`')) a.markdown a1.iterator; omega))
        split at h
        · rename_i e he
          subst h; exact hmv.1 e he
        · rename_i a2 h2
          subst h; exact hmv.2 a2 _ h2
  rw [if_neg c5] at h
  by_cases c6 : c = '~'
  · rw [if_pos c6] at h
    simp only [count_char] at h
    have hS := scan_gt (fun x => decide (x = '~')) a.markdown a.iterator c hc (by simp [c6])
    split at h
    · split at h
      · rename_i e he
        subst h; exact advances_error _ _ (dump_paragraph_error _ _ _ he)
      · rename_i a1 h1
        obtain ⟨m, i⟩ := (dump_paragraph_moves _ _).2 a1 h1
        simp only at m i
        have hge := sub64_add_ge (scan (fun x => decide (x = '~')) a.markdown a.iterator)
          (sub64 (scan (fun x => decide (x = '~')) a.markdown a.iterator) a.iterator)
        split at h
        · rename_i e he
          subst h
          refine (advances_of_moves a _ _ 0 ?_ ?_ (parse_strikethrough_moves _)).1 e he
          · exact m
          · simp only; omega
        · rename_i a2 h2
          subst h
          refine (advances_of_moves a _ _ 0 ?_ ?_ (parse_strikethrough_moves _)).2 a2 _ h2
          · exact m
          · simp only; omega
    · subst h
      exact advances_ok _ _ _ rfl hS
  rw [if_neg c6] at h
  by_cases c7 : c = '-' ∧ f = true
  · rw [if_pos c7] at h
    simp only [count_char] at h
    have hS := scan_gt (fun x => decide (x = '-')) a.markdown a.iterator c hc (by simp [c7.1])
    split at h
    · split at h
      · rename_i e he
        subst h; exact advances_error _ _ (dump_paragraph_error _ _ _ he)
      · rename_i a1 h1
        obtain ⟨m, i⟩ := (dump_paragraph_moves _ _).2 a1 h1
        simp only at m i
        have hge := sub64_add_ge (scan (fun x => decide (x = '-')) a.markdown a.iterator)
          (sub64 (scan (fun x => decide (x = '-')) a.markdown a.iterator) a.iterator)
        subst h
        refine advances_ok _ _ _ m ?_
        show a.iterator + 1 ≤ a1.iterator + _
        omega
    · subst h
      refine advances_ok _ _ _ (parse_list_fields _ _).1 ?_
      rw [(parse_list_fields _ _).2.1]
      show a.iterator + 1 ≤ scan (fun x => decide (x = '-')) a.markdown a.iterator + 1
      omega
  rw [if_neg c7] at h
  split at h
  · rename_i e he
    subst h
    refine advances_error _ _ ?_
    intro h'; subst h'
    cases f
    · cases he
    · exact is_ordered_list_element_not_fuel a he
  · have hf := find_dot_spec a.markdown (a.markdown.length - a.iterator + 1) a.iterator
      (by omega)
    split at h
    · rename_i e he
      subst h
      refine advances_error _ _ ?_
      intro h'; subst h'
      exact hf.1 he
    · rename_i it hit
      have := hf.2 it hit
      subst h
      refine advances_ok _ _ _ (parse_list_fields _ _).1 ?_
      rw [(parse_list_fields _ _).2.1]
      show a.iterator + 1 ≤ it + 1 + 1
      omega
  · by_cases c8 : c = '['
    · rw [if_pos c8] at h
      split at h
      · rename_i e he
        subst h; exact advances_error _ _ (dump_paragraph_error _ _ _ he)
      · rename_i a1 h1
        obtain ⟨m, i⟩ := (dump_paragraph_moves _ _).2 a1 h1
        have hmv := advances_of_moves a a1 _ 1 m (by omega) (parse_named_link_moves a1)
        split at h
        · rename_i e he
          subst h; exact hmv.1 e he
        · rename_i a2 h2
          subst h; exact hmv.2 a2 _ h2
    rw [if_neg c8] at h
    by_cases c9 : c = '!'
    · rw [if_pos c9] at h
      split at h
      · rename_i e he
        subst h; exact advances_error _ _ (dump_paragraph_error _ _ _ he)
      · rename_i a1 h1
        obtain ⟨m, i⟩ := (dump_paragraph_moves _ _).2 a1 h1
        have hmv := advances_of_moves a a1 _ 1 m (by omega) (parse_image_moves a1)
        split at h
        · rename_i e he
          subst h; exact hmv.1 e he
        · rename_i a2 h2
          subst h; exact hmv.2 a2 _ h2
    rw [if_neg c9] at h
    subst h
    exact advances_ok _ _ _ rfl (Nat.le_refl _)


theorem getElem?_some_lt (md : List Char) (i : Nat) (c : Char) (h : md[i]? = some c) :
    i < md.length := by
  by_contra hn
  rw [List.getElem?_eq_none (by omega)] at h
  cases h

theorem parse_line_loop_spec : ∀ (fuel : Nat) (a : args) (f ig : Bool) (sp : Nat),
    a.markdown.length - a.iterator ≤ fuel →
    parse_line_loop fuel a f ig sp ≠ .error .fuel ∧
      ∀ b sp', parse_line_loop fuel a f ig sp = .ok (b, sp') →
        b.markdown = a.markdown ∧ a.iterator ≤ b.iterator := by
  intro fuel
  induction fuel with
  | zero =>
    intro a f ig sp hf
    rw [parse_line_loop]
    split
    · exact ⟨fun h => (by cases h), fun b sp' h => by cases h; exact ⟨rfl, Nat.le_refl _⟩⟩
    · rename_i c hc
      have := getElem?_some_lt _ _ _ hc
      omega
  | succ n ih =>
    intro a f ig sp hf
    rw [parse_line_loop]
    split
    · exact ⟨fun h => (by cases h), fun b sp' h => by cases h; exact ⟨rfl, Nat.le_refl _⟩⟩
    · rename_i c hc
      have hlt := getElem?_some_lt _ _ _ hc
      split
      · exact ⟨fun h => (by cases h), fun b sp' h => by cases h; exact ⟨rfl, Nat.le_refl _⟩⟩
      · simp only
        split
        · have h1 := ih { a with iterator := a.iterator + 1 } f false sp
            (by show a.markdown.length - (a.iterator + 1) ≤ n; omega)
          refine ⟨h1.1, fun b sp' h => ?_⟩
          obtain ⟨m, i⟩ := h1.2 b sp' h
          exact ⟨m, by have : a.iterator + 1 ≤ b.iterator := i; omega⟩
        · have hadv := parse_line_step_advances a c f hc
          split
          · rename_i e he
            refine ⟨fun h => ?_, fun b sp' h => by cases h⟩
            cases h
            exact hadv.1 he
          · rename_i a1 ig1 h1
            obtain ⟨m, i⟩ := hadv.2 a1 ig1 h1
            have h2 := ih a1 false ig1 (if c = ' ' then sp + 1 else 0) (by rw [m]; omega)
            refine ⟨h2.1, fun b sp' h => ?_⟩
            obtain ⟨m2, i2⟩ := h2.2 b sp' h
            exact ⟨m2.trans m, by omega⟩

theorem parse_line_head_cursor (a : args) :
    (parse_line_head a).markdown = a.markdown ∧ a.iterator ≤ (parse_line_head a).iterator := by
  unfold parse_line_head
  simp only
  have h1 := get_indentation_cursor a
  have h2 := count_char_cursor '>'
    { (get_indentation a).2 with line_indentation := (get_indentation a).1 }
  generalize count_char '>'
    { (get_indentation a).2 with line_indentation := (get_indentation a).1 } = r at h2 ⊢
  have h3 := open_blockquotes_cursor r.1 r.1 r.2
  generalize open_blockquotes r.1 r.1 r.2 = a3 at h3 ⊢
  have h4 := close_blockquotes_cursor r.1 a3.blockquote_level a3
  generalize close_blockquotes r.1 a3.blockquote_level a3 = a4 at h4 ⊢
  simp only at h2
  split
  · have h5 := get_indentation_cursor a4
    refine ⟨?_, ?_⟩
    · show (get_indentation a4).2.markdown = a.markdown
      rw [h5.1, h4.1, h3.1, h2.1, h1.1]
    · show a.iterator ≤ (get_indentation a4).2.iterator
      have := h5.2
      omega
  · refine ⟨?_, ?_⟩
    · rw [h4.1, h3.1, h2.1, h1.1]
    · omega

theorem parse_line_body_moves (a : args) : moves a 1 (parse_line_body a) := by
  generalize h : parse_line_body a = r
  unfold parse_line_body at h
  split at h
  · rename_i e he
    subst h; exact moves_error _ _ _ (char_at_error_ne _ _ _ he)
  · rename_i c hc
    split at h
    · subst h
      refine moves_ok _ _ _ (try_close_paragraph_cursor a).1 ?_
      show a.iterator + 1 ≤ (try_close_paragraph a).iterator + 1
      rw [(try_close_paragraph_cursor a).2]
    · simp only at h
      split at h
      · rename_i e he
        subst h
        refine moves_error _ _ _ ?_
        intro h'; subst h'
        split at he
        · split at he
          · rename_i e2 he2
            cases he
            exact is_ordered_list_element_not_fuel a he2
          · split at he <;> cases he
        · cases he
      · rename_i a1 h1
        have hcur : a1.markdown = a.markdown ∧ a1.iterator = a.iterator := by
          split at h1
          · split at h1
            · cases h1
            · split at h1
              · cases h1; exact ⟨rfl, rfl⟩
              · cases h1; exact ⟨rfl, rfl⟩
          · cases h1; exact ⟨rfl, rfl⟩
        have hl := parse_line_loop_spec (a1.markdown.length - a1.iterator)
          { a1 with block_begin := a1.iterator } true false 0 (Nat.le_refl _)
        split at h
        · rename_i e he
          subst h
          refine moves_error _ _ _ ?_
          intro h'; subst h'
          exact hl.1 he
        · rename_i a2 sp h2
          obtain ⟨m2, i2⟩ := hl.2 a2 sp h2
          simp only at m2 i2
          split at h
          · rename_i e he
            subst h; exact moves_error _ _ _ (dump_paragraph_error _ _ _ he)
          · rename_i a3 h3
            obtain ⟨m3, i3⟩ := (dump_paragraph_moves _ _).2 a3 h3
            subst h
            refine moves_ok _ _ _ (m3.trans (m2.trans hcur.1)) ?_
            show a.iterator + 1 ≤ a3.iterator + 1
            have := hcur.2
            omega

theorem parse_line_moves (a : args) : moves a 1 (parse_line a) :=
  moves_from (parse_line_head_cursor a).1
    (by have := (parse_line_head_cursor a).2; show a.iterator + 0 ≤ _; omega)
    (parse_line_body_moves _) (Nat.le_refl _)

theorem parse_lines_spec : ∀ (fuel : Nat) (a : args),
    a.markdown.length - a.iterator ≤ fuel → parse_lines fuel a ≠ .error .fuel := by
  intro fuel
  induction fuel with
  | zero =>
    intro a hf
    rw [parse_lines]
    split
    · omega
    · intro h; cases h
  | succ n ih =>
    intro a hf
    rw [parse_lines]
    split
    · split
      · rename_i e he
        intro h; cases h
        exact (parse_line_moves a).1 he
      · rename_i a1 h1
        obtain ⟨m, i⟩ := (parse_line_moves a).2 a1 h1
        exact ih a1 (by rw [m]; omega)
    · intro h; cases h

theorem markdown_to_html_not_fuel (md : List Char) (tags : html_tags) :
    markdown_to_html md tags ≠ .error .fuel := by
  unfold markdown_to_html
  split
  · rename_i e he
    intro h; cases h
    exact parse_lines_spec md.length _ (by show md.length - 0 ≤ md.length; omega) he
  · intro h; cases h



/-! ## C11: emphasis runs longer than three -/

/-- C11 (failing input): for `x ****a****` both runs hold four `*`, the `switch` on the level
has no case for 4, and the enclosed `a` is written nowhere: the paragraph holds `x ` only.
With runs of three the text is wrapped in both tag pairs. -/
theorem emphasis_level_four_drops_text :
    markdown_to_html "x ****a****".toList default_tags = .ok " <p>x </p>".toList ∧
    markdown_to_html "x ***a***".toList default_tags
      = .ok " <p>x <em><strong>a</strong></em></p>".toList := by
  decide!

/-! ## C12: an exclamation mark that starts no image -/

/-- C12 (failing input): in `a! b` the `!` is followed by a space; `parse_image` skips the
space and sets the pending span one before the cursor, which is the space and not the `!`:
the output holds no `!`.  Without the space, as in `a!b`, the `!` is kept. -/
theorem exclamation_before_space_is_dropped :
    markdown_to_html "a! b".toList default_tags = .ok " <p>a  b</p>".toList ∧
    markdown_to_html "a!b".toList default_tags = .ok " <p>a !b</p>".toList := by
  decide!

/-! ## C13: spans that are never closed -/

/-- C13 (failing inputs): an unclosed `~~` still writes the strikethrough tags, around the
text less its last two characters, and the `~~` is not written; an unclosed backtick is
dropped from the output.  An unclosed `*` is kept as text, as the claim says. -/
theorem unterminated_spans :
    markdown_to_html "x ~~abc".toList default_tags = .ok " <p>x <del>a</del>c</p>".toList ∧
    markdown_to_html "a `b".toList default_tags = .ok " <p>a b</p>".toList ∧
    markdown_to_html "x *a".toList default_tags = .ok " <p>x *a</p>".toList := by
  decide!

/-! ## C15: strikethrough -/

/-- C15 (failing input): for `x~~t~~y` the text `t` is wrapped in the strikethrough tags,
and `parse_strikethrough` leaves the pending span one before the cursor: the last `~` of the
closing run is written as text, after a joining space.  A run of one or of three `~` inside
the span does not close it. -/
theorem strikethrough_keeps_last_tilde :
    markdown_to_html "x~~t~~y".toList default_tags = .ok " <p>x<del>t</del> ~y</p>".toList ∧
    markdown_to_html "x~~a~b~~~c~~y".toList default_tags
      = .ok " <p>x<del>a~b~~~c</del> ~y</p>".toList := by
  decide!

/-! ## C17: paragraph wrapper and list frames -/

/-- C17 (failing inputs): after the line `- [t](u)` the paragraph flag is set while one list
frame is open (the flush with nothing pending opens a paragraph without looking at the
list stack), and after the two lines of `text`, `- a` as well (the list opens inside the
paragraph of the first line). -/
theorem paragraph_open_inside_list :
    open_wrappers (after_lines 1 (initial "- [t](u)\n".toList default_tags)) = .ok (true, 1) ∧
    open_wrappers (after_lines 2 (initial "text\n- a\n".toList default_tags)) = .ok (true, 1) ∧
    markdown_to_html "- [t](u)\n".toList default_tags
      = .ok "<ul><li>  <a href=\"u\">t</a><p></p></li></ul>".toList := by
  decide!


/-! ## C14: links that are cut short -/

theorem parse_named_link_no_paren (a : args) (pre t post : List Char)
    (hmd : a.markdown = pre ++ ('[' :: (t ++ ']' :: post)))
    (hit : a.iterator = pre.length)
    (ht : ∀ x ∈ t, x ≠ ']') (hpost : ∀ x, post.head? = some x → x ≠ '(') :
    parse_named_link a = .ok { a with
      block_begin := pre.length
      iterator := pre.length + 1 + t.length + 1 } := by
  have e1 : scan (fun x => decide (x ≠ ']')) a.markdown (pre.length + 1) = pre.length + 1 + t.length :=
    scan_run _ _ (pre ++ ['[']) t (']' :: post) _ (by simp [hmd]) (by simp)
      (fun x hx => by simpa using ht x hx) (fun x hx => by simp at hx; subst hx; decide)
  have e2 : substr a.markdown (pre.length + 1) (sub64 (pre.length + 1 + t.length) (pre.length + 1))
      = .ok t :=
    substr_eq _ (pre ++ ['[']) t (']' :: post) _ _ (by simp [hmd]) (by simp)
      (by rw [sub64_of_le _ _ (by omega)]; omega)
  have e3 : a.markdown[pre.length + 1 + t.length]? = some ']' :=
    getElem?_split _ (pre ++ '[' :: t) post ']' _ (by simp [hmd]) (by simp; omega)
  have e4 : (!decide (pre.length + 1 + t.length + 1 < a.markdown.length)
      || decide (a.markdown[pre.length + 1 + t.length + 1]? ≠ some '(')) = true := by
    cases post with
    | nil =>
      have : a.markdown.length = pre.length + 1 + t.length + 1 := by rw [hmd]; simp; omega
      simp [this]
    | cons x post' =>
      have hx : a.markdown[pre.length + 1 + t.length + 1]? = some x :=
        getElem?_split _ (pre ++ '[' :: (t ++ [']'])) post' x _ (by simp [hmd]) (by simp; omega)
      have := hpost x rfl
      simp [hx, this]
  unfold parse_named_link
  simp only [hit, e1, e2, char_at, e3, iter_good]
  simp only [e4]
  simp

theorem parse_named_link_no_close (a : args) (pre t u : List Char)
    (hmd : a.markdown = pre ++ ('[' :: (t ++ ']' :: '(' :: u)))
    (hit : a.iterator = pre.length)
    (ht : ∀ x ∈ t, x ≠ ']') (hu : ∀ x ∈ u, x ≠ ')') (hne : u ≠ []) :
    parse_named_link a = .ok { a with
      html_out := a.html_out ++ a.tags.link_additional_tags.1 ++ "<a href=\"".toList ++ u
        ++ "\">".toList ++ t ++ "</a>".toList ++ a.tags.link_additional_tags.2
      iterator := a.markdown.length + 1
      block_begin := a.markdown.length + 1 } := by
  have hlen : a.markdown.length = pre.length + 1 + t.length + 2 + u.length := by
    rw [hmd]; simp; omega
  have hpos : 0 < u.length := List.length_pos.mpr hne
  have e1 : scan (fun x => decide (x ≠ ']')) a.markdown (pre.length + 1) = pre.length + 1 + t.length :=
    scan_run _ _ (pre ++ ['[']) t (']' :: '(' :: u) _ (by simp [hmd]) (by simp)
      (fun x hx => by simpa using ht x hx) (fun x hx => by simp at hx; subst hx; decide)
  have e2 : substr a.markdown (pre.length + 1) (sub64 (pre.length + 1 + t.length) (pre.length + 1))
      = .ok t :=
    substr_eq _ (pre ++ ['[']) t (']' :: '(' :: u) _ _ (by simp [hmd]) (by simp)
      (by rw [sub64_of_le _ _ (by omega)]; omega)
  have e3 : a.markdown[pre.length + 1 + t.length]? = some ']' :=
    getElem?_split _ (pre ++ '[' :: t) ('(' :: u) ']' _ (by simp [hmd]) (by simp; omega)
  have e4 : a.markdown[pre.length + 1 + t.length + 1]? = some '(' :=
    getElem?_split _ (pre ++ '[' :: (t ++ [']'])) u '(' _ (by simp [hmd]) (by simp; omega)
  have e5 : pre.length + 1 + t.length + 1 < a.markdown.length := by omega
  have e6 : pre.length + 1 + t.length + 1 + 1 < a.markdown.length := by omega
  have e7 : scan (fun x => decide (x ≠ ')')) a.markdown (pre.length + 1 + t.length + 1 + 1)
      = pre.length + 1 + t.length + 2 + u.length := by
    rw [scan_run _ _ (pre ++ '[' :: (t ++ [']', '('])) u [] _ (by simp [hmd])
      (by simp; omega) (fun x hx => by simpa using hu x hx)
      (fun x hx => by simp at hx)]
  have e8 : substr a.markdown (pre.length + 1 + t.length + 1 + 1)
      (sub64 (pre.length + 1 + t.length + 2 + u.length) (pre.length + 1 + t.length + 1 + 1))
      = .ok u :=
    substr_eq _ (pre ++ '[' :: (t ++ [']', '('])) u [] _ _ (by simp [hmd])
      (by simp; omega) (by rw [sub64_of_le _ _ (by omega)]; omega)
  unfold parse_named_link
  simp only [hit, e1, e2, char_at, e3, e4, iter_good, e5, e6, e7, e8, emit]
  simp [hlen]

/-- C14 (counterexample): for `[abc] d`, where no `(` follows the `]`, the characters
`[abc]` that `parse_named_link` went over are written as text; for `[a](b`, where the `)` is
missing, the anchor is written. -/
theorem truncated_link_is_written :
    markdown_to_html "[abc] d".toList default_tags = .ok " <p> [abc] d</p>".toList ∧
    markdown_to_html "[a](b".toList default_tags
      = .ok " <p><a href=\"b\">a</a> </p>".toList := by
  decide!

/-- C14 (amended): take a parse context whose cursor is on a `[` followed by a title `t`
without `]` and a `]`.  When no `(` follows the `]` (another character or the end of the
input), `parse_named_link` gives the construct up: it writes nothing, leaves the cursor after
the `]` and the pending span starting on the `[`, so that the characters it went over stay
pending and are flushed as text.  When `(` and a non-empty rest `u` of the document without
`)` follow, the construct is not given up: the anchor is written with `u` as url and the
cursor is moved one past the end of the document. -/
theorem truncated_link (a : args) (pre t rest : List Char)
    (hit : a.iterator = pre.length) (ht : ∀ x ∈ t, x ≠ ']') :
    (a.markdown = pre ++ ('[' :: (t ++ ']' :: rest)) →
      (∀ x, rest.head? = some x → x ≠ '(') →
      parse_named_link a = .ok { a with
        block_begin := pre.length
        iterator := pre.length + 1 + t.length + 1 }) ∧
    (a.markdown = pre ++ ('[' :: (t ++ ']' :: '(' :: rest)) →
      (∀ x ∈ rest, x ≠ ')') → rest ≠ [] →
      parse_named_link a = .ok { a with
        html_out := a.html_out ++ a.tags.link_additional_tags.1 ++ "<a href=\"".toList ++ rest
          ++ "\">".toList ++ t ++ "</a>".toList ++ a.tags.link_additional_tags.2
        iterator := a.markdown.length + 1
        block_begin := a.markdown.length + 1 }) :=
  ⟨fun hmd hrest => parse_named_link_no_paren a pre t rest hmd hit ht hrest,
   fun hmd hrest hne => parse_named_link_no_close a pre t rest hmd hit ht hrest hne⟩

theorem truncated_link_witness :
    parse_named_link (initial "[abc] d".toList default_tags)
      = .ok { initial "[abc] d".toList default_tags with block_begin := 0, iterator := 5 } ∧
    parse_named_link (initial "[a](b".toList default_tags)
      = .ok { initial "[a](b".toList default_tags with
          html_out := "<a href=\"b\">a</a>".toList, block_begin := 6, iterator := 6 } :=
  ⟨(truncated_link (initial "[abc] d".toList default_tags) [] "abc".toList " d".toList rfl
      (by decide)).1 rfl (by decide),
   (truncated_link (initial "[a](b".toList default_tags) [] "a".toList "b".toList rfl
      (by decide)).2 rfl (by decide) (by decide)⟩


/-! ## C20: the flush of the pending span -/

theorem pending_span_last (a : args) (h1 : a.block_begin < a.iterator)
    (h2 : a.iterator ≤ a.markdown.length) :
    (pending_span a).getLast? = a.markdown[a.iterator - 1]? := by
  unfold pending_span
  rw [List.getLast?_eq_getElem?]
  have hl : ((a.markdown.drop a.block_begin).take (a.iterator - a.block_begin)).length
      = a.iterator - a.block_begin := by
    simp; omega
  rw [hl, List.getElem?_take_of_lt (by omega), List.getElem?_drop]
  congr 1
  omega

theorem dump_paragraph_empty (a : args) (c : Bool) (h : a.iterator = a.block_begin) :
    dump_paragraph a c = .ok (flush a c) := by
  obtain ⟨out, md, tags, it, bb, li, bq, po, sp, ls⟩ := a
  simp only at h
  subst h
  cases sp <;> cases po <;> cases c <;>
    simp [dump_paragraph, flush, joining_space, emit, try_close_paragraph]

theorem dump_paragraph_span (a : args) (c : Bool) (h1 : a.block_begin < a.iterator)
    (h2 : a.iterator ≤ a.markdown.length) :
    dump_paragraph a c = .ok (flush a c) := by
  have hlast := pending_span_last a h1 h2
  have hne : a.iterator ≠ a.block_begin := by omega
  have hs1 : sub64 a.iterator 1 = a.iterator - 1 := sub64_of_le _ _ (by omega)
  have hs2 : sub64 a.iterator a.block_begin = a.iterator - a.block_begin :=
    sub64_of_le _ _ (by omega)
  obtain ⟨x, hx⟩ : ∃ x, a.markdown[a.iterator - 1]? = some x := by
    have : a.iterator - 1 < a.markdown.length := by omega
    exact ⟨a.markdown[a.iterator - 1], by simp [this]⟩
  have hsub : substr a.markdown a.block_begin (a.iterator - a.block_begin)
      = .ok (pending_span a) := by
    unfold substr pending_span
    rw [if_neg (by omega)]
  rw [hx] at hlast
  obtain ⟨out, md, tags, it, bb, li, bq, po, sp, ls⟩ := a
  simp only at h1 h2 hlast hne hs1 hs2 hx hsub
  cases sp <;> cases po <;> cases c <;> cases ls <;>
    simp [dump_paragraph, flush, joining_space, emit, hne, char_at, hs1, hx, dump_block,
      hs2, hsub, hlast]

/-- C20 (counterexample): at the start of the document `ab`, with nothing pending,
`dump_paragraph` writes a space and the paragraph opening tag, where the flush as specified
writes the tag alone; with `ab` pending it writes the space before the opening tag, where the
flush as specified writes it after. -/
theorem flush_space_comes_first :
    written (dump_paragraph (initial "ab".toList default_tags) false) = .ok " <p>".toList ∧
    written (.ok (flush_as_specified (initial "ab".toList default_tags) false))
      = .ok "<p>".toList ∧
    written (dump_paragraph { initial "ab".toList default_tags with iterator := 2 } false)
      = .ok " <p>ab".toList ∧
    written (.ok (flush_as_specified
      { initial "ab".toList default_tags with iterator := 2 } false)) = .ok "<p> ab".toList := by
  decide!

/-- C20 (amended): `dump_paragraph` is the flush of the specification with the joining space
moved to the front: it first appends one space if the previous flush did not end in a
space, with an empty span too.  Then, with an empty span, it appends only the paragraph tag
it opens (`close_paragraph` false, none open) or closes (`close_paragraph` true, one open),
and nothing when neither applies.  With a non-empty span inside the document it appends the
paragraph opening tag unless a paragraph or a list frame is open, the span, and the closing
tag if asked for and a paragraph is open; it sets the ended-with-space flag from the last
character of the span and moves the start of the pending span to the cursor. -/
theorem dump_paragraph_is_flush (a : args) (close_paragraph : Bool)
    (h : a.iterator = a.block_begin ∨
      (a.block_begin < a.iterator ∧ a.iterator ≤ a.markdown.length)) :
    dump_paragraph a close_paragraph = .ok (flush a close_paragraph) := by
  rcases h with h | ⟨h1, h2⟩
  · exact dump_paragraph_empty a close_paragraph h
  · exact dump_paragraph_span a close_paragraph h1 h2

theorem dump_paragraph_is_flush_witness :
    dump_paragraph
        { initial "ab c".toList default_tags with iterator := 3, block_begin := 1 } true
      = .ok (flush
        { initial "ab c".toList default_tags with iterator := 3, block_begin := 1 } true) ∧
    (flush { initial "ab c".toList default_tags with iterator := 3, block_begin := 1 }
      true).html_out = " <p>b </p>".toList ∧
    (flush { initial "ab c".toList default_tags with iterator := 3, block_begin := 1 }
      true).paragraph_ended_with_space = true :=
  ⟨dump_paragraph_is_flush _ true (Or.inr ⟨by decide, by decide⟩), by decide, by decide⟩


/-! ## C19: de-indenting a list -/

theorem stack_ok_tail (f : list) (rest : List list) (h : stack_ok (f :: rest)) :
    stack_ok rest := by
  cases rest with
  | nil => trivial
  | cons g rest' => exact h.2.2

theorem stack_ok_below (f : list) (rest : List list) (h : stack_ok (f :: rest)) :
    ∀ g ∈ rest, g.items_indentation < f.items_indentation := by
  induction rest generalizing f with
  | nil => intro g hg; cases hg
  | cons g0 rest' ih =>
    intro g hg
    rcases List.mem_cons.mp hg with rfl | hg'
    · exact h.1
    · exact Nat.lt_trans (ih g0 h.2.2 g hg') h.1

theorem popped_frames_cons (i : Nat) (f g : list) (rest : List list)
    (h : i < f.items_indentation) :
    popped_frames i (f :: g :: rest) = f :: popped_frames i (g :: rest) := by
  simp [popped_frames, List.dropLast, List.filter, h]

theorem popped_frames_none (i : Nat) (stack : List list)
    (h : ∀ g ∈ stack, g.items_indentation ≤ i) : popped_frames i stack = [] := by
  unfold popped_frames
  rw [List.filter_eq_nil_iff]
  intro g hg
  have := h g (List.mem_of_mem_dropLast hg)
  simp only [decide_eq_true_eq]
  omega

theorem pop_deeper_frames (t : html_tags) (i : Nat) : ∀ (rest : List list) (f : list)
    (out : List Char), stack_ok (f :: rest) →
    popped_frames i (f :: rest) ++ kept_frames i (f :: rest) = f :: rest ∧
      kept_frames i (f :: rest) ≠ [] ∧
      pop_deeper t i f.items_indentation (f :: rest) out
        = (kept_frames i (f :: rest), out ++ frames_closing t (popped_frames i (f :: rest))) := by
  intro rest
  induction rest with
  | nil =>
    intro f out hok
    simp [popped_frames, kept_frames, pop_deeper, frames_closing]
  | cons g rest' ih =>
    intro f out hok
    by_cases hlt : i < f.items_indentation
    · obtain ⟨h1, h2, h3⟩ := ih g
        (out ++ (item_tags t f.ordered).2 ++ (list_tags t f.ordered).2) hok.2.2
      have hpf := popped_frames_cons i f g rest' hlt
      have hk : kept_frames i (f :: g :: rest') = kept_frames i (g :: rest') := by
        simp [kept_frames, hpf]
      have hcur : sub64 f.items_indentation f.indentation_diffrence = g.items_indentation := by
        rw [hok.2.1, sub64_of_le _ _ (by omega)]
        have := hok.1
        omega
      refine ⟨?_, ?_, ?_⟩
      · rw [hk, hpf, List.cons_append, h1]
      · rw [hk]; exact h2
      · rw [pop_deeper, if_pos hlt, hcur, h3, hk, hpf]
        simp [frames_closing]
    · have hnone : popped_frames i (f :: g :: rest') = [] := by
        apply popped_frames_none
        intro x hx
        rcases List.mem_cons.mp hx with rfl | hx'
        · omega
        · have := stack_ok_below f (g :: rest') hok x hx'
          omega
      refine ⟨?_, ?_, ?_⟩
      · simp [kept_frames, hnone]
      · simp [kept_frames, hnone]
      · rw [pop_deeper, if_neg hlt]
        simp [kept_frames, hnone, frames_closing]

/-- C19: let the list stack be well formed, `top` its top frame, and the line indentation
`i` smaller than the indentation of `top`.  Then `parse_list` pops `popped_frames i`, the
frames whose `items_indentation` is greater than `i` without the bottom frame, which are the
topmost frames of the stack; it writes for each of them, top first, the closing item tag and
the closing list tag of its kind, then the closing and the opening item tag of the frame
that is on top afterwards; the stack afterwards is what was below the popped frames,
unchanged, and is not empty.  The cursor and the start of the pending span move on by one,
over the marker. -/
theorem deindent_pops_deeper_frames (a : args) (ordered : Bool) (top : list)
    (rest : List list) (hs : a.ongoing_lists = top :: rest) (hok : stack_ok a.ongoing_lists)
    (hlt : a.line_indentation < top.items_indentation) :
    popped_frames a.line_indentation a.ongoing_lists
        ++ kept_frames a.line_indentation a.ongoing_lists = a.ongoing_lists ∧
      kept_frames a.line_indentation a.ongoing_lists ≠ [] ∧
      parse_list a ordered = { a with
        ongoing_lists := kept_frames a.line_indentation a.ongoing_lists
        html_out := a.html_out
          ++ frames_closing a.tags (popped_frames a.line_indentation a.ongoing_lists)
          ++ next_item_tags a.tags (kept_frames a.line_indentation a.ongoing_lists)
        block_begin := a.block_begin + 1
        iterator := a.iterator + 1 } := by
  rw [hs] at hok ⊢
  obtain ⟨h1, h2, h3⟩ := pop_deeper_frames a.tags a.line_indentation rest top a.html_out hok
  refine ⟨h1, h2, ?_⟩
  unfold parse_list
  simp only [hs]
  rw [if_neg (by omega), if_pos hlt, h3]
  simp only
  cases hk : kept_frames a.line_indentation (top :: rest) with
  | nil => exact absurd hk h2
  | cons back kept => simp [next_item_tags, emit]

theorem deindent_pops_deeper_frames_witness :
    parse_list
        { initial [] default_tags with
          ongoing_lists := [⟨false, 4, 2⟩, ⟨true, 2, 2⟩, ⟨false, 0, 0⟩]
          line_indentation := 1 } true
      = { initial [] default_tags with
          ongoing_lists := [⟨false, 0, 0⟩]
          line_indentation := 1
          html_out := "</li></ul></li></ol></li><li>".toList
          block_begin := 1
          iterator := 1 } :=
  (deindent_pops_deeper_frames
    { initial [] default_tags with
      ongoing_lists := [⟨false, 4, 2⟩, ⟨true, 2, 2⟩, ⟨false, 0, 0⟩]
      line_indentation := 1 } true ⟨false, 4, 2⟩ [⟨true, 2, 2⟩, ⟨false, 0, 0⟩] rfl
    (by decide) (by decide)).2.2


/-! ## C18: the list stack stays well formed -/

theorem dump_block_lists (a b : args) (h : dump_block a = .ok b) :
    b.ongoing_lists = a.ongoing_lists := by
  unfold dump_block at h
  split at h
  · cases h
  · cases h; rfl

theorem dump_paragraph_lists (a : args) (c : Bool) :
    ∀ b, dump_paragraph a c = .ok b → b.ongoing_lists = a.ongoing_lists := by
  unfold dump_paragraph
  have h0 : (if (!a.paragraph_ended_with_space) = true then emit a [' '] else a).ongoing_lists
      = a.ongoing_lists := by
    split <;> rfl
  generalize (if (!a.paragraph_ended_with_space) = true then emit a [' '] else a) = a1 at h0 ⊢
  simp only
  split
  · split
    · intro b hb
      cases hb
      rw [← h0]
      unfold try_close_paragraph
      split <;> rfl
    · split
      · intro b hb; cases hb; exact h0
      · intro b hb; cases hb; exact h0
  · have h1 : (if (!a1.is_paragraph_open && decide (a1.ongoing_lists.length = 0)) = true
        then { emit a1 "<p>".toList with is_paragraph_open := true } else a1).ongoing_lists
        = a1.ongoing_lists := by
      split <;> rfl
    generalize (if (!a1.is_paragraph_open && decide (a1.ongoing_lists.length = 0)) = true
        then { emit a1 "<p>".toList with is_paragraph_open := true } else a1) = a2 at h1 ⊢
    split
    · intro b hb; cases hb
    · split
      · intro b hb; cases hb
      · rename_i a3 h3
        have l3 := dump_block_lists _ _ h3
        simp only at l3
        split
        · intro b hb
          cases hb
          exact l3.trans (h1.trans h0)
        · intro b hb
          cases hb
          exact l3.trans (h1.trans h0)

theorem pop_deeper_stack_ok (t : html_tags) (i : Nat) : ∀ (stack : List list) (cur : Nat)
    (out : List Char), stack_ok stack → stack_ok (pop_deeper t i cur stack out).1 := by
  intro stack
  induction stack with
  | nil => intro cur out h; simp only [pop_deeper]; exact h
  | cons f rest ih =>
    intro cur out h
    cases rest with
    | nil => simpa [pop_deeper] using h
    | cons g rest' =>
      rw [pop_deeper]
      split
      · exact ih _ _ h.2.2
      · exact h

theorem stack_ok_parse_list (a : args) (ordered : Bool) (h : stack_ok a.ongoing_lists) :
    stack_ok (parse_list a ordered).ongoing_lists := by
  unfold parse_list
  simp only
  split
  · rename_i hnil
    show stack_ok [⟨ordered, a.line_indentation, sub64 a.line_indentation 0⟩]
    show sub64 a.line_indentation 0 = a.line_indentation - 0
    exact sub64_of_le _ _ (Nat.zero_le _)
  · rename_i top rest hs
    rw [hs] at h
    split
    · rename_i hlt
      show stack_ok (⟨ordered, a.line_indentation,
        sub64 a.line_indentation top.items_indentation⟩ :: top :: rest)
      exact ⟨hlt, sub64_of_le _ _ (by omega), h⟩
    · split
      · have hp := pop_deeper_stack_ok a.tags a.line_indentation (top :: rest)
          top.items_indentation a.html_out h
        split
        · rename_i hk
          simp only
          rw [hk]
          trivial
        · rename_i back kept hk
          show stack_ok (pop_deeper a.tags a.line_indentation top.items_indentation
            (top :: rest) a.html_out).1
          exact hp
      · show stack_ok a.ongoing_lists
        rw [hs]; exact h

theorem stack_ok_parse_line_step (a : args) (c : Char) (f : Bool) (b : args) (ig : Bool)
    (h : parse_line_step a c f = .ok (b, ig)) (hok : stack_ok a.ongoing_lists) :
    stack_ok b.ongoing_lists := by
  unfold parse_line_step at h
  by_cases c1 : c = '\\'
  · rw [if_pos c1] at h
    split at h
    · cases h
    · rename_i a1 h1
      cases h
      have e1 := dump_paragraph_lists _ _ _ h1
      show stack_ok a1.ongoing_lists
      rw [e1]; exact hok
  rw [if_neg c1] at h
  by_cases c2 : c = '#' ∧ f = true
  · rw [if_pos c2] at h
    split at h
    · cases h
    · rename_i a1 h1
      split at h
      · cases h
      · rename_i a2 h2
        cases h
        have e1 := dump_paragraph_lists _ _ _ h1
        have e2 := (neutral_step_parse_heading _ _ h2).2.2.2.1
        rw [e2, e1]; exact hok
  rw [if_neg c2] at h
  by_cases c3 : (c = '+' ∨ c = '*') ∧ f = true
  · rw [if_pos c3] at h
    cases h; exact stack_ok_parse_list _ _ hok
  rw [if_neg c3] at h
  by_cases c4 : c = '*'
  · rw [if_pos c4] at h
    split at h
    · cases h
    · rename_i a1 h1
      split at h
      · cases h
      · rename_i a2 h2
        cases h
        have e1 := dump_paragraph_lists _ _ _ h1
        have e2 := (neutral_step_parse_asteriks _ _ h2).2.2.2.1
        rw [e2, e1]; exact hok
  rw [if_neg c4] at h
  by_cases c5 : c = '`'
  · rw [if_pos c5] at h
    simp only [count_char] at h
    split at h
    · split at h
      · cases h
      · rename_i a1 h1
        split at h
        · cases h
        · rename_i a2 h2
          cases h
          have e1 := dump_paragraph_lists _ _ _ h1
          have e2 := (neutral_step_parse_code_block _ _ h2).2.2.2.1
          simp only at e1 e2
          rw [e2, e1]; exact hok
    · split at h
      · cases h
      · rename_i a1 h1
        split at h
        · cases h
        · rename_i a2 h2
          cases h
          have e1 := dump_paragraph_lists _ _ _ h1
          have e2 := (neutral_step_parse_code _ _ _ h2).2.2.2.1
          simp only at e1 e2
          rw [e2, e1]; exact hok
  rw [if_neg c5] at h
  by_cases c6 : c = '~'
  · rw [if_pos c6] at h
    simp only [count_char] at h
    split at h
    · split at h
      · cases h
      · rename_i a1 h1
        split at h
        · cases h
        · rename_i a2 h2
          cases h
          have e1 := dump_paragraph_lists _ _ _ h1
          have e2 := (neutral_step_parse_strikethrough _ _ h2).2.2.2.1
          simp only at e1 e2
          rw [e2, e1]; exact hok
    · cases h; exact hok
  rw [if_neg c6] at h
  by_cases c7 : c = '-' ∧ f = true
  · rw [if_pos c7] at h
    simp only [count_char] at h
    split at h
    · split at h
      · cases h
      · rename_i a1 h1
        cases h
        have e1 := dump_paragraph_lists _ _ _ h1
        simp only at e1
        show stack_ok a1.ongoing_lists
        rw [e1]; exact hok
    · cases h
      exact stack_ok_parse_list _ _ hok
  rw [if_neg c7] at h
  split at h
  · cases h
  · split at h
    · cases h
    · rename_i it hit
      cases h
      exact stack_ok_parse_list _ _ hok
  · by_cases c8 : c = '['
    · rw [if_pos c8] at h
      split at h
      · cases h
      · rename_i a1 h1
        split at h
        · cases h
        · rename_i a2 h2
          cases h
          have e1 := dump_paragraph_lists _ _ _ h1
          have e2 := (neutral_step_parse_named_link _ _ h2).2.2.2.1
          rw [e2, e1]; exact hok
    rw [if_neg c8] at h
    by_cases c9 : c = '!'
    · rw [if_pos c9] at h
      split at h
      · cases h
      · rename_i a1 h1
        split at h
        · cases h
        · rename_i a2 h2
          cases h
          have e1 := dump_paragraph_lists _ _ _ h1
          have e2 := (neutral_step_parse_image _ _ h2).2.2.2.1
          rw [e2, e1]; exact hok
    rw [if_neg c9] at h
    cases h; exact hok

theorem stack_ok_parse_line_loop : ∀ (fuel : Nat) (a : args) (f ig : Bool) (sp : Nat)
    (b : args) (sp' : Nat), parse_line_loop fuel a f ig sp = .ok (b, sp') →
    stack_ok a.ongoing_lists → stack_ok b.ongoing_lists := by
  intro fuel
  induction fuel with
  | zero =>
    intro a f ig sp b sp' h hok
    rw [parse_line_loop] at h
    split at h
    · cases h; exact hok
    · split at h
      · cases h; exact hok
      · cases h
  | succ n ih =>
    intro a f ig sp b sp' h hok
    rw [parse_line_loop] at h
    split at h
    · cases h; exact hok
    · split at h
      · cases h; exact hok
      · simp only at h
        split at h
        · exact ih _ _ _ _ _ _ h hok
        · split at h
          · cases h
          · rename_i a1 ig1 h1
            exact ih _ _ _ _ _ _ h (stack_ok_parse_line_step _ _ _ _ _ h1 hok)

theorem open_blockquotes_lists (dashes : Nat) : ∀ (fuel : Nat) (a : args),
    (open_blockquotes dashes fuel a).ongoing_lists = a.ongoing_lists := by
  intro fuel
  induction fuel with
  | zero => intro a; rfl
  | succ f ih =>
    intro a
    unfold open_blockquotes
    split
    · exact ih _
    · rfl

theorem close_blockquotes_lists (dashes : Nat) : ∀ (fuel : Nat) (a : args),
    (close_blockquotes dashes fuel a).ongoing_lists = a.ongoing_lists := by
  intro fuel
  induction fuel with
  | zero => intro a; rfl
  | succ f ih =>
    intro a
    unfold close_blockquotes
    split
    · exact ih _
    · rfl

theorem parse_line_head_lists (a : args) :
    (parse_line_head a).ongoing_lists = a.ongoing_lists := by
  unfold parse_line_head
  simp only
  split
  · show (close_blockquotes _ _ _).ongoing_lists = a.ongoing_lists
    rw [close_blockquotes_lists, open_blockquotes_lists]
    rfl
  · rw [close_blockquotes_lists, open_blockquotes_lists]
    rfl

theorem stack_ok_parse_line_body (a b : args) (h : parse_line_body a = .ok b)
    (hok : stack_ok a.ongoing_lists) : stack_ok b.ongoing_lists := by
  unfold parse_line_body at h
  split at h
  · cases h
  · rename_i c hc
    split at h
    · cases h
      show stack_ok (try_close_paragraph a).ongoing_lists
      unfold try_close_paragraph
      split <;> exact hok
    · simp only at h
      split at h
      · cases h
      · rename_i a1 h1
        have e1 : stack_ok a1.ongoing_lists := by
          split at h1
          · split at h1
            · cases h1
            · split at h1
              · cases h1; trivial
              · cases h1; exact hok
          · cases h1; exact hok
        split at h
        · cases h
        · rename_i a2 sp h2
          have e2 := stack_ok_parse_line_loop _ _ _ _ _ _ _ h2 e1
          split at h
          · cases h
          · rename_i a3 h3
            cases h
            show stack_ok a3.ongoing_lists
            rw [dump_paragraph_lists _ _ _ h3]
            exact e2

theorem stack_ok_parse_line (a b : args) (h : parse_line a = .ok b)
    (hok : stack_ok a.ongoing_lists) : stack_ok b.ongoing_lists := by
  unfold parse_line at h
  exact stack_ok_parse_line_body _ _ h (by rw [parse_line_head_lists]; exact hok)

theorem stack_ok_after_lines : ∀ (n : Nat) (a b : args), after_lines n a = .ok b →
    stack_ok a.ongoing_lists → stack_ok b.ongoing_lists := by
  intro n
  induction n with
  | zero =>
    intro a b h hok
    rw [after_lines] at h
    cases h; exact hok
  | succ k ih =>
    intro a b h hok
    rw [after_lines] at h
    split at h
    · split at h
      · cases h
      · rename_i a1 h1
        exact ih _ _ h (stack_ok_parse_line _ _ h1 hok)
    · cases h; exact hok

/-- C18: the list stack of every parse state of a conversion is well formed (`stack_ok`):
from the bottom frame to the top frame `items_indentation` grows strictly, and
`indentation_diffrence` of each frame is its `items_indentation` minus that of the frame
below, minus 0 for the bottom frame.  This holds for the stack after any number `n` of
passes of the driver loop from the initial state, for every document and tag configuration;
`parse_list` keeps a well-formed stack well formed, whatever the parse context, and
`close_all_lists` leaves the empty stack. -/
theorem list_stack_well_formed (md : List Char) (tags : html_tags) (n : Nat)
    (stack : List list) (a : args) (ordered : Bool)
    (h : lists_of (after_lines n (initial md tags)) = .ok stack)
    (ha : stack_ok a.ongoing_lists) :
    stack_ok stack ∧ stack_ok (parse_list a ordered).ongoing_lists ∧
      stack_ok (close_all_lists a).ongoing_lists := by
  refine ⟨?_, stack_ok_parse_list a ordered ha, trivial⟩
  unfold lists_of at h
  split at h
  · cases h
  · rename_i b hb
    cases h
    exact stack_ok_after_lines n _ b hb trivial

theorem list_stack_well_formed_witness :
    stack_ok [(⟨false, 4, 2⟩ : list), ⟨false, 2, 2⟩, ⟨false, 0, 0⟩] ∧
    stack_ok (parse_list
      { initial [] default_tags with
        ongoing_lists := [⟨false, 2, 2⟩, ⟨false, 0, 0⟩], line_indentation := 5 }
      true).ongoing_lists ∧
    stack_ok (close_all_lists
      { initial [] default_tags with
        ongoing_lists := [⟨false, 2, 2⟩, ⟨false, 0, 0⟩], line_indentation := 5 }).ongoing_lists :=
  list_stack_well_formed "- a\n  - b\n    - c\n".toList default_tags 3
    [⟨false, 4, 2⟩, ⟨false, 2, 2⟩, ⟨false, 0, 0⟩]
    { initial [] default_tags with
      ongoing_lists := [⟨false, 2, 2⟩, ⟨false, 0, 0⟩], line_indentation := 5 }
    true (by decide!) (by decide)


/-! ## C16: the highlighting callback -/

theorem run_free_split (c : Char) (n : Nat) (s u v : List Char) (h : run_free c n s)
    (hs : s = u ++ (List.replicate n c ++ v)) : u.getLast? = some c ∨ v.head? = some c := by
  have h2 := h.2 u.length (by rw [hs]; simp; omega) (by rw [hs]; simp)
  rcases h2 with ⟨hpos, hc⟩ | hc
  · left
    rw [List.getLast?_eq_getElem?]
    rw [hs, List.getElem?_append_left (by omega)] at hc
    exact hc
  · right
    rw [hs] at hc
    have : (u ++ (List.replicate n c ++ v))[u.length + n]? = v.head? := by
      rw [← List.append_assoc]
      rw [List.getElem?_append_right (by simp)]
      simp
      cases v <;> simp
    rw [this] at hc
    exact hc

theorem run_free_of_not_mem (c : Char) (n : Nat) (s : List Char) (hn : 1 ≤ n)
    (h : ∀ x ∈ s, x ≠ c) : run_free c n s := by
  constructor
  · intro hl
    exact h c (List.mem_of_getLast?_eq_some hl) rfl
  · intro i hi heq
    exfalso
    obtain ⟨m, rfl⟩ : ∃ m, n = m + 1 := ⟨n - 1, by omega⟩
    have hmem : c ∈ (s.drop i).take (m + 1) := by rw [heq]; simp [List.replicate_succ]
    exact h c (List.mem_of_mem_drop (List.mem_of_mem_take hmem)) rfl

theorem leading_run (c : Char) : ∀ (s : List Char), ∃ k rest,
    s = List.replicate k c ++ rest ∧ ∀ y, rest.head? = some y → y ≠ c := by
  intro s
  induction s with
  | nil => exact ⟨0, [], rfl, fun y hy => by cases hy⟩
  | cons x s ih =>
    by_cases hx : x = c
    · obtain ⟨k, rest, hs, hr⟩ := ih
      exact ⟨k + 1, rest, by rw [hs, hx]; rfl, hr⟩
    · exact ⟨0, x :: s, rfl, fun y hy => by cases hy; exact hx⟩

theorem find_run_first (md : List Char) (c : Char) (n : Nat) (hn : 1 ≤ n) :
    ∀ (fuel : Nat) (body pre post : List Char),
      md = pre ++ (body ++ (List.replicate n c ++ post)) →
      body.getLast? ≠ some c →
      (∀ u v, body = u ++ (List.replicate n c ++ v) →
        u.getLast? = some c ∨ v.head? = some c) →
      (∀ x, post.head? = some x → x ≠ c) → body.length < fuel →
      find_run md c n fuel pre.length = pre.length + body.length + n := by
  intro fuel
  induction fuel with
  | zero => intro body pre post _ _ _ _ hf; omega
  | succ f ih =>
    intro body pre post hmd hlast hfree hpost hf
    have key : ∀ (d s : List Char), body = d ++ s → d ≠ [] → d.getLast? ≠ some c →
        find_run md c n f (pre.length + d.length) = pre.length + body.length + n := by
      intro d s hb hd hdl
      have hdpos : 0 < d.length := List.length_pos.mpr hd
      have := ih s (pre ++ d) post (by rw [hmd, hb]; simp)
        (by
          intro hsl
          apply hlast
          rw [hb]
          cases s with
          | nil => cases hsl
          | cons y s' => rw [List.getLast?_append_of_ne_nil _ (by simp)]; exact hsl)
        (by
          intro u v huv
          have := hfree (d ++ u) v (by rw [hb, huv]; simp)
          rcases this with h1 | h1
          · cases u with
            | nil =>
              rw [List.append_nil] at h1
              exact absurd h1 hdl
            | cons y u' =>
              left
              rw [List.getLast?_append_of_ne_nil _ (by simp)] at h1
              exact h1
          · exact Or.inr h1)
        hpost (by rw [hb] at hf; simp at hf; omega)
      simp only [List.length_append] at this
      rw [this, hb]
      simp only [List.length_append]
      omega
    obtain ⟨k, rest, hk, hrest⟩ := leading_run c body
    have hlt : pre.length < md.length := by
      rw [hmd]; simp; omega
    cases k with
    | zero =>
      simp only [List.replicate_zero, List.nil_append] at hk
      subst hk
      cases body with
      | nil =>
        obtain ⟨m, rfl⟩ : ∃ m, n = m + 1 := ⟨n - 1, by omega⟩
        have h0 : md[pre.length]? = some c :=
          getElem?_split md pre (List.replicate m c ++ post) c _
            (by simp [hmd, List.replicate_succ]) rfl
        have hs := scan_run (fun x => decide (x = c)) md pre (List.replicate (m + 1) c) post
          pre.length (by simpa using hmd) rfl (fun x hx => by simp [List.eq_of_mem_replicate hx])
          (fun x hx => by simpa using hpost x hx)
        simp only [List.length_replicate] at hs
        rw [find_run]
        simp [hlt, h0, hs, sub64]
      | cons x body1 =>
        have hx : x ≠ c := hrest x rfl
        have h0 : md[pre.length]? = some x :=
          getElem?_split md pre (body1 ++ (List.replicate n c ++ post)) x _
            (by simpa using hmd) rfl
        rw [find_run]
        simp only [hlt, if_true, h0, Option.some.injEq, hx, if_false]
        have := key [x] body1 rfl (by simp) (by simp [hx])
        simpa using this
    | succ k =>
      cases rest with
      | nil =>
        exfalso
        apply hlast
        rw [hk]
        simp [List.getLast?_replicate]
      | cons y rest' =>
        have hy : y ≠ c := hrest y rfl
        have h0 : md[pre.length]? = some c :=
          getElem?_split md pre
            (List.replicate k c ++ (y :: rest' ++ (List.replicate n c ++ post))) c _
            (by rw [hmd, hk]; simp [List.replicate_succ]) rfl
        have hs := scan_run (fun x => decide (x = c)) md pre (List.replicate (k + 1) c)
          (y :: rest' ++ (List.replicate n c ++ post))
          pre.length (by rw [hmd, hk]; simp) rfl
          (fun x hx => by simp [List.eq_of_mem_replicate hx])
          (fun x hx => by simp at hx; subst hx; simpa using hy)
        simp only [List.length_replicate] at hs
        have hkn : k + 1 ≠ n := by
          intro hkn
          have := hfree [] (y :: rest') (by rw [hk, hkn]; rfl)
          rcases this with h1 | h1
          · cases h1
          · simp only [List.head?_cons, Option.some.injEq] at h1
            exact hy h1
        rw [find_run]
        simp only [hlt, if_true, h0, hs]
        rw [sub64_of_le _ _ (by omega)]
        have e : pre.length + (k + 1) - pre.length = k + 1 := by omega
        rw [e, if_neg hkn]
        have := key (List.replicate (k + 1) c ++ [y]) rest' (by rw [hk]; simp) (by simp)
          (by rw [List.getLast?_concat]; simpa using hy)
        simp only [List.length_append, List.length_replicate, List.length_singleton] at this
        rw [← this, Nat.add_assoc]

theorem find_run_fence (md body pre post : List Char)
    (hmd : md = pre ++ (body ++ (List.replicate 3 '`' ++ post)))
    (hbody : run_free '`' 3 body) (hpost : ∀ x, post.head? = some x → x ≠ '`') :
    find_run md '`' 3 (md.length - pre.length) pre.length = pre.length + body.length + 3 :=
  find_run_first md '`' 3 (by decide) _ body pre post hmd hbody.1
    (fun u v huv => run_free_split '`' 3 body u v hbody huv) hpost
    (by rw [hmd]; simp)

theorem get_indentation_blanks (a : args) (pre ws post : List Char)
    (hmd : a.markdown = pre ++ (ws ++ post)) (hit : a.iterator = pre.length)
    (hws : ∀ x ∈ ws, x = ' ' ∨ x = '\t')
    (hpost : ∀ c, post.head? = some c → c ≠ ' ' ∧ c ≠ '\t') :
    (get_indentation a).2 = { a with iterator := pre.length + ws.length } := by
  have := get_indentation_loop_cursor a.markdown ws pre post (a.markdown.length - a.iterator) 0
    hmd hws hpost (by rw [hmd, hit]; simp)
  rw [hit] at this
  simp only [get_indentation, hit, this]

theorem parse_code_block_fenced (a : args) (pre w1 L w2 body post : List Char)
    (hmd : a.markdown = pre ++ (w1 ++ (L ++ (w2 ++ '\n' :: (body
      ++ (List.replicate 3 '`' ++ post))))))
    (hit : a.iterator = pre.length)
    (hw1 : ∀ x ∈ w1, x = ' ' ∨ x = '\t') (hw2 : ∀ x ∈ w2, x = ' ' ∨ x = '\t')
    (hL : ∀ x ∈ L, x ≠ ' ' ∧ x ≠ '\n' ∧ x ≠ '\t') (hLw : L = [] → w2 = [])
    (hbody : run_free '`' 3 body) (hpost : ∀ x, post.head? = some x → x ≠ '`') :
    parse_code_block a = .ok { a with
      html_out := a.html_out ++ a.tags.code_block_tags.1
        ++ code_block_body a L body (pre.length + w1.length + L.length + w2.length + 1)
          (pre.length + w1.length + L.length + w2.length + 1 + body.length)
        ++ a.tags.code_block_tags.2
      iterator := pre.length + w1.length + L.length + w2.length + 1 + body.length + 3
      block_begin := pre.length + w1.length + L.length + w2.length + 1 + body.length + 3 } := by
  have hlen : a.markdown.length = pre.length + w1.length + L.length + w2.length + 1
      + body.length + 3 + post.length := by
    rw [hmd]; simp; omega
  have e1 : scan (fun x => decide (x = ' ') || decide (x = '\t')) a.markdown pre.length
      = pre.length + w1.length :=
    scan_run _ _ pre w1 (L ++ (w2 ++ '\n' :: (body ++ (List.replicate 3 '`' ++ post)))) _
      hmd rfl (fun x hx => by rcases hw1 x hx with h | h <;> simp [h])
      (fun x hx => by
        cases L with
        | nil =>
          rw [hLw rfl] at hx
          simp at hx; subst hx; decide
        | cons y L' =>
          simp only [List.cons_append, List.head?_cons, Option.some.injEq] at hx
          rw [← hx]
          have := hL y (by simp)
          simp [this.1, this.2.2])
  have e2 : language_loop a.markdown (a.markdown.length - (pre.length + w1.length) + 1)
      (pre.length + w1.length) = .ok (pre.length + w1.length + L.length) := by
    cases w2 with
    | nil =>
      have := language_loop_run a.markdown L (pre ++ w1)
        (body ++ (List.replicate 3 '`' ++ post))
        (a.markdown.length - (pre.length + w1.length) + 1) '\n' (by simp [hmd]) hL
        (by simp) (by omega)
      simpa using this
    | cons w w2' =>
      have := language_loop_run a.markdown L (pre ++ w1)
        (w2' ++ '\n' :: (body ++ (List.replicate 3 '`' ++ post)))
        (a.markdown.length - (pre.length + w1.length) + 1) w (by simp [hmd]) hL
        (by rcases hw2 w (by simp) with h | h <;> simp [h]) (by omega)
      simpa using this
  have e3 : substr a.markdown (pre.length + w1.length)
      (sub64 (pre.length + w1.length + L.length) (pre.length + w1.length)) = .ok L :=
    substr_eq _ (pre ++ w1) L (w2 ++ '\n' :: (body ++ (List.replicate 3 '`' ++ post))) _ _
      (by simp [hmd]) (by simp; try omega) (by rw [sub64_of_le _ _ (by omega)]; omega)
  have e4 : (get_indentation { a with
      iterator := pre.length + w1.length + L.length, block_begin := pre.length + w1.length }).2
      = { a with
        iterator := pre.length + w1.length + L.length + w2.length
        block_begin := pre.length + w1.length } := by
    have := get_indentation_blanks { a with
      iterator := pre.length + w1.length + L.length, block_begin := pre.length + w1.length }
      (pre ++ w1 ++ L) w2 ('\n' :: (body ++ (List.replicate 3 '`' ++ post)))
      (by simp [hmd]) (by simp; try omega) hw2 (fun c hc => by cases hc; decide)
    simp only [List.length_append] at this
    exact this
  have e5 : a.markdown[pre.length + w1.length + L.length + w2.length]? = some '\n' :=
    getElem?_split _ (pre ++ w1 ++ L ++ w2) (body ++ (List.replicate 3 '`' ++ post)) '\n' _
      (by simp [hmd]) (by simp; try omega)
  have e6 : find_run a.markdown '`' 3
      (a.markdown.length - (pre.length + w1.length + L.length + w2.length + 1))
      (pre.length + w1.length + L.length + w2.length + 1)
      = pre.length + w1.length + L.length + w2.length + 1 + body.length + 3 := by
    have := find_run_fence a.markdown body (pre ++ w1 ++ L ++ w2 ++ ['\n']) post
      (by simp [hmd]) hbody hpost
    simp only [List.length_append, List.length_singleton] at this
    exact this
  have e7 : sub64 (pre.length + w1.length + L.length + w2.length + 1 + body.length + 3) 3
      = pre.length + w1.length + L.length + w2.length + 1 + body.length := by
    rw [sub64_of_le _ _ (by omega)]; omega
  have e8 : substr a.markdown (pre.length + w1.length + L.length + w2.length + 1)
      (sub64 (pre.length + w1.length + L.length + w2.length + 1 + body.length)
        (pre.length + w1.length + L.length + w2.length + 1)) = .ok body :=
    substr_eq _ (pre ++ w1 ++ L ++ w2 ++ ['\n']) body (List.replicate 3 '`' ++ post) _ _
      (by simp [hmd]) (by simp; try omega) (by rw [sub64_of_le _ _ (by omega)]; omega)
  unfold parse_code_block
  simp only [hit, e1, e2, e3, e4, char_at, e5, if_true, e6, emit, dump_block,
    code_block_body, e7]
  cases hcb : a.tags.syntax_highlighting with
  | none => simp [e8]
  | some h => simp

theorem fenced_document_conversion (tags : html_tags) (w1 L w2 body : List Char)
    (hw1 : ∀ x ∈ w1, x = ' ' ∨ x = '\t') (hw2 : ∀ x ∈ w2, x = ' ' ∨ x = '\t')
    (hL : ∀ x ∈ L, x ≠ ' ' ∧ x ≠ '\n' ∧ x ≠ '\t' ∧ x ≠ '`') (hLw : L = [] → w2 = [])
    (hbody : run_free '`' 3 body) :
    markdown_to_html ("```".toList ++ w1 ++ L ++ w2 ++ "\n".toList ++ body ++ "```\n".toList)
        tags =
      .ok (" ".toList ++ tags.code_block_tags.1
        ++ code_block_body
          (initial ("```".toList ++ w1 ++ L ++ w2 ++ "\n".toList ++ body ++ "```\n".toList)
            tags)
          L body (3 + w1.length + L.length + w2.length + 1)
          (3 + w1.length + L.length + w2.length + 1 + body.length)
        ++ tags.code_block_tags.2 ++ " <p></p>".toList) := by
  obtain ⟨md, hmd⟩ : ∃ md,
      md = "```".toList ++ w1 ++ L ++ w2 ++ "\n".toList ++ body ++ "```\n".toList := ⟨_, rfl⟩
  have hmd' : md = List.replicate 3 '`' ++ (w1 ++ (L ++ (w2 ++ '\n' :: (body
      ++ (List.replicate 3 '`' ++ ['\n']))))) := by
    rw [hmd]; simp [List.replicate]
  obtain ⟨q, hq⟩ : ∃ q, q = 3 + w1.length + L.length + w2.length + 1 + body.length + 3 :=
    ⟨_, rfl⟩
  have hlen : md.length = q + 1 := by rw [hmd', hq]; simp; omega
  have h0 : md[0]? = some '`' := by rw [hmd']; simp [List.replicate]
  have hq1 : md[q]? = some '\n' :=
    getElem?_split md (List.replicate 3 '`' ++ (w1 ++ (L ++ (w2 ++ '\n' :: (body
      ++ List.replicate 3 '`'))))) [] '\n' q (by simp [hmd']) (by simp [hq]; omega)
  have hhead : ∀ x, (w1 ++ (L ++ (w2 ++ '\n' :: (body
      ++ (List.replicate 3 '`' ++ ['\n']))))).head? = some x → x ≠ '`' := by
    intro x hx
    cases w1 with
    | cons y w1' =>
      simp only [List.cons_append, List.head?_cons, Option.some.injEq] at hx
      rw [← hx]
      rcases hw1 y (by simp) with h | h <;> rw [h] <;> decide
    | nil =>
      cases L with
      | cons y L' =>
        simp only [List.nil_append, List.cons_append, List.head?_cons, Option.some.injEq] at hx
        rw [← hx]
        exact (hL y (by simp)).2.2.2
      | nil =>
        rw [hLw rfl] at hx
        simp only [List.nil_append, List.head?_cons, Option.some.injEq] at hx
        rw [← hx]; decide
  have hc : count_char '`' { html_out := [], markdown := md, tags := tags, iterator := 0, block_begin := 0, line_indentation := 0 }
      = (3, { html_out := [], markdown := md, tags := tags, iterator := 0 + 3, block_begin := 0, line_indentation := 0 }) :=
    count_char_run '`' _ [] (w1 ++ (L ++ (w2 ++ '\n' :: (body
      ++ (List.replicate 3 '`' ++ ['\n']))))) 3 (by simp [hmd']) rfl hhead
  rw [← hmd]
  unfold markdown_to_html
  rw [parse_lines_step _ _ (by simp; omega) (by omega)]
  simp only [parse_line]
  rw [parse_line_head_plain _ '`' h0 (by decide) (by decide) (by decide) rfl]
  simp only [parse_line_body, char_at, h0]
  simp only [Char.reduceEq, if_false, iter_good, List.length_nil, ne_eq, not_true_eq_false,
    decide_False, Bool.and_false, Bool.false_and, Bool.false_eq_true]
  rw [parse_line_loop_step _ _ '`' _ _ h0 (by decide) (by simp; omega)]
  simp only [parse_line_step, Char.reduceEq, if_false, and_self, if_true, true_and, false_and,
    or_self, hc, Nat.reduceMod, sub64, Nat.zero_add, Nat.le_refl, Nat.sub_self]
  simp only [dump_paragraph, try_close_paragraph, emit, Bool.not_false, if_true,
    Bool.false_eq_true, if_false, List.nil_append]
  rw [parse_code_block_fenced _ (List.replicate 3 '`') w1 L w2 body ['\n']
    (by simp [hmd']) (by simp) hw1 hw2
    (fun x hx => ⟨(hL x hx).1, (hL x hx).2.1, (hL x hx).2.2.1⟩) hLw hbody (by simp)]
  simp only [List.length_replicate]
  rw [parse_line_loop_end _ _ _ _ _ (Or.inr (by simpa [hq] using hq1))]
  simp [dump_paragraph, emit, parse_lines_done, hlen, hq, finish, try_close_paragraph,
    close_all_lists, close_all_lists_loop, close_blockquotes, code_block_body, initial]

/-! ### The fence at the start of a line -/

theorem close_all_lists_loop_eq (t : html_tags) : ∀ (stack : List list) (out : List Char),
    close_all_lists_loop t stack out = out ++ frames_closing t stack := by
  intro stack
  induction stack with
  | nil => intro out; simp [close_all_lists_loop, frames_closing]
  | cons f rest ih =>
    intro out
    rw [close_all_lists_loop, ih]
    simp [frames_closing]

theorem parse_line_head_fence (a : args) (c : Char)
    (hc : a.markdown[a.iterator]? = some c) (h1 : c ≠ ' ') (h2 : c ≠ '\t') (h3 : c ≠ '>') :
    parse_line_head a = { a with
      line_indentation := 0
      html_out := a.html_out ++ repeated a.blockquote_level a.tags.blockquote_tags.2
      blockquote_level := 0 } := by
  have e1 : get_indentation a = (0, a) :=
    get_indentation_stop a (fun x hx => by rw [hc] at hx; cases hx; exact ⟨h1, h2⟩)
  have e2 : count_char '>' { a with line_indentation := 0 } = (0, { a with line_indentation := 0 }) :=
    count_char_stop _ _ (fun x hx => by simp only [hc] at hx; cases hx; exact h3)
  simp only [parse_line_head, e1, e2]
  simp only [open_blockquotes, ne_eq, not_true_eq_false, if_false]
  rw [close_blockquotes_spec 0 _ _ (by simp)]
  simp

theorem parse_line_body_fence (a : args) (h0 : a.markdown[a.iterator]? = some '`') :
    parse_line_body a =
      match parse_line_loop (a.markdown.length - a.iterator)
        { a with
          html_out := a.html_out ++ frames_closing a.tags a.ongoing_lists
          ongoing_lists := []
          block_begin := a.iterator } true false 0 with
      | .error e => .error e
      | .ok (a, spaces) =>
        match dump_paragraph a (decide (spaces ≥ 2)) with
        | .error e => .error e
        | .ok a => .ok { a with iterator := a.iterator + 1 } := by
  have hg : iter_good a = true := by
    unfold iter_good
    simp only [decide_eq_true_eq]
    by_contra hlt
    simp only [not_lt] at hlt
    have : a.markdown[a.iterator]? = none := List.getElem?_eq_none_iff.mpr hlt
    rw [this] at h0
    cases h0
  rw [parse_line_body]
  simp only [char_at, h0]
  rw [if_neg (by decide), is_ordered_list_element_nondigit a '`' h0 (by decide), hg]
  obtain ⟨out, md, tags, it, bb, li, bq, po, sp, ls⟩ := a
  cases ls with
  | nil => simp [frames_closing]
  | cons f rest => simp [close_all_lists, close_all_lists_loop_eq]

theorem parse_line_step_fence (a : args) (h : syntax_highlighting_callback)
    (pre w1 L w2 body post : List Char) (f : Bool)
    (hcb : a.tags.syntax_highlighting = some h)
    (hmd : a.markdown = pre ++ ("```".toList ++ (w1 ++ (L ++ (w2 ++ '\n' :: (body
      ++ ("```".toList ++ post)))))))
    (hit : a.iterator = pre.length) (hbb : a.block_begin = pre.length)
    (hw1 : ∀ x ∈ w1, x = ' ' ∨ x = '\t') (hw2 : ∀ x ∈ w2, x = ' ' ∨ x = '\t')
    (hL : ∀ x ∈ L, x ≠ ' ' ∧ x ≠ '\n' ∧ x ≠ '\t' ∧ x ≠ '`') (hLw : L = [] → w2 = [])
    (hbody : run_free '`' 3 body) (hpost : ∀ x, post.head? = some x → x ≠ '`') :
    parse_line_step a '`' f = .ok ({ a with
      html_out := a.html_out ++ joining_space a
        ++ (if a.is_paragraph_open then "</p>".toList else [])
        ++ a.tags.code_block_tags.1
        ++ h L a.markdown (pre.length + 3 + w1.length + L.length + w2.length + 1)
          (pre.length + 3 + w1.length + L.length + w2.length + 1 + body.length)
        ++ a.tags.code_block_tags.2
      is_paragraph_open := false
      iterator := pre.length + 3 + w1.length + L.length + w2.length + 1 + body.length + 3
      block_begin := pre.length + 3 + w1.length + L.length + w2.length + 1 + body.length + 3 },
      false) := by
  have hmd' : a.markdown = pre ++ (List.replicate 3 '`' ++ (w1 ++ (L ++ (w2 ++ '\n' :: (body
      ++ (List.replicate 3 '`' ++ post)))))) := by
    rw [hmd]; simp [List.replicate]
  have hhead : ∀ x, (w1 ++ (L ++ (w2 ++ '\n' :: (body
      ++ (List.replicate 3 '`' ++ post))))).head? = some x → x ≠ '`' := by
    intro x hx
    cases w1 with
    | cons y w1' =>
      simp only [List.cons_append, List.head?_cons, Option.some.injEq] at hx
      rw [← hx]
      rcases hw1 y (by simp) with h | h <;> rw [h] <;> decide
    | nil =>
      cases L with
      | cons y L' =>
        simp only [List.nil_append, List.cons_append, List.head?_cons, Option.some.injEq] at hx
        rw [← hx]
        exact (hL y (by simp)).2.2.2
      | nil =>
        rw [hLw rfl] at hx
        simp only [List.nil_append, List.head?_cons, Option.some.injEq] at hx
        rw [← hx]; decide
  have hc := count_char_run '`' a pre _ 3 hmd' hit hhead
  obtain ⟨out, md, tags, it, bb, li, bq, po, sp, ls⟩ := a
  simp only at hcb hmd hit hbb hmd' hc
  subst hit
  subst hbb
  have e3 : sub64 (pre.length + 3) 3 = pre.length := by
    rw [sub64_of_le _ _ (by omega)]; omega
  simp only [parse_line_step, Char.reduceEq, if_false, false_and, or_self, if_true, hc,
    Nat.reduceMod, e3]
  rw [dump_paragraph_empty _ true rfl]
  simp only [flush, if_true]
  rw [parse_code_block_fenced _ (pre ++ List.replicate 3 '`') w1 L w2 body post
    (by simp [hmd']) (by simp) hw1 hw2
    (fun x hx => ⟨(hL x hx).1, (hL x hx).2.1, (hL x hx).2.2.1⟩) hLw hbody hpost]
  simp [code_block_body, hcb]

theorem parse_line_fence (b : args) (h : syntax_highlighting_callback)
    (pre w1 L w2 body post : List Char)
    (hcb : b.tags.syntax_highlighting = some h)
    (hmd : b.markdown = pre ++ ("```".toList ++ (w1 ++ (L ++ (w2 ++ '\n' :: (body
      ++ ("```".toList ++ post)))))))
    (hit : b.iterator = pre.length)
    (hw1 : ∀ x ∈ w1, x = ' ' ∨ x = '\t') (hw2 : ∀ x ∈ w2, x = ' ' ∨ x = '\t')
    (hL : ∀ x ∈ L, x ≠ ' ' ∧ x ≠ '\n' ∧ x ≠ '\t' ∧ x ≠ '`') (hLw : L = [] → w2 = [])
    (hbody : run_free '`' 3 body) (hpost : ∀ x, post.head? = some x → x ≠ '`')
    (c : args) (hc : parse_line b = .ok c) :
    ∃ rest, c.html_out = b.html_out ++ repeated b.blockquote_level b.tags.blockquote_tags.2
      ++ frames_closing b.tags b.ongoing_lists ++ joining_space b
      ++ (if b.is_paragraph_open then "</p>".toList else [])
      ++ b.tags.code_block_tags.1
      ++ h L b.markdown (pre.length + 3 + w1.length + L.length + w2.length + 1)
        (pre.length + 3 + w1.length + L.length + w2.length + 1 + body.length)
      ++ b.tags.code_block_tags.2 ++ rest := by
  have h0 : b.markdown[b.iterator]? = some '`' :=
    getElem?_split _ pre _ '`' _ (by rw [hmd]; rfl) hit
  have hlt : b.iterator < b.markdown.length := by
    rw [hmd, hit]; simp
  unfold parse_line at hc
  rw [parse_line_head_fence b '`' h0 (by decide) (by decide) (by decide)] at hc
  rw [parse_line_body_fence _ (by exact h0)] at hc
  rw [parse_line_loop_step _ _ '`' _ _ (by exact h0) (by decide) (by simp only; omega)] at hc
  rw [parse_line_step_fence _ h pre w1 L w2 body post true (by exact hcb) (by exact hmd)
    (by exact hit) (by exact hit) hw1 hw2 hL hLw hbody hpost] at hc
  simp only at hc
  split at hc
  · cases hc
  · rename_i a4 sp4 heq
    split at hc
    · cases hc
    · rename_i a5 h5
      injection hc with hc
      obtain ⟨Y1, hY1⟩ := (body_step_parse_line_loop _ _ _ _ _ a4 sp4 heq).1.2.2.1
      obtain ⟨Y2, hY2⟩ := (step_ok_dump_paragraph a4 a5 _ h5).1.2.2.1
      refine ⟨Y1 ++ Y2, ?_⟩
      rw [← hc]
      simp only
      rw [← hY2, ← hY1]
      simp [joining_space]

theorem step_ok_after_lines : ∀ (n : Nat) (a b : args), after_lines n a = .ok b →
    step_ok a b := by
  intro n
  induction n with
  | zero => intro a b h; cases h; exact step_ok_refl a
  | succ n ih =>
    intro a b h
    rw [after_lines] at h
    split at h
    · split at h
      · cases h
      · rename_i a1 h1
        exact step_ok_trans (step_ok_parse_line _ _ h1) (ih _ _ h)
    · cases h; exact step_ok_refl a

theorem parse_lines_after_lines : ∀ (n : Nat) (a b : args), after_lines n a = .ok b →
    ∀ (fuel : Nat) (z : args), parse_lines fuel a = .ok z →
      ∃ fuel1, parse_lines fuel1 b = .ok z := by
  intro n
  induction n with
  | zero => intro a b h fuel z hz; cases h; exact ⟨fuel, hz⟩
  | succ n ih =>
    intro a b h fuel z hz
    rw [after_lines] at h
    split at h
    · rename_i hlt
      split at h
      · cases h
      · rename_i a1 h1
        cases fuel with
        | zero => rw [parse_lines_zero a hlt] at hz; cases hz
        | succ f =>
          rw [parse_lines_succ _ a hlt, h1] at hz
          exact ih _ _ h f z hz
    · cases h; exact ⟨fuel, hz⟩

theorem fence_line_conversion (md : List Char) (tags : html_tags)
    (h : syntax_highlighting_callback) (pre w1 L w2 body post : List Char)
    (hcb : tags.syntax_highlighting = some h)
    (hmd : md = pre ++ ("```".toList ++ (w1 ++ (L ++ (w2 ++ '\n' :: (body
      ++ ("```".toList ++ post)))))))
    (hw1 : ∀ x ∈ w1, x = ' ' ∨ x = '\t') (hw2 : ∀ x ∈ w2, x = ' ' ∨ x = '\t')
    (hL : ∀ x ∈ L, x ≠ ' ' ∧ x ≠ '\n' ∧ x ≠ '\t' ∧ x ≠ '`') (hLw : L = [] → w2 = [])
    (hbody : run_free '`' 3 body) (hpost : ∀ x, post.head? = some x → x ≠ '`')
    (n : Nat) (out : List Char)
    (hcur : cursor_of (after_lines n (initial md tags)) = .ok pre.length)
    (hout : markdown_to_html md tags = .ok out) :
    ∃ b rest, after_lines n (initial md tags) = .ok b ∧
      out = b.html_out ++ repeated b.blockquote_level tags.blockquote_tags.2
        ++ frames_closing tags b.ongoing_lists ++ joining_space b
        ++ (if b.is_paragraph_open then "</p>".toList else [])
        ++ tags.code_block_tags.1
        ++ h L md (pre.length + 3 + w1.length + L.length + w2.length + 1)
          (pre.length + 3 + w1.length + L.length + w2.length + 1 + body.length)
        ++ tags.code_block_tags.2 ++ rest := by
  cases hb : after_lines n (initial md tags) with
  | error e => rw [hb] at hcur; cases hcur
  | ok b =>
    rw [hb] at hcur
    simp only [cursor_of, Except.ok.injEq] at hcur
    obtain ⟨bmd, btags, _, _⟩ := step_ok_after_lines n _ b hb
    simp only [initial] at bmd btags
    unfold markdown_to_html at hout
    split at hout
    · cases hout
    · rename_i z hz
      injection hout with hout
      obtain ⟨f1, hf1⟩ := parse_lines_after_lines n _ b hb _ z hz
      have hlt : b.iterator < b.markdown.length := by
        rw [bmd, hmd, hcur]; simp
      cases f1 with
      | zero => rw [parse_lines_zero b hlt] at hf1; cases hf1
      | succ f =>
        rw [parse_lines_succ _ b hlt] at hf1
        split at hf1
        · cases hf1
        · rename_i c hc
          obtain ⟨r1, hr1⟩ := parse_line_fence b h pre w1 L w2 body post (by rw [btags]; exact hcb)
            (by rw [bmd]; exact hmd) hcur hw1 hw2 hL hLw hbody hpost c hc
          obtain ⟨r2, hr2⟩ := (step_ok_parse_lines _ _ _ hf1).2.2.1
          obtain ⟨r3, hr3⟩ := (step_ok_finish z).2.2.1
          refine ⟨b, r1 ++ r2 ++ r3, rfl, ?_⟩
          rw [← hout, ← hr3, ← hr2, hr1, btags, bmd]
          simp

/-- C16 (counterexample): the document "x `\n```py\nab\n```\n" holds, after a line with one
unclosed backtick, a terminated fenced block with the language token `py` whose body `ab\n`
occupies the offsets 10 to 13.  With a callback in the tag configuration the text the claim
promises is `<pre><code>py\nba</code></pre>`, yet the conversion returns the fences and the
raw body as paragraph text, with no code-block tag and no value of the callback.  The single
backtick starts `parse_code`, whose search for a closing run of one backtick passes over
both fences and ends at the end of the document, so `parse_code_block` is never entered. -/
theorem fence_after_open_backtick_is_text :
    markdown_to_html "x `\n```py\nab\n```\n".toList example_callback_tags
      = .ok " <p>x \n```py\nab\n```\n</p>".toList ∧
    "x `\n```py\nab\n```\n".toList = "x `\n".toList ++ ("```".toList ++ ("py".toList
      ++ ('\n' :: ("ab\n".toList ++ ("```".toList ++ "\n".toList))))) ∧
    substr "x `\n```py\nab\n```\n".toList 10 (13 - 10) = .ok "ab\n".toList ∧
    example_callback_tags.syntax_highlighting.map
        (fun h => example_callback_tags.code_block_tags.1
          ++ h "py".toList "x `\n```py\nab\n```\n".toList 10 13
          ++ example_callback_tags.code_block_tags.2)
      = some "<pre><code>py\nba</code></pre>".toList ∧
    ¬ (example_callback_tags.code_block_tags.1 <:+: " <p>x \n```py\nab\n```\n</p>".toList) := by
  decide!

/-- C16 (amended): the callback is called for a fenced block when the scan reaches its opening
fence; a fence that an earlier construct has consumed, such as one after an unclosed
backtick, is text.  Let the tag configuration hold a callback `h`, and let the document `d`
hold a terminated fenced block: after any text `pre`, a fence of three backticks, blanks, a
language token `L` (no space, tab, newline or backtick), blanks, a newline, a body with no
run of exactly three backticks (`run_free`), a fence of three backticks and a rest that does
not begin with a backtick.  Let `s` be the offset after the newline of the opening line and
`e = s + |body|` the offset of the closing fence.  (1) Entered with the cursor after the
opening fence, as the line loop enters it, `parse_code_block` appends the code-block opening
tag, the value `h L d s e` and the closing tag, and nothing else, and sets the cursor and the
pending span after the closing fence.  (2) The characters of `d` at `[s, e)` are the body.
(3) In every conversion of `d` that returns, if a pass of the driver loop starts with the
cursor on the opening fence, in the context `b`, then the output holds, in this order, what
was written before, the closing tags that are due (of the blockquotes, of the list frames,
the joining space, of the paragraph), the opening tag, the value `h L d s e`, the closing
tag, and the output of the rest of the document.  (4) For the document that is the block
alone, the conversion returns that text after the joining space and before the empty
paragraph of the line's end.  The callback is a function of the model, so a call is an
application: the written text holds the one value `h L d s e`, and the body itself is not
copied. -/
theorem highlighting_callback (a : args) (h : syntax_highlighting_callback)
    (pre w1 L w2 body post : List Char)
    (hcb : a.tags.syntax_highlighting = some h)
    (hmd : a.markdown = pre ++ ("```".toList ++ (w1 ++ (L ++ (w2 ++ '\n' :: (body
      ++ ("```".toList ++ post)))))))
    (hit : a.iterator = pre.length + 3)
    (hw1 : ∀ x ∈ w1, x = ' ' ∨ x = '\t') (hw2 : ∀ x ∈ w2, x = ' ' ∨ x = '\t')
    (hL : ∀ x ∈ L, x ≠ ' ' ∧ x ≠ '\n' ∧ x ≠ '\t' ∧ x ≠ '`') (hLw : L = [] → w2 = [])
    (hbody : run_free '`' 3 body) (hpost : ∀ x, post.head? = some x → x ≠ '`') :
    parse_code_block a = .ok { a with
      html_out := a.html_out ++ a.tags.code_block_tags.1
        ++ h L a.markdown (pre.length + 3 + w1.length + L.length + w2.length + 1)
          (pre.length + 3 + w1.length + L.length + w2.length + 1 + body.length)
        ++ a.tags.code_block_tags.2
      iterator := pre.length + 3 + w1.length + L.length + w2.length + 1 + body.length + 3
      block_begin := pre.length + 3 + w1.length + L.length + w2.length + 1 + body.length + 3 } ∧
    substr a.markdown (pre.length + 3 + w1.length + L.length + w2.length + 1) body.length
      = .ok body ∧
    (∀ (n : Nat) (out : List Char),
      cursor_of (after_lines n (initial a.markdown a.tags)) = .ok pre.length →
      markdown_to_html a.markdown a.tags = .ok out →
      ∃ b rest, after_lines n (initial a.markdown a.tags) = .ok b ∧
        out = b.html_out ++ repeated b.blockquote_level a.tags.blockquote_tags.2
          ++ frames_closing a.tags b.ongoing_lists ++ joining_space b
          ++ (if b.is_paragraph_open then "</p>".toList else [])
          ++ a.tags.code_block_tags.1
          ++ h L a.markdown (pre.length + 3 + w1.length + L.length + w2.length + 1)
            (pre.length + 3 + w1.length + L.length + w2.length + 1 + body.length)
          ++ a.tags.code_block_tags.2 ++ rest) ∧
    markdown_to_html
        ("```".toList ++ w1 ++ L ++ w2 ++ "\n".toList ++ body ++ "```\n".toList) a.tags =
      .ok (" ".toList ++ a.tags.code_block_tags.1
        ++ h L ("```".toList ++ w1 ++ L ++ w2 ++ "\n".toList ++ body ++ "```\n".toList)
          (3 + w1.length + L.length + w2.length + 1)
          (3 + w1.length + L.length + w2.length + 1 + body.length)
        ++ a.tags.code_block_tags.2 ++ " <p></p>".toList) := by
  refine ⟨?_, ?_, ?_, ?_⟩
  · rw [parse_code_block_fenced a (pre ++ "```".toList) w1 L w2 body post
      (by rw [hmd]; simp [List.replicate]) (by rw [hit]; simp) hw1 hw2
      (fun x hx => ⟨(hL x hx).1, (hL x hx).2.1, (hL x hx).2.2.1⟩) hLw hbody hpost]
    have h3 : "```".toList.length = 3 := rfl
    simp only [code_block_body, hcb, List.length_append, h3]
  · exact substr_eq _ (pre ++ ("```".toList ++ (w1 ++ (L ++ (w2 ++ ['\n']))))) body
      ("```".toList ++ post) _ _ (by rw [hmd]; simp) (by simp; omega) rfl
  · intro n out hcur hout
    exact fence_line_conversion a.markdown a.tags h pre w1 L w2 body post hcb hmd hw1 hw2 hL hLw
      hbody hpost n out hcur hout
  · rw [fenced_document_conversion a.tags w1 L w2 body hw1 hw2 hL hLw hbody]
    simp only [code_block_body, initial, hcb]

theorem highlighting_callback_witness :
    cursor_of (after_lines 1
      (initial "one\n``` py \nx=`1`\n```\ntwo\n".toList example_callback_tags)) = .ok 4 ∧
    markdown_to_html "one\n``` py \nx=`1`\n```\ntwo\n".toList example_callback_tags
      = .ok " <p>one </p><pre><code>py\n`1`=x</code></pre> <p> two</p>".toList ∧
    (∃ b rest,
      after_lines 1 (initial "one\n``` py \nx=`1`\n```\ntwo\n".toList example_callback_tags)
        = .ok b ∧
      " <p>one </p><pre><code>py\n`1`=x</code></pre> <p> two</p>".toList
        = b.html_out ++ repeated b.blockquote_level "</blockquote>\n".toList
          ++ frames_closing example_callback_tags b.ongoing_lists ++ joining_space b
          ++ (if b.is_paragraph_open then "</p>".toList else [])
          ++ "<pre><code>".toList ++ "py\n`1`=x".toList ++ "</code></pre>".toList ++ rest) ∧
    markdown_to_html "``` py \nx=`1`\n```\n".toList example_callback_tags
      = .ok " <pre><code>py\n`1`=x</code></pre> <p></p>".toList :=
  ⟨by decide!, by decide!,
   (highlighting_callback
    { initial "one\n``` py \nx=`1`\n```\ntwo\n".toList example_callback_tags with
      iterator := 7 }
    (fun L d s e => L ++ ((d.drop s).take (e - s)).reverse)
    "one\n".toList " ".toList "py".toList " ".toList "x=`1`\n".toList "\ntwo\n".toList
    rfl rfl rfl
    (by decide) (by decide) (by decide) (by decide) (by decide) (by decide)).2.2.1 1
      " <p>one </p><pre><code>py\n`1`=x</code></pre> <p> two</p>".toList
      (by decide!) (by decide!),
   (highlighting_callback
    { initial "one\n``` py \nx=`1`\n```\ntwo\n".toList example_callback_tags with
      iterator := 7 }
    (fun L d s e => L ++ ((d.drop s).take (e - s)).reverse)
    "one\n".toList " ".toList "py".toList " ".toList "x=`1`\n".toList "\ntwo\n".toList
    rfl rfl rfl
    (by decide) (by decide) (by decide) (by decide) (by decide) (by decide)).2.2.2⟩


/-! ## C21: the lookahead for an ordered-list marker -/

theorem digits_loop_to_end (md : List Char) : ∀ (ds pre : List Char) (fuel : Nat),
    md = pre ++ ds → (∀ x ∈ ds, isdigit x = true) → ds.length < fuel →
    digits_loop md true fuel pre.length = .error .out_of_range := by
  intro ds
  induction ds with
  | nil =>
    intro pre fuel hmd _ hf
    cases fuel with
    | zero => omega
    | succ f =>
      rw [digits_loop]
      have : md[pre.length]? = none := by
        rw [List.getElem?_eq_none_iff, hmd]; simp
      simp [char_at, this]
  | cons x ds ih =>
    intro pre fuel hmd hd hf
    cases fuel with
    | zero => omega
    | succ f =>
      rw [digits_loop, char_at_eq md pre ds x _ hmd rfl]
      have hx := hd x (by simp)
      simp only [if_true, hx]
      have := ih (pre ++ [x]) f (by simp [hmd]) (fun y hy => hd y (by simp [hy]))
        (by simp at hf; omega)
      simpa using this

theorem digits_loop_run (md : List Char) (c : Char) (hc : isdigit c = false) :
    ∀ (ds pre post : List Char) (fuel : Nat),
    md = pre ++ (ds ++ c :: post) → (∀ x ∈ ds, isdigit x = true) → ds.length < fuel →
    digits_loop md true fuel pre.length = .ok (pre.length + ds.length) := by
  intro ds
  induction ds with
  | nil =>
    intro pre post fuel hmd _ hf
    cases fuel with
    | zero => omega
    | succ f =>
      rw [digits_loop, char_at_eq md pre post c _ (by simpa using hmd) rfl]
      simp [hc]
  | cons x ds ih =>
    intro pre post fuel hmd hd hf
    cases fuel with
    | zero => omega
    | succ f =>
      rw [digits_loop, char_at_eq md pre (ds ++ c :: post) x _ (by simpa using hmd) rfl]
      have hx := hd x (by simp)
      simp only [if_true, hx]
      have := ih (pre ++ [x]) post f (by simp [hmd]) (fun y hy => hd y (by simp [hy]))
        (by simp at hf; omega)
      simp only [List.length_append, List.length_singleton] at this
      rw [this]; simp; omega

/-- The lookahead when the digits at the cursor run up to the end of the input: the read
after the last digit is out of range. -/
theorem is_ordered_list_element_at_end (a : args) (pre ds : List Char)
    (hmd : a.markdown = pre ++ ds) (hit : a.iterator = pre.length) (hne : ds ≠ [])
    (hd : ∀ x ∈ ds, isdigit x = true) :
    is_ordered_list_element a = .error .out_of_range := by
  have hpos : 0 < ds.length := List.length_pos.mpr hne
  have hg : iter_good a = true := by
    unfold iter_good
    rw [hmd, hit]; simp; omega
  unfold is_ordered_list_element
  rw [hg, hit, digits_loop_to_end a.markdown ds pre _ hmd hd (by rw [hmd]; simp)]

/-- The lookahead when a character that is no digit follows the digits at the cursor: the
answer is whether that character is a `.` and there is at least one digit. -/
theorem is_ordered_list_element_inside (a : args) (pre ds post : List Char) (c : Char)
    (hmd : a.markdown = pre ++ (ds ++ c :: post)) (hit : a.iterator = pre.length)
    (hd : ∀ x ∈ ds, isdigit x = true) (hc : isdigit c = false) :
    is_ordered_list_element a = .ok (decide (c = '.') && decide (ds ≠ [])) := by
  have hg : iter_good a = true := by
    unfold iter_good
    rw [hmd, hit]; simp
  unfold is_ordered_list_element
  rw [hg, hit, digits_loop_run a.markdown c hc ds pre post _ hmd hd (by rw [hmd]; simp; omega)]
  simp only
  rw [char_at_eq a.markdown (pre ++ ds) post c _ (by simp [hmd]) (by simp)]
  cases ds with
  | nil => simp
  | cons x ds' => simp

/-- C21 (failing input): on the document `12` with the cursor at its start the lookahead
does not return: the loop tests `iter_good` on the cursor, not on `iterator_copy`, and the
read after the last digit is out of range; so is the conversion of `12`.  Where a character
follows the digits the answer is as claimed: true for `12.`, false for `12a` and for `a.`. -/
theorem ordered_marker_lookahead_throws :
    is_ordered_list_element (initial "12".toList default_tags) = .error .out_of_range ∧
    markdown_to_html "12".toList default_tags = .error .out_of_range ∧
    is_ordered_list_element (initial "12.".toList default_tags) = .ok true ∧
    is_ordered_list_element (initial "12a".toList default_tags) = .ok false ∧
    is_ordered_list_element (initial "a.".toList default_tags) = .ok false := by
  decide!


/-! ## C22: progress and termination -/

theorem skip_while_fuel (p : Char → Bool) (md : List Char) : ∀ (fuel it : Nat),
    md.length - it ≤ fuel → skip_while p md (fuel + 1) it = skip_while p md fuel it := by
  intro fuel
  induction fuel with
  | zero =>
    intro it h
    have : md[it]? = none := by rw [List.getElem?_eq_none_iff]; omega
    simp [skip_while, this]
  | succ f ih =>
    intro it h
    conv_lhs => rw [skip_while]
    conv_rhs => rw [skip_while]
    cases hc : md[it]? with
    | none => rfl
    | some c =>
      simp only
      split
      · exact ih (it + 1) (by omega)
      · rfl

theorem get_indentation_loop_fuel (md : List Char) : ∀ (fuel it ind : Nat),
    md.length - it ≤ fuel →
    get_indentation_loop md (fuel + 1) it ind = get_indentation_loop md fuel it ind := by
  intro fuel
  induction fuel with
  | zero =>
    intro it ind h
    have : md[it]? = none := by rw [List.getElem?_eq_none_iff]; omega
    simp [get_indentation_loop, this]
  | succ f ih =>
    intro it ind h
    conv_lhs => rw [get_indentation_loop]
    conv_rhs => rw [get_indentation_loop]
    cases hc : md[it]? with
    | none => rfl
    | some c =>
      simp only
      split
      · exact ih (it + 1) _ (by omega)
      · split
        · exact ih (it + 1) _ (by omega)
        · rfl

theorem find_run_fuel (md : List Char) (c : Char) (n : Nat) : ∀ (fuel it : Nat),
    md.length - it ≤ fuel → find_run md c n (fuel + 1) it = find_run md c n fuel it := by
  intro fuel
  induction fuel with
  | zero =>
    intro it h
    have : ¬ it < md.length := by omega
    simp [find_run, this]
  | succ f ih =>
    intro it h
    conv_lhs => rw [find_run]
    conv_rhs => rw [find_run]
    simp only
    split
    · split
      · split
        · rfl
        · have := scan_ge (fun x => decide (x = c)) md it
          exact ih _ (by omega)
      · exact ih _ (by omega)
    · rfl

theorem finished_after_lines : ∀ (n : Nat) (a : args), a.markdown.length - a.iterator ≤ n →
    finished (after_lines n a) := by
  intro n
  induction n with
  | zero =>
    intro a h
    rw [after_lines]
    show a.markdown.length ≤ a.iterator
    omega
  | succ k ih =>
    intro a h
    rw [after_lines]
    split
    · have hm := parse_line_moves a
      split
      · rename_i e he
        show e = Fault.out_of_range
        cases e with
        | out_of_range => rfl
        | fuel => exact absurd he hm.1
      · rename_i b hb
        obtain ⟨m, i⟩ := hm.2 b hb
        exact ih b (by rw [m]; omega)
    · show a.markdown.length ≤ a.iterator
      omega

theorem dump_paragraph_keeps_cursor (a : args) (c : Bool) : moves a 0 (dump_paragraph a c) :=
  ⟨(dump_paragraph_moves a c).1, fun b hb =>
    ⟨((dump_paragraph_moves a c).2 b hb).1, by
      rw [((dump_paragraph_moves a c).2 b hb).2]; exact Nat.le_refl _⟩⟩

/-- C22: a call of `parse_line` that returns leaves the cursor strictly greater than at
entry (for every parse context `a`, with `n` the cursor it returns with).  No sub-parser
hands the cursor back behind the place it got it at (`moves`: same document, cursor not
smaller, no counter of the model run out), so the rewinds inside `parse_asteriks` and
`parse_code_block` are undone when they return; `parse_named_link` and `parse_image` advance
by one at least; and one pass of the dispatch chain of the line loop, with the rewinds
`parse_line` itself makes before a flush, ends with the cursor strictly further
(`advances`).  Therefore the driver loop of `markdown_to_html` is over after as many passes
as the document has characters (`finished`: the cursor is at the end, or the run ended in
the `std::out_of_range` throw), and neither the driver loop nor the conversion ever stops
for an exhausted counter: the conversion ends on every input, in a result or in that
throw. -/
theorem progress_and_termination (md : List Char) (tags : html_tags) (a : args) (n : Nat)
    (h : cursor_of (parse_line a) = .ok n) :
    a.iterator < n ∧
    (moves a 0 (parse_heading a) ∧ moves a 0 (parse_asteriks a) ∧
      moves a 0 (parse_strikethrough a) ∧ (∀ k, moves a 0 (parse_code a k)) ∧
      moves a 0 (parse_code_block a) ∧ moves a 1 (parse_named_link a) ∧
      moves a 1 (parse_image a) ∧ (∀ c, moves a 0 (dump_paragraph a c))) ∧
    (∀ c f, a.markdown[a.iterator]? = some c → advances a (parse_line_step a c f)) ∧
    finished (after_lines md.length (initial md tags)) ∧
    parse_lines md.length (initial md tags) ≠ .error .fuel ∧
    markdown_to_html md tags ≠ .error .fuel := by
  refine ⟨?_, ⟨?_, ?_, ?_, ?_, ?_, ?_, ?_, ?_⟩, ?_, ?_, ?_, ?_⟩
  · unfold cursor_of at h
    split at h
    · cases h
    · rename_i b hb
      cases h
      have := ((parse_line_moves a).2 b hb).2
      omega
  · exact parse_heading_moves a 0 (count_char_cursor '#' a).2
  · exact parse_asteriks_moves a 0 (count_char_cursor '*' a).2
  · exact parse_strikethrough_moves a
  · exact fun k => parse_code_moves a k 0 (scan_ge _ _ _)
  · exact parse_code_block_moves a
  · exact parse_named_link_moves a
  · exact parse_image_moves a
  · exact fun c => dump_paragraph_keeps_cursor a c
  · exact fun c f hc => parse_line_step_advances a c f hc
  · exact finished_after_lines md.length _ (by show md.length - 0 ≤ md.length; omega)
  · exact parse_lines_spec md.length _ (by show md.length - 0 ≤ md.length; omega)
  · exact markdown_to_html_not_fuel md tags

theorem first_and_fourth {p q r s t u : Prop} (h : p ∧ q ∧ r ∧ s ∧ t ∧ u) : p ∧ s :=
  ⟨h.1, h.2.2.2.1⟩

theorem progress_and_termination_witness :
    (initial "ab\ncd".toList default_tags).iterator < 3 ∧
    finished (after_lines "# t\n- `x`\n".toList.length
      (initial "# t\n- `x`\n".toList default_tags)) :=
  first_and_fourth (progress_and_termination "# t\n- `x`\n".toList default_tags
    (initial "ab\ncd".toList default_tags) 3 (by decide!))


/-! ## C23: blank lines and paragraphs -/

/-- A line that is a word of letters, outside blockquotes and lists: `parse_line` flushes
the word, after the joining space and the paragraph opening tag when none is open. -/
theorem parse_line_word (a : args) (pre w post : List Char)
    (hmd : a.markdown = pre ++ (w ++ '\n' :: post)) (hit : a.iterator = pre.length)
    (hw : ∀ x ∈ w, is_letter x) (hne : w ≠ []) (hq : a.blockquote_level = 0)
    (hl : a.ongoing_lists = []) :
    parse_line a = .ok { a with
      html_out := a.html_out ++ joining_space a
        ++ (if a.is_paragraph_open then [] else "<p>".toList) ++ w
      iterator := pre.length + w.length + 1
      block_begin := pre.length + w.length
      line_indentation := 0
      is_paragraph_open := true
      paragraph_ended_with_space := false } := by
  obtain ⟨c, t, rfl⟩ : ∃ c t, w = c :: t := by
    cases w with
    | nil => exact absurd rfl hne
    | cons c t => exact ⟨c, t, rfl⟩
  have hc : is_letter c := hw c (by simp)
  have h0 : a.markdown[a.iterator]? = some c :=
    getElem?_split _ pre (t ++ '\n' :: post) c _ (by simpa using hmd) hit
  have hcn : c ≠ '\n' := letter_ne c _ hc (by decide)
  have hcs : c ≠ ' ' := letter_ne c _ hc (by decide)
  obtain ⟨n, hn⟩ : ∃ n, n = pre.length + (c :: t).length := ⟨_, rfl⟩
  have hnl : a.markdown[n]? = some '\n' :=
    getElem?_split _ (pre ++ c :: t) post '\n' _ (by simp [hmd]) (by simp [hn])
  have hlen : n < a.markdown.length := by rw [hmd, hn]; simp
  have hsp : spaces_after 0 t = 0 :=
    spaces_after_no_space t 0 rfl
      (fun x hx => letter_ne x _ (hw x (by simp [hx])) (by decide))
  have hfuel : 0 < a.markdown.length - a.iterator := by rw [hit]; simp at hn; omega
  have hspan : pending_span { a with
      line_indentation := 0, block_begin := a.iterator, iterator := n } = c :: t := by
    simp [pending_span, hmd, hn, hit]
  have hlast : decide ((c :: t).getLast? = some ' ') = false := by
    simp only [decide_eq_false_iff_not]
    intro h
    exact letter_ne ' ' ' ' (hw ' ' (List.mem_of_getLast?_eq_some h)) (by decide) rfl
  unfold parse_line
  rw [parse_line_head_letter a c hc h0 hq]
  have hll : a.ongoing_lists.length = 0 := by rw [hl]; rfl
  simp only [parse_line_body, char_at, h0, hcn, if_false, hll, ne_eq,
    not_true_eq_false, decide_False, Bool.and_false, Bool.false_and, Bool.false_eq_true]
  rw [parse_line_loop_step _ { a with line_indentation := 0, block_begin := a.iterator } c _ _
    h0 hcn hfuel]
  rw [parse_line_step_letter_first { a with line_indentation := 0, block_begin := a.iterator }
    c hc h0]
  simp only [hcs, if_false]
  rw [parse_line_loop_text _ (pre ++ [c]) t ('\n' :: post) _ _ n (by simp [hmd])
    (by simp [hit]) (fun x hx => letter_ordinary x (hw x (by simp [hx])))
    (by rw [hmd, hit]; simp; try omega) (by simp [hn]; try omega)]
  rw [parse_line_loop_end _ _ _ _ _ (Or.inr hnl)]
  have h20 : decide (2 ≤ 0) = false := rfl
  simp only [hsp, ge_iff_le, h20]
  have hlt : a.iterator < n := by rw [hit, hn]; simp
  rw [dump_paragraph_span _ false (by simp only; exact hlt) (by simp only; omega)]
  have hne2 : ¬ n = a.iterator := by omega
  simp only [flush, hspan, hlast, hne2, if_false]
  cases hpo : a.is_paragraph_open <;>
    simp [hl, joining_space, hn, hit, Nat.add_assoc]

/-- A blank line outside blockquotes: `parse_line` closes the paragraph that is open and
steps over the newline. -/
theorem parse_line_blank (a : args) (hc : a.markdown[a.iterator]? = some '\n')
    (hq : a.blockquote_level = 0) :
    parse_line a = .ok { try_close_paragraph { a with line_indentation := 0 } with
      iterator := a.iterator + 1 } := by
  unfold parse_line
  rw [parse_line_head_plain a '\n' hc (by decide) (by decide) (by decide) hq]
  simp only [parse_line_body, char_at, hc, if_true]
  have h := (try_close_paragraph_cursor { a with line_indentation := 0 }).2
  simp only at h
  rw [h]

theorem letters_no_lt (w : List Char) (hw : ∀ x ∈ w, is_letter x) : '<' ∉ w :=
  fun h => absurd (hw '<' h) (by decide)

theorem two_paragraphs_output (tags : html_tags) (a b : List Char)
    (ha : ∀ x ∈ a, is_letter x) (hb : ∀ x ∈ b, is_letter x) (hane : a ≠ []) (hbne : b ≠ []) :
    markdown_to_html (a ++ "\n\n".toList ++ b ++ "\n".toList) tags
      = .ok (" <p>".toList ++ a ++ "</p> <p>".toList ++ b ++ "</p>".toList) := by
  obtain ⟨md, hmd⟩ : ∃ md, md = a ++ "\n\n".toList ++ b ++ "\n".toList := ⟨_, rfl⟩
  have hmd1 : md = [] ++ (a ++ '\n' :: ('\n' :: (b ++ ['\n']))) := by rw [hmd]; simp
  have hmd2 : md = (a ++ ['\n', '\n']) ++ (b ++ '\n' :: []) := by rw [hmd]; simp
  have hlen : md.length = a.length + 2 + b.length + 1 := by rw [hmd1]; simp; omega
  have hapos : 0 < a.length := List.length_pos.mpr hane
  have hnl2 : md[a.length + 1]? = some '\n' :=
    getElem?_split md (a ++ ['\n']) (b ++ ['\n']) '\n' _ (by simp [hmd1]) (by simp)
  rw [← hmd]
  unfold markdown_to_html
  rw [parse_lines_step _ _ (by simp only; omega) (by omega)]
  rw [parse_line_word { html_out := [], markdown := md, tags := tags } [] a
    ('\n' :: (b ++ ['\n'])) hmd1 rfl ha hane rfl rfl]
  simp only [List.length_nil, Nat.zero_add]
  rw [parse_lines_step _ _ (by simp only; omega) (by omega)]
  rw [parse_line_blank _ (by simpa using hnl2) rfl]
  simp only [try_close_paragraph, if_true, emit]
  rw [parse_lines_step _ _ (by simp only; omega) (by omega)]
  rw [parse_line_word _ (a ++ ['\n', '\n']) b [] hmd2 (by simp) hb hbne rfl rfl]
  simp only [List.length_append, List.length_cons, List.length_nil]
  rw [parse_lines_done _ _ (by simp only [hlen]; omega)]
  simp [finish, try_close_paragraph, emit, close_all_lists, close_all_lists_loop,
    close_blockquotes, joining_space]

theorem one_paragraph_output (tags : html_tags) (a b : List Char)
    (ha : ∀ x ∈ a, is_letter x) (hb : ∀ x ∈ b, is_letter x) (hane : a ≠ []) (hbne : b ≠ []) :
    markdown_to_html (a ++ "\n".toList ++ b ++ "\n".toList) tags
      = .ok (" <p>".toList ++ a ++ " ".toList ++ b ++ "</p>".toList) := by
  obtain ⟨md, hmd⟩ : ∃ md, md = a ++ "\n".toList ++ b ++ "\n".toList := ⟨_, rfl⟩
  have hmd1 : md = [] ++ (a ++ '\n' :: (b ++ ['\n'])) := by rw [hmd]; simp
  have hmd2 : md = (a ++ ['\n']) ++ (b ++ '\n' :: []) := by rw [hmd]; simp
  have hlen : md.length = a.length + 1 + b.length + 1 := by rw [hmd1]; simp; omega
  have hapos : 0 < a.length := List.length_pos.mpr hane
  rw [← hmd]
  unfold markdown_to_html
  rw [parse_lines_step _ _ (by simp only; omega) (by omega)]
  rw [parse_line_word { html_out := [], markdown := md, tags := tags } [] a
    (b ++ ['\n']) hmd1 rfl ha hane rfl rfl]
  simp only [List.length_nil, Nat.zero_add]
  rw [parse_lines_step _ _ (by simp only; omega) (by omega)]
  rw [parse_line_word _ (a ++ ['\n']) b [] hmd2 (by simp) hb hbne rfl rfl]
  simp only [List.length_append, List.length_cons, List.length_nil]
  rw [parse_lines_done _ _ (by simp only [hlen]; omega)]
  simp [finish, try_close_paragraph, emit, close_all_lists, close_all_lists_loop,
    close_blockquotes, joining_space]

theorem occ_two_paragraphs (pat x1 x2 x3 a b : List Char) (hp : tag_pattern pat)
    (ha : '<' ∉ a) (hb : '<' ∉ b) (h1 : settled x1) (h2 : settled x2) :
    occ pat (x1 ++ a ++ x2 ++ b ++ x3) = occ pat x1 + occ pat x2 + occ pat x3 := by
  have hhead : pat.head? = some '<' := by
    obtain ⟨rest, rfl, -, -⟩ := hp
    rfl
  have sa := settled_of_no_lt ha
  have sb := settled_of_no_lt hb
  rw [occ_append pat hp (x1 ++ a ++ x2 ++ b) x3 false
      (settled_append (settled_append (settled_append h1 sa) h2) sb),
    occ_append pat hp (x1 ++ a ++ x2) b false (settled_append (settled_append h1 sa) h2),
    occ_append pat hp (x1 ++ a) x2 false (settled_append h1 sa),
    occ_append pat hp x1 a false h1,
    occ_of_no_lt pat a hhead ha, occ_of_no_lt pat b hhead hb]
  omega

/-- C23: for all non-empty words `a` and `b` of letters and every tag configuration (the
paragraph tags are not configurable), converting `a`, a blank line, `b` and a newline
returns a space, `<p>a</p>`, a space and `<p>b</p>`: the output holds `<p>a</p>` and after
it `<p>b</p>`, with exactly two `<p>` and two `</p>`.  With a single newline between them
the conversion returns a space and `<p>a b</p>`: one paragraph, the words separated by one
space. -/
theorem blank_line_ends_paragraph (tags : html_tags) (a b : List Char)
    (ha : ∀ x ∈ a, is_letter x) (hb : ∀ x ∈ b, is_letter x) (hane : a ≠ []) (hbne : b ≠ []) :
    markdown_to_html (a ++ "\n\n".toList ++ b ++ "\n".toList) tags
      = .ok (" ".toList ++ ("<p>".toList ++ a ++ "</p>".toList) ++ " ".toList
        ++ ("<p>".toList ++ b ++ "</p>".toList)) ∧
    occ "<p>".toList (" ".toList ++ ("<p>".toList ++ a ++ "</p>".toList) ++ " ".toList
        ++ ("<p>".toList ++ b ++ "</p>".toList)) = 2 ∧
    occ "</p>".toList (" ".toList ++ ("<p>".toList ++ a ++ "</p>".toList) ++ " ".toList
        ++ ("<p>".toList ++ b ++ "</p>".toList)) = 2 ∧
    markdown_to_html (a ++ "\n".toList ++ b ++ "\n".toList) tags
      = .ok (" ".toList ++ ("<p>".toList ++ (a ++ " ".toList ++ b) ++ "</p>".toList)) := by
  have e : " ".toList ++ ("<p>".toList ++ a ++ "</p>".toList) ++ " ".toList
      ++ ("<p>".toList ++ b ++ "</p>".toList)
      = " <p>".toList ++ a ++ "</p> <p>".toList ++ b ++ "</p>".toList := by
    simp
  refine ⟨?_, ?_, ?_, ?_⟩
  · rw [two_paragraphs_output tags a b ha hb hane hbne, e]
  · rw [e]
    exact (occ_two_paragraphs (opening .p) " <p>".toList "</p> <p>".toList "</p>".toList a b
      (tag_pattern_opening .p) (letters_no_lt a ha) (letters_no_lt b hb) (by decide)
      (by decide)).trans (by rfl)
  · rw [e]
    exact (occ_two_paragraphs (closing .p) " <p>".toList "</p> <p>".toList "</p>".toList a b
      (tag_pattern_closing .p) (letters_no_lt a ha) (letters_no_lt b hb) (by decide)
      (by decide)).trans (by rfl)
  · rw [one_paragraph_output tags a b ha hb hane hbne]
    simp

theorem blank_line_ends_paragraph_witness :
    markdown_to_html "one\n\ntwo\n".toList default_tags = .ok " <p>one</p> <p>two</p>".toList ∧
    markdown_to_html "one\ntwo\n".toList default_tags = .ok " <p>one two</p>".toList :=
  ⟨(blank_line_ends_paragraph default_tags "one".toList "two".toList (by decide) (by decide)
      (by decide) (by decide)).1,
   (blank_line_ends_paragraph default_tags "one".toList "two".toList (by decide) (by decide)
      (by decide) (by decide)).2.2.2⟩

end markdown_parsing
